import Mathlib

/-!
# Euler tour flattening with a Fenwick tree: a verification of `main.cpp`

The development embeds the three pieces of `src/main.cpp`:

* `dfs`: the recursive traversal that stamps `tin`/`tout` from the global `timer`;
* `update`, `query`, `query_range`: the Fenwick tree over the global array `bit`;
* the steps of `main`: the initialisation loop and the node update.

Modelling conventions.  The traversal writes the global arrays `tin`, `tout` (total maps out
of `Nat`, zero-initialised) and the counter `timer`.  The Fenwick tree is embedded twice.
The first embedding (`update`, `query`, `query_range`, `initLoop`, `updateNode`) computes
over the mathematical integers with a total map for `bit`; it is the reference for the
algorithm and agrees with the program as long as no value leaves its machine range and no
index leaves the array.  The second embedding (`updateM`, `queryM`, `query_rangeM`,
`initLoopM`, `updateNodeM`) has the widths of the source: `int` indices that may be
negative, `long long` cells and sums that wrap at 64 bits, an `int diff` that wraps at 32
bits, and the `MAXN` cells of `bit`.  Every machine cell is the 64-bit wrap of the
mathematical cell (`updateM_sim`, `queryLoopM_sim`).  Loops and recursion that the source
does not bound carry a fuel argument, so that termination is a statement (a result for
enough fuel) and divergence is a statement (no result for any fuel).
-/

namespace EulerTour

/-! ## The traversal -/

/-- The globals written by `dfs`: the arrays `tin`, `tout` and the counter `timer`. -/
structure TourState where
  tin : Nat → Nat
  tout : Nat → Nat
  timer : Nat

/-- The state of the globals at program start: every cell is zero. -/
def TourState.init : TourState := ⟨fun _ => 0, fun _ => 0, 0⟩

/-- The statement `tin[u] = ++timer;` at the head of `dfs`. -/
def enter (s : TourState) (u : Nat) : TourState :=
  { s with timer := s.timer + 1, tin := Function.update s.tin u (s.timer + 1) }

/-- The statement `tout[u] = timer;` at the end of `dfs`. -/
def leave (s : TourState) (u : Nat) : TourState :=
  { s with tout := Function.update s.tout u s.timer }

/-- The function `dfs(u, p)` of `main.cpp` over the adjacency lists `adj`.  The first
argument bounds the recursion depth; `none` means the depth was exceeded. -/
def dfs (adj : Nat → List Nat) : Nat → Nat → Nat → TourState → Option TourState
  | 0, _, _, _ => none
  | fuel + 1, u, p, s =>
    match (adj u).foldlM (fun st v => if v ≠ p then dfs adj fuel v u st else some st)
        (enter s u) with
    | none => none
    | some s2 => some (leave s2 u)

/-! ## The Fenwick tree -/

/-- The expression `idx & -idx` on a non-negative `int`, in two's complement. -/
def lowbit (idx : Nat) : Nat := (Int.land (idx : Int) (-(idx : Int))).toNat

/-- The function `update(idx, val)` over the mathematical integers: the loop
`for (; idx <= n; idx += idx & -idx) bit[idx] += val;` on a non-negative index.  The fuel
counts the iterations the loop may take.  The machine-width loop is `updateM`. -/
def update (n : Nat) : Nat → Nat → Int → (Nat → Int) → Option (Nat → Int)
  | fuel, idx, val, bit =>
    if idx ≤ n then
      match fuel with
      | 0 => none
      | k + 1 => update n k (idx + lowbit idx) val (Function.update bit idx (bit idx + val))
    else some bit

/-- The loop of `query` over the mathematical integers: `for (; idx > 0; idx -= idx & -idx)
sum += bit[idx];`.  The machine-width loop is `queryLoopM`. -/
def queryLoop (bit : Nat → Int) : Nat → Nat → Int → Option Int
  | fuel, idx, sum =>
    if 0 < idx then
      match fuel with
      | 0 => none
      | k + 1 => queryLoop bit k (idx - lowbit idx) (sum + bit idx)
    else some sum

/-- The function `query(idx)`: the loop started with `sum = 0`. -/
def query (bit : Nat → Int) (fuel idx : Nat) : Option Int := queryLoop bit fuel idx 0

/-- The function `query_range(l, r)`, which returns `query(r) - query(l - 1)`.  For `l = 0`
the source passes `-1` to `query`, whose loop does not run; the truncated `0 - 1 = 0` gives
the same result. -/
def query_range (bit : Nat → Int) (fuel l r : Nat) : Option Int :=
  match query bit fuel r, query bit fuel (l - 1) with
  | some a, some b => some (a - b)
  | _, _ => none

/-! ## The steps of `main` -/

/-- The adjacency lists as `main` builds them on lines 82-85; the last statement pushes
`1`, not `2`, onto `adj[5]`. -/
def mainAdj : Nat → List Nat
  | 1 => [2, 3]
  | 2 => [1, 4, 5]
  | 3 => [1]
  | 4 => [2]
  | 5 => [1]
  | _ => []

/-- The symmetric adjacency lists of the reference tree with edges 1-2, 1-3, 2-4, 2-5,
in the insertion order of `main` (2 before 3, 4 before 5). -/
def refAdj : Nat → List Nat
  | 1 => [2, 3]
  | 2 => [1, 4, 5]
  | 3 => [1]
  | 4 => [2]
  | 5 => [2]
  | _ => []

/-- The vector `values` of `main`: `{0, 10, 20, 30, 40, 50}`. -/
def mainValues : Nat → Int
  | 1 => 10
  | 2 => 20
  | 3 => 30
  | 4 => 40
  | 5 => 50
  | _ => 0

/-- The loop `for (i = 1; i <= n; i++) update(tin[i], values[i]);` of `main`. -/
def initLoop (n fuel : Nat) (tin : Nat → Nat) (values : Nat → Int) (bit : Nat → Int) :
    Option (Nat → Int) :=
  (List.range' 1 n).foldlM (fun b i => update n fuel (tin i) (values i) b) bit

/-- The array `bit` together with the vector `values` that `main` keeps beside it. -/
structure AggState where
  bit : Nat → Int
  values : Nat → Int

/-- The node update of `main` over the mathematical integers: `diff = v - values[u];
update(tin[u], diff); values[u] = v;`.  The machine-width update, whose `int diff` wraps, is
`updateNodeM`. -/
def updateNode (n fuel : Nat) (tin : Nat → Nat) (u : Nat) (v : Int) (a : AggState) :
    Option AggState :=
  match update n fuel (tin u) (v - a.values u) a.bit with
  | none => none
  | some b => some ⟨b, Function.update a.values u v⟩

/-- The body of `main` after the adjacency lists are built (lines 93-123), over the lists
`adj`: `n = 5`, `timer = 0`, `dfs(1, 0)`, the initialisation loop, the first subtree query
of node 2, the update of node 4 to 100 and the second query.  The result is the pair of
printed sums. -/
def mainRun (adj : Nat → List Nat) (fuel : Nat) : Option (Int × Int) :=
  match dfs adj fuel 1 0 TourState.init with
  | none => none
  | some s =>
    match initLoop 5 fuel s.tin mainValues (fun _ => 0) with
    | none => none
    | some bit =>
      match query_range bit fuel (s.tin 2) (s.tout 2) with
      | none => none
      | some sum1 =>
        match updateNode 5 fuel s.tin 4 100 ⟨bit, mainValues⟩ with
        | none => none
        | some st =>
          match query_range st.bit fuel (s.tin 2) (s.tout 2) with
          | none => none
          | some sum2 => some (sum1, sum2)

/-! ## Rooted trees and their adjacency lists -/

/-- A rooted tree: the label of the root and the subtrees of its children, in order. -/
inductive RTree where
  | node (label : Nat) (children : List RTree)

/-- The label of the root of a rooted tree. -/
def RTree.label : RTree → Nat
  | .node u _ => u

/-- The subtrees below the root of a rooted tree. -/
def RTree.children : RTree → List RTree
  | .node _ cs => cs

mutual
/-- The labels of a rooted tree, root first. -/
def RTree.nodes : RTree → List Nat
  | .node u cs => u :: RTree.nodesOfList cs
/-- The labels of a list of rooted trees. -/
def RTree.nodesOfList : List RTree → List Nat
  | [] => []
  | c :: cs => c.nodes ++ RTree.nodesOfList cs
end

mutual
/-- Every subtree of a rooted tree, the tree itself first. -/
def RTree.subtrees : RTree → List RTree
  | .node u cs => .node u cs :: RTree.subtreesOfList cs
/-- Every subtree of a list of rooted trees. -/
def RTree.subtreesOfList : List RTree → List RTree
  | [] => []
  | c :: cs => c.subtrees ++ RTree.subtreesOfList cs
end

/-- Node `d` lies in the subtree of node `u` (which includes `u`): some subtree of `t` is
rooted at `u` and contains `d`. -/
def inSubtree (t : RTree) (u d : Nat) : Prop :=
  ∃ r ∈ t.subtrees, r.label = u ∧ d ∈ r.nodes

instance (t : RTree) (u d : Nat) : Decidable (inSubtree t u d) := by
  unfold inSubtree; infer_instance

/-- Node `u` has no children in the rooted tree `t`. -/
def isLeaf (t : RTree) (u : Nat) : Prop :=
  ∃ r ∈ t.subtrees, r.label = u ∧ r.children = []

/-- The lists `adj` are symmetric adjacency lists of the rooted tree: every node lists each
of its children once and, unless it is the root, its parent once, in any order. -/
inductive IsAdjacency (adj : Nat → List Nat) : Option Nat → RTree → Prop
  | node (par : Option Nat) (u : Nat) (cs : List RTree) :
      (adj u).Perm (par.toList ++ cs.map RTree.label) →
      (∀ c ∈ cs, IsAdjacency adj (some u) c) →
      IsAdjacency adj par (RTree.node u cs)

/-- A tree on the nodes `1..N` given as symmetric adjacency lists `adj`, seen from the root
`t.label`. -/
def IsTreeOn (N : Nat) (adj : Nat → List Nat) (t : RTree) : Prop :=
  t.nodes.Perm (List.range' 1 N) ∧ IsAdjacency adj none t

/-- The reference tree of the demo: root 1 with children 2 and 3, node 2 with children 4
and 5. -/
def refTree : RTree := .node 1 [.node 2 [.node 4 [], .node 5 []], .node 3 []]

/-! ## Specification vocabulary -/

/-- A sequence of calls `update(i, d)`, in order. -/
def updates (n fuel : Nat) (ops : List (Nat × Int)) (bit : Nat → Int) : Option (Nat → Int) :=
  ops.foldlM (fun b op => update n fuel op.1 op.2 b) bit

/-- A sequence of node updates `(u, v)`, in order. -/
def updateNodes (n fuel : Nat) (tin : Nat → Nat) (ups : List (Nat × Int)) (a : AggState) :
    Option AggState :=
  ups.foldlM (fun st up => updateNode n fuel tin up.1 up.2 st) a

/-- The logical value of slot `j` after the calls `ops`: the sum of the deltas sent to `j`. -/
def slotValue (ops : List (Nat × Int)) (j : Nat) : Int :=
  ((ops.filter (fun op => op.1 = j)).map Prod.snd).sum

/-- The calls that place the value of every node of `L` at its entry time. -/
def nodeOps (L : List Nat) (tin : Nat → Nat) (values : Nat → Int) : List (Nat × Int) :=
  L.map (fun i => (tin i, values i))

/-- The sum of the values of the nodes in the subtree of `u`. -/
def subtreeSum (t : RTree) (values : Nat → Int) (u : Nat) : Int :=
  ((t.nodes.filter (fun d => inSubtree t u d)).map values).sum

/-- The Fenwick cell invariant: cell `i` holds the sum of the logical slots
`i - lowbit i + 1 .. i`. -/
def FenInv (n : Nat) (bit a : Nat → Int) : Prop :=
  ∀ i, 1 ≤ i → i ≤ n → bit i = ∑ j ∈ Finset.Ioc (i - lowbit i) i, a j

/-- The cells of `bit` agree with the vector `values` placed at the entry times. -/
def Synced (N : Nat) (tin : Nat → Nat) (a : AggState) : Prop :=
  FenInv N a.bit (slotValue (nodeOps (List.range' 1 N) tin a.values))

/-- What a traversal of the nodes `ns`, whose subtrees are `rs`, leaves behind when it
starts in state `s` and ends in state `s2`. -/
structure Stamped (ns : List Nat) (rs : List RTree) (s s2 : TourState) : Prop where
  timer_eq : s2.timer = s.timer + ns.length
  frame : ∀ x, x ∉ ns → s2.tin x = s.tin x ∧ s2.tout x = s.tout x
  range : ∀ d ∈ ns, s.timer < s2.tin d ∧ s2.tin d ≤ s2.tout d ∧ s2.tout d ≤ s2.timer
  inj : ∀ d ∈ ns, ∀ e ∈ ns, s2.tin d = s2.tin e → d = e
  sub : ∀ r ∈ rs, s2.tout r.label + 1 = s2.tin r.label + r.nodes.length ∧
    ∀ d ∈ r.nodes, s2.tin r.label ≤ s2.tin d ∧ s2.tout d ≤ s2.tout r.label

/-! ## Further vocabulary -/

/-- Adjacency lists on the nodes 1..3 with the single edge 1-2: node 3 is unreachable from
node 1. -/
def splitAdj : Nat → List Nat
  | 1 => [2]
  | 2 => [1]
  | _ => []

/-- The number of nodes in the subtree of `u`. -/
def subtreeSize (t : RTree) (u : Nat) : Nat :=
  (t.nodes.filter (fun d => inSubtree t u d)).length

/-- Node `x` can be reached from node `r` along the adjacency lists. -/
def Reachable (adj : Nat → List Nat) (r x : Nat) : Prop :=
  Relation.ReflTransGen (fun a b => b ∈ adj a) r x

/-- The two-node tree on which `splitAdj` is symmetric: root 1 with the child 2. -/
def splitTree : RTree := .node 1 [.node 2 []]

/-- The globals of `dfs` together with a ghost record of its writes: the nodes whose `tin`
cell was assigned and the nodes whose `tout` cell was assigned, in the order of
execution. -/
structure Traced where
  state : TourState
  tinWrites : List Nat
  toutWrites : List Nat

/-- The function `dfs(u, p)` with the ghost record: the statement `tin[u] = ++timer`
appends `u` to `tinWrites` and the statement `tout[u] = timer` appends `u` to
`toutWrites`. -/
def dfsTraced (adj : Nat → List Nat) : Nat → Nat → Nat → Traced → Option Traced
  | 0, _, _, _ => none
  | fuel + 1, u, p, g =>
    match (adj u).foldlM (fun st v => if v ≠ p then dfsTraced adj fuel v u st else some st)
        ⟨enter g.state u, g.tinWrites ++ [u], g.toutWrites⟩ with
    | none => none
    | some g2 => some ⟨leave g2.state u, g2.tinWrites, g2.toutWrites ++ [u]⟩

/-- Between the records `g` and `g2` every node of `ns` had its `tin` cell assigned exactly
once and its `tout` cell assigned exactly once, and no other cell was assigned. -/
def Logged (ns : List Nat) (g g2 : Traced) : Prop :=
  ∃ es ls, g2.tinWrites = g.tinWrites ++ es ∧ es.Perm ns ∧
    g2.toutWrites = g.toutWrites ++ ls ∧ ls.Perm ns

/-! ## The Fenwick tree at machine width

The definitions above compute over the mathematical integers.  The definitions of this
section repeat the same statements of `main.cpp` with the widths of the source: the index
is an `int` (here an `Int`, which may be negative), the cells of `bit` and the accumulator
`sum` are `long long` and wrap at 64 bits, `diff` is an `int` and wraps at 32 bits, and
`bit` has `MAXN` cells, so an access at an index outside `0 .. MAXN - 1` ends the run.  The
two embeddings are related by `updateM_sim` and `queryLoopM_sim`: every machine cell is
the 64-bit wrap of the mathematical cell. -/

/-- The constant `MAXN` of `main.cpp`: the number of cells of each global array. -/
def MAXN : Nat := 100005

/-- The value fits in a 32-bit `int`. -/
def IsInt (x : Int) : Prop := -2147483648 ≤ x ∧ x ≤ 2147483647

/-- The value fits in a 64-bit `long long`. -/
def IsLong (x : Int) : Prop := -9223372036854775808 ≤ x ∧ x ≤ 9223372036854775807

instance (x : Int) : Decidable (IsInt x) := by
  unfold IsInt; infer_instance

instance (x : Int) : Decidable (IsLong x) := by
  unfold IsLong; infer_instance

/-- The result of 32-bit `int` arithmetic: the value reduced modulo `2^32` into
`[-2^31, 2^31)`. -/
def wrapInt (x : Int) : Int := (x + 2147483648) % 4294967296 - 2147483648

/-- The result of 64-bit `long long` arithmetic: the value reduced modulo `2^64` into
`[-2^63, 2^63)`. -/
def wrapLong (x : Int) : Int :=
  (x + 9223372036854775808) % 18446744073709551616 - 9223372036854775808

/-- How a run at machine width ends: it returns a result, or it accesses `bit` outside its
`MAXN` cells (undefined behaviour in C++; the embedding stops there), or it is still
running when its allowance is used up. -/
inductive Run (α : Type) where
  | returned (a : α)
  | outOfBounds
  | outOfFuel

/-- Sequencing of runs: the second step runs on the result of the first, if it returned. -/
def Run.andThen {α β : Type} : Run α → (α → Run β) → Run β
  | .returned a, f => f a
  | .outOfBounds, _ => .outOfBounds
  | .outOfFuel, _ => .outOfFuel

/-- The function `update(idx, val)` at machine width: `for (; idx <= n; idx += idx & -idx)
bit[idx] += val;` with an `int` index, a `long long` cell and the bounds of `bit[MAXN]`.
The fuel counts the iterations.  At the increment `0 <= idx < MAXN` holds, so the `int`
addition cannot overflow.  The delta `val` is an `int` in the source; the embedding takes
any integer, which covers every `int`. -/
def updateM (n : Nat) : Nat → Int → Int → (Nat → Int) → Run (Nat → Int)
  | fuel, idx, val, bit =>
    if idx ≤ (n : Int) then
      if 0 ≤ idx ∧ idx < (MAXN : Int) then
        match fuel with
        | 0 => .outOfFuel
        | k + 1 => updateM n k (idx + Int.land idx (-idx)) val
            (Function.update bit idx.toNat (wrapLong (bit idx.toNat + val)))
      else .outOfBounds
    else .returned bit

/-- The loop of `query` at machine width: `for (; idx > 0; idx -= idx & -idx)
sum += bit[idx];` with a `long long` accumulator and the bounds of `bit[MAXN]`. -/
def queryLoopM (bit : Nat → Int) : Nat → Int → Int → Run Int
  | fuel, idx, sum =>
    if 0 < idx then
      if idx < (MAXN : Int) then
        match fuel with
        | 0 => .outOfFuel
        | k + 1 => queryLoopM bit k (idx - Int.land idx (-idx)) (wrapLong (sum + bit idx.toNat))
      else .outOfBounds
    else .returned sum

/-- The function `query(idx)` at machine width: the loop started with `sum = 0`. -/
def queryM (bit : Nat → Int) (fuel : Nat) (idx : Int) : Run Int := queryLoopM bit fuel idx 0

/-- The function `query_range(l, r)` at machine width: `query(r) - query(l - 1)`, with
`l - 1` computed in `int` and the difference in `long long`. -/
def query_rangeM (bit : Nat → Int) (fuel : Nat) (l r : Int) : Run Int :=
  (queryM bit fuel r).andThen fun a =>
    (queryM bit fuel (wrapInt (l - 1))).andThen fun b => .returned (wrapLong (a - b))

/-- A sequence of calls `update(i, d)` at machine width, in order. -/
def updatesM (n fuel : Nat) : List (Nat × Int) → (Nat → Int) → Run (Nat → Int)
  | [], bit => .returned bit
  | op :: ops, bit => (updateM n fuel (op.1 : Int) op.2 bit).andThen (updatesM n fuel ops)

/-- The initialisation loop of `main` at machine width, over the nodes of a list. -/
def initFromM (n fuel : Nat) (tin : Nat → Nat) (values : Nat → Int) :
    List Nat → (Nat → Int) → Run (Nat → Int)
  | [], bit => .returned bit
  | i :: rest, bit =>
    (updateM n fuel (tin i : Int) (values i) bit).andThen (initFromM n fuel tin values rest)

/-- The loop `for (i = 1; i <= n; i++) update(tin[i], values[i]);` of `main` at machine
width. -/
def initLoopM (n fuel : Nat) (tin : Nat → Nat) (values : Nat → Int) (bit : Nat → Int) :
    Run (Nat → Int) :=
  initFromM n fuel tin values (List.range' 1 n) bit

/-- The node update of `main` at machine width: `int diff = v - values[u];
update(tin[u], diff); values[u] = v;`, where the `int` subtraction wraps at 32 bits. -/
def updateNodeM (n fuel : Nat) (tin : Nat → Nat) (u : Nat) (v : Int) (a : AggState) :
    Run AggState :=
  (updateM n fuel (tin u : Int) (wrapInt (v - a.values u)) a.bit).andThen fun b =>
    .returned ⟨b, Function.update a.values u v⟩

/-- A sequence of node updates `(u, v)` at machine width, in order. -/
def updateNodesM (n fuel : Nat) (tin : Nat → Nat) :
    List (Nat × Int) → AggState → Run AggState
  | [], a => .returned a
  | up :: ups, a =>
    (updateNodeM n fuel tin up.1 up.2 a).andThen (updateNodesM n fuel tin ups)

/-- The vector `values` after the node updates `ups`: each update stores its new value. -/
def finalValues (values : Nat → Int) : List (Nat × Int) → Nat → Int
  | [] => values
  | up :: ups => finalValues (Function.update values up.1 up.2) ups

/-- The deltas that the node updates `ups` send to `update`: the 32-bit differences
`diff = v - values[u]` at the entry times. -/
def diffOps (tin : Nat → Nat) (values : Nat → Int) : List (Nat × Int) → List (Nat × Int)
  | [] => []
  | up :: ups =>
    (tin up.1, wrapInt (up.2 - values up.1)) :: diffOps tin (Function.update values up.1 up.2) ups

/-- Every difference `v - values[u]` of the node updates `ups`, taken in order, fits in a
32-bit `int`. -/
def DiffsFit (values : Nat → Int) : List (Nat × Int) → Prop
  | [] => True
  | up :: ups => IsInt (up.2 - values up.1) ∧ DiffsFit (Function.update values up.1 up.2) ups

/-- The tree with the single node 1. -/
def oneTree : RTree := .node 1 []

/-- The adjacency lists of the tree with the single node 1. -/
def oneAdj : Nat → List Nat := fun _ => []

/-- The calls `update(1, INT_MAX)` repeated `2^32 + 3` times: the deltas add up to
`2^63 + 2^31 - 3`, which does not fit in a `long long`. -/
def bigOps : List (Nat × Int) := List.replicate 4294967299 (1, 2147483647)

/-- The cell invariant at machine width: every cell of `bit` is the 64-bit wrap of the
cell that the mathematical Fenwick tree with the logical slots `a` holds. -/
def FenInvM (n : Nat) (bit a : Nat → Int) : Prop :=
  ∃ bitZ, FenInv n bitZ a ∧ ∀ i, bit i = wrapLong (bitZ i)

/-- The logical slots after the initialisation loop and the node updates `ups`: the
values placed at the entry times plus the 32-bit differences sent by the updates. -/
def tourSlots (N : Nat) (tin : Nat → Nat) (values : Nat → Int) (ups : List (Nat × Int))
    (j : Nat) : Int :=
  slotValue (nodeOps (List.range' 1 N) tin values) j + slotValue (diffOps tin values ups) j

/-- The vector `values` of the one-node demonstration: every entry is `-1`. -/
def negOnes : Nat → Int := fun _ => -1

/-! ## The low bit -/

theorem lowbit_zero : lowbit 0 = 0 := by
  simp [lowbit, Int.land]

theorem lowbit_succ (k : Nat) : lowbit (k + 1) = Nat.ldiff (k + 1) k := by
  show (Int.land (Int.ofNat (k + 1)) (Int.negSucc k)).toNat = _
  rfl

theorem ldiff_self (m : Nat) : Nat.ldiff m m = 0 := by
  apply Nat.eq_of_testBit_eq
  intro i
  simp [Nat.testBit_ldiff]

theorem lowbit_two_mul (i : Nat) : lowbit (2 * i) = 2 * lowbit i := by
  cases i with
  | zero => simp [lowbit_zero]
  | succ k =>
    have h1 : 2 * (k + 1) = (2 * k + 1) + 1 := by ring
    rw [h1, lowbit_succ, lowbit_succ]
    have h2 : 2 * k + 1 + 1 = Nat.bit false (k + 1) := by simp [Nat.bit_val]; ring
    have h3 : 2 * k + 1 = Nat.bit true k := by simp [Nat.bit_val]
    rw [h2, h3, Nat.ldiff_bit]
    simp [Nat.bit_val]

theorem lowbit_two_mul_add_one (i : Nat) : lowbit (2 * i + 1) = 1 := by
  rw [lowbit_succ]
  have h2 : 2 * i + 1 = Nat.bit true i := by simp [Nat.bit_val]
  have h3 : 2 * i = Nat.bit false i := by simp [Nat.bit_val]
  rw [h2, h3, Nat.ldiff_bit, ldiff_self]
  simp [Nat.bit_val]

theorem lowbit_pos_le : ∀ i : Nat, 0 < i → 0 < lowbit i ∧ lowbit i ≤ i := by
  intro i
  induction i using Nat.strong_induction_on with
  | _ i ih =>
    intro hi
    rcases Nat.even_or_odd' i with ⟨m, rfl | rfl⟩
    · have hm : 0 < m := by omega
      have := ih m (by omega) hm
      rw [lowbit_two_mul]
      omega
    · rw [lowbit_two_mul_add_one]
      omega

theorem lowbit_pos {i : Nat} (h : 0 < i) : 0 < lowbit i := (lowbit_pos_le i h).1
theorem lowbit_le {i : Nat} (h : 0 < i) : lowbit i ≤ i := (lowbit_pos_le i h).2

/-- The cells that cover slot `idx` are those reached from `idx` by the update step. -/
theorem cover_step : ∀ i idx : Nat, 0 < idx → idx < i →
    ((i - lowbit i < idx) ↔ (idx + lowbit idx ≤ i ∧ i - lowbit i < idx + lowbit idx)) := by
  intro i
  induction i using Nat.strong_induction_on with
  | _ i ih =>
    intro idx h0 hlt
    rcases Nat.even_or_odd' i with ⟨m, rfl | rfl⟩
    · have hm : 0 < m := by omega
      have hL := lowbit_pos_le m hm
      rcases Nat.even_or_odd' idx with ⟨j, rfl | rfl⟩
      · have hj : 0 < j := by omega
        have hJ := lowbit_pos_le j hj
        have := ih m (by omega) j hj (by omega)
        rw [lowbit_two_mul, lowbit_two_mul]
        omega
      · rw [lowbit_two_mul, lowbit_two_mul_add_one]
        omega
    · rw [lowbit_two_mul_add_one]
      rcases Nat.even_or_odd' idx with ⟨j, rfl | rfl⟩
      · have hj : 0 < j := by omega
        have hJ := lowbit_pos_le j hj
        rw [lowbit_two_mul]
        omega
      · rw [lowbit_two_mul_add_one]
        omega

/-! ## The Fenwick invariant -/

theorem update_cells (n : Nat) (val : Int) : ∀ (fuel idx : Nat) (bit : Nat → Int),
    0 < idx → n + 1 - idx ≤ fuel →
    ∃ bit', update n fuel idx val bit = some bit' ∧
      ∀ i, bit' i = bit i + if idx ≤ i ∧ i ≤ n ∧ i - lowbit i < idx then val else 0 := by
  intro fuel
  induction fuel with
  | zero =>
    intro idx bit h0 hf
    refine ⟨bit, ?_, ?_⟩
    · unfold update
      rw [if_neg (by omega)]
    · intro i
      rw [if_neg (by omega)]
      simp
  | succ k ih =>
    intro idx bit h0 hf
    by_cases hn : idx ≤ n
    · have hL := lowbit_pos_le idx h0
      obtain ⟨bit', hb, hc⟩ := ih (idx + lowbit idx)
        (Function.update bit idx (bit idx + val)) (by omega) (by omega)
      refine ⟨bit', ?_, ?_⟩
      · rw [update, if_pos hn]
        exact hb
      · intro i
        rw [hc i]
        rcases Nat.lt_trichotomy i idx with hlt | heq | hgt
        · rw [Function.update_noteq (by omega), if_neg (by omega), if_neg (by omega)]
        · subst heq
          rw [Function.update_same, if_neg (by omega), if_pos ⟨le_refl _, hn, by omega⟩]
          simp
        · rw [Function.update_noteq (by omega)]
          have hcs := cover_step i idx h0 hgt
          by_cases hin : i ≤ n
          · by_cases hcv : i - lowbit i < idx
            · rw [if_pos ⟨(hcs.1 hcv).1, hin, (hcs.1 hcv).2⟩, if_pos ⟨by omega, hin, hcv⟩]
            · rw [if_neg (fun h => hcv (hcs.2 ⟨h.1, h.2.2⟩)), if_neg (fun h => hcv h.2.2)]
          · rw [if_neg (fun h => hin h.2.1), if_neg (fun h => hin h.2.1)]
    · refine ⟨bit, ?_, ?_⟩
      · rw [update, if_neg hn]
      · intro i
        rw [if_neg (by omega)]
        simp

theorem update_inv {n : Nat} {bit a : Nat → Int} (h : FenInv n bit a) (fuel idx : Nat)
    (val : Int) (h0 : 0 < idx) (hn : idx ≤ n) (hf : n ≤ fuel) :
    ∃ bit', update n fuel idx val bit = some bit' ∧
      FenInv n bit' (Function.update a idx (a idx + val)) := by
  obtain ⟨bit', hb, hc⟩ := update_cells n val fuel idx bit h0 (by omega)
  refine ⟨bit', hb, ?_⟩
  intro i hi1 hin
  rw [hc i, h i hi1 hin]
  have hsplit : ∀ j, Function.update a idx (a idx + val) j
      = a j + if j = idx then val else 0 := by
    intro j
    by_cases hj : j = idx
    · subst hj; simp
    · rw [Function.update_noteq hj, if_neg hj]; simp
  simp only [hsplit, Finset.sum_add_distrib, Finset.sum_ite_eq', Finset.mem_Ioc]
  congr 1
  by_cases hcv : idx ≤ i ∧ i ≤ n ∧ i - lowbit i < idx
  · rw [if_pos hcv, if_pos ⟨hcv.2.2, hcv.1⟩]
  · rw [if_neg hcv, if_neg (fun h => hcv ⟨h.2, hin, h.1⟩)]

theorem queryLoop_inv {n : Nat} {bit a : Nat → Int} (h : FenInv n bit a) :
    ∀ (fuel i : Nat) (acc : Int), i ≤ n → i ≤ fuel →
      queryLoop bit fuel i acc = some (acc + ∑ j ∈ Finset.Ioc 0 i, a j) := by
  intro fuel
  induction fuel with
  | zero =>
    intro i acc _ hf
    have : i = 0 := by omega
    subst this
    simp [queryLoop]
  | succ k ih =>
    intro i acc hin hf
    by_cases h0 : 0 < i
    · have hL := lowbit_pos_le i h0
      rw [queryLoop, if_pos h0]
      show queryLoop bit k (i - lowbit i) (acc + bit i) = _
      rw [ih (i - lowbit i) (acc + bit i) (by omega) (by omega), h i h0 hin,
        ← Finset.sum_Ioc_consecutive a (Nat.zero_le (i - lowbit i)) (Nat.sub_le i (lowbit i))]
      congr 1
      ring
    · have : i = 0 := by omega
      subst this
      simp [queryLoop]

theorem query_inv {n : Nat} {bit a : Nat → Int} (h : FenInv n bit a) (fuel i : Nat)
    (hin : i ≤ n) (hf : i ≤ fuel) :
    query bit fuel i = some (∑ j ∈ Finset.Ioc 0 i, a j) := by
  rw [query, queryLoop_inv h fuel i 0 hin hf]
  simp

theorem query_range_inv {n : Nat} {bit a : Nat → Int} (h : FenInv n bit a) (fuel lo hi : Nat)
    (hlo : 1 ≤ lo) (hle : lo ≤ hi) (hin : hi ≤ n) (hf : hi ≤ fuel) :
    query_range bit fuel lo hi = some (∑ j ∈ Finset.Icc lo hi, a j) := by
  rw [query_range, query_inv h fuel hi hin hf, query_inv h fuel (lo - 1) (by omega) (by omega)]
  simp only
  congr 1
  rw [← Finset.sum_Ioc_consecutive a (Nat.zero_le (lo - 1)) (show lo - 1 ≤ hi by omega)]
  have : Finset.Ioc (lo - 1) hi = Finset.Icc lo hi := by
    ext x
    simp only [Finset.mem_Ioc, Finset.mem_Icc]
    omega
  rw [this]
  ring

/-! ## Trees -/

theorem RTree.nodesOfList_eq (cs : List RTree) :
    RTree.nodesOfList cs = cs.flatMap RTree.nodes := by
  induction cs with
  | nil => rfl
  | cons c cs ih => simp [RTree.nodesOfList, ih]

theorem RTree.subtreesOfList_eq (cs : List RTree) :
    RTree.subtreesOfList cs = cs.flatMap RTree.subtrees := by
  induction cs with
  | nil => rfl
  | cons c cs ih => simp [RTree.subtreesOfList, ih]

theorem RTree.label_mem_nodes (t : RTree) : t.label ∈ t.nodes := by
  cases t with
  | node u cs => simp [RTree.label, RTree.nodes]

mutual
theorem RTree.induct_aux {P : RTree → Prop}
    (h : ∀ u cs, (∀ c ∈ cs, P c) → P (RTree.node u cs)) : ∀ t, P t
  | .node u cs => h u cs (RTree.induct_list h cs)
theorem RTree.induct_list {P : RTree → Prop}
    (h : ∀ u cs, (∀ c ∈ cs, P c) → P (RTree.node u cs)) : ∀ cs : List RTree, ∀ c ∈ cs, P c
  | [], c, hc => by simp at hc
  | c0 :: cs, c, hc => by
    rcases List.mem_cons.1 hc with rfl | hc
    · exact RTree.induct_aux h c
    · exact RTree.induct_list h cs c hc
end

theorem RTree.subtree_nodes_subset : ∀ (t r : RTree), r ∈ t.subtrees → ∀ d ∈ r.nodes, d ∈ t.nodes := by
  intro t
  induction t using RTree.induct_aux with
  | h u cs ih =>
    intro r hr d hd
    rw [RTree.subtrees, RTree.subtreesOfList_eq] at hr
    rcases List.mem_cons.1 hr with rfl | hr
    · exact hd
    · rw [RTree.nodes, RTree.nodesOfList_eq]
      obtain ⟨c, hc, hrc⟩ := List.mem_flatMap.1 hr
      exact List.mem_cons_of_mem _ (List.mem_flatMap.2 ⟨c, hc, ih c hc r hrc d hd⟩)

theorem RTree.exists_subtree : ∀ (t : RTree) (u : Nat), u ∈ t.nodes → ∃ r ∈ t.subtrees, r.label = u := by
  intro t
  induction t using RTree.induct_aux with
  | h v cs ih =>
    intro u hu
    rw [RTree.nodes, RTree.nodesOfList_eq] at hu
    rw [RTree.subtrees, RTree.subtreesOfList_eq]
    rcases List.mem_cons.1 hu with rfl | hu
    · exact ⟨_, List.mem_cons_self _ _, rfl⟩
    · obtain ⟨c, hc, huc⟩ := List.mem_flatMap.1 hu
      obtain ⟨r, hr, hl⟩ := ih c hc u huc
      exact ⟨r, List.mem_cons_of_mem _ (List.mem_flatMap.2 ⟨c, hc, hr⟩), hl⟩

theorem RTree.self_mem_subtrees (t : RTree) : t ∈ t.subtrees := by
  cases t with
  | node u cs => simp [RTree.subtrees]

theorem perm_map_exists {α β : Type} (f : α → β) : ∀ {l l2 : List β}, l.Perm l2 →
    ∀ cs : List α, l2 = cs.map f → ∃ cs2 : List α, cs2.Perm cs ∧ cs2.map f = l := by
  intro l l2 h
  induction h with
  | nil =>
    intro cs hcs
    exact ⟨cs, List.Perm.refl _, hcs.symm⟩
  | cons x _ ih =>
    intro cs hcs
    cases cs with
    | nil => simp at hcs
    | cons c cs =>
      simp only [List.map_cons, List.cons.injEq] at hcs
      obtain ⟨cs2, hp, hm⟩ := ih cs hcs.2
      exact ⟨c :: cs2, hp.cons c, by simp [hm, hcs.1]⟩
  | swap x y l =>
    intro cs hcs
    match cs, hcs with
    | c1 :: c2 :: cs, hcs =>
      simp only [List.map_cons, List.cons.injEq] at hcs
      exact ⟨c2 :: c1 :: cs, List.Perm.swap _ _ _, by simp [hcs.1, hcs.2.1, hcs.2.2]⟩
  | trans _ _ ih1 ih2 =>
    intro cs hcs
    obtain ⟨cs2, hp2, hm2⟩ := ih2 cs hcs
    obtain ⟨cs1, hp1, hm1⟩ := ih1 cs2 hm2.symm
    exact ⟨cs1, hp1.trans hp2, hm1⟩

theorem Stamped.nil (s : TourState) : Stamped [] [] s s where
  timer_eq := by simp
  frame := fun _ _ => ⟨rfl, rfl⟩
  range := by simp
  inj := by simp
  sub := by simp

theorem Stamped.append {ns1 ns2 : List Nat} {rs1 rs2 : List RTree} {s s1 s2 : TourState}
    (h1 : Stamped ns1 rs1 s s1) (h2 : Stamped ns2 rs2 s1 s2)
    (hdis : ∀ x ∈ ns1, x ∉ ns2) (hcl : ∀ r ∈ rs1, ∀ d ∈ r.nodes, d ∈ ns1) :
    Stamped (ns1 ++ ns2) (rs1 ++ rs2) s s2 where
  timer_eq := by
    rw [h2.timer_eq, h1.timer_eq, List.length_append]; omega
  frame := by
    intro x hx
    rw [List.mem_append, not_or] at hx
    rw [(h2.frame x hx.2).1, (h2.frame x hx.2).2]
    exact h1.frame x hx.1
  range := by
    intro d hd
    rcases List.mem_append.1 hd with hd | hd
    · have hf := h2.frame d (hdis d hd)
      have hr := h1.range d hd
      have ht := h2.timer_eq
      rw [hf.1, hf.2]
      omega
    · have hr := h2.range d hd
      have ht := h1.timer_eq
      omega
  inj := by
    intro d hd e he hde
    rcases List.mem_append.1 hd with hd | hd <;> rcases List.mem_append.1 he with he | he
    · rw [(h2.frame d (hdis d hd)).1, (h2.frame e (hdis e he)).1] at hde
      exact h1.inj d hd e he hde
    · have h1r := h1.range d hd
      have h2r := h2.range e he
      rw [(h2.frame d (hdis d hd)).1] at hde
      have ht := h1.timer_eq
      omega
    · have h1r := h1.range e he
      have h2r := h2.range d hd
      rw [(h2.frame e (hdis e he)).1] at hde
      omega
    · exact h2.inj d hd e he hde
  sub := by
    intro r hr
    rcases List.mem_append.1 hr with hr | hr
    · have hlab := hcl r hr _ r.label_mem_nodes
      rw [(h2.frame _ (hdis _ hlab)).1, (h2.frame _ (hdis _ hlab)).2]
      refine ⟨(h1.sub r hr).1, ?_⟩
      intro d hd
      have hdn := hcl r hr d hd
      rw [(h2.frame _ (hdis _ hdn)).1, (h2.frame _ (hdis _ hdn)).2]
      exact (h1.sub r hr).2 d hd
    · exact h2.sub r hr

theorem Stamped.of_same_members {ns ns2 : List Nat} {rs rs2 : List RTree} {s s1 : TourState}
    (h : Stamped ns rs s s1) (hlen : ns2.length = ns.length) (hn : ∀ x, x ∈ ns2 ↔ x ∈ ns)
    (hr : ∀ r, r ∈ rs2 → r ∈ rs) : Stamped ns2 rs2 s s1 where
  timer_eq := by rw [hlen]; exact h.timer_eq
  frame := fun x hx => h.frame x (fun hx2 => hx ((hn x).2 hx2))
  range := fun d hd => h.range d ((hn d).1 hd)
  inj := fun d hd e he => h.inj d ((hn d).1 hd) e ((hn e).1 he)
  sub := fun r hr2 => h.sub r (hr r hr2)

/-- The loop of `dfs` over the adjacency list `vs` of `u`: when the entries other than the
parent `p` are the roots of the trees `cs`, and `dfs` is correct on each of them, the loop
stamps the trees one after the other. -/
theorem dfs_loop (adj : Nat → List Nat) (fuel u p : Nat) :
    ∀ (vs : List Nat) (cs : List RTree) (s : TourState),
      vs.filter (fun v => decide (v ≠ p)) = cs.map RTree.label →
      (∀ c ∈ cs, ∀ s0, ∃ s1, dfs adj fuel c.label u s0 = some s1 ∧
        Stamped c.nodes c.subtrees s0 s1) →
      (RTree.nodesOfList cs).Nodup →
      ∃ s2, vs.foldlM (fun st v => if v ≠ p then dfs adj fuel v u st else some st) s = some s2 ∧
        Stamped (RTree.nodesOfList cs) (RTree.subtreesOfList cs) s s2 := by
  intro vs
  induction vs with
  | nil =>
    intro cs s hf _ _
    cases cs with
    | nil => exact ⟨s, rfl, Stamped.nil s⟩
    | cons c cs => simp at hf
  | cons v vs ih =>
    intro cs s hf hdfs hnd
    by_cases hv : v = p
    · have hf2 : vs.filter (fun v => decide (v ≠ p)) = cs.map RTree.label := by
        rw [← hf, List.filter_cons_of_neg (by simp [hv])]
      obtain ⟨s2, h2, hs2⟩ := ih cs s hf2 hdfs hnd
      refine ⟨s2, ?_, hs2⟩
      rw [List.foldlM_cons, if_neg (by simp [hv])]
      exact h2
    · rw [List.filter_cons_of_pos (by simp [hv])] at hf
      cases cs with
      | nil => simp at hf
      | cons c cs =>
        simp only [List.map_cons, List.cons.injEq] at hf
        obtain ⟨s1, h1, hs1⟩ := hdfs c (List.mem_cons_self _ _) s
        rw [RTree.nodesOfList, List.nodup_append] at hnd
        obtain ⟨s2, h2, hs2⟩ := ih cs s1 hf.2
          (fun c2 hc2 => hdfs c2 (List.mem_cons_of_mem _ hc2)) hnd.2.1
        refine ⟨s2, ?_, ?_⟩
        · rw [List.foldlM_cons, if_pos hv, hf.1, h1]
          exact h2
        · rw [RTree.nodesOfList, RTree.subtreesOfList]
          exact hs1.append hs2 (fun x hx hx2 => hnd.2.2 hx hx2)
            (fun r hr d hd => RTree.subtree_nodes_subset c r hr d hd)

theorem RTree.length_le_of_mem {c : RTree} {cs : List RTree} (hc : c ∈ cs) :
    c.nodes.length ≤ (RTree.nodesOfList cs).length := by
  induction cs with
  | nil => simp at hc
  | cons c0 cs ih =>
    rw [RTree.nodesOfList, List.length_append]
    rcases List.mem_cons.1 hc with rfl | hc
    · omega
    · have := ih hc
      omega

/-- Correctness of one call `dfs(u, p)` on a rooted tree: with fuel for the depth, the call
returns and stamps exactly the nodes of the tree. -/
theorem dfs_spec (adj : Nat → List Nat) : ∀ (par : Option Nat) (t : RTree),
    IsAdjacency adj par t → t.nodes.Nodup → par.getD 0 ∉ t.nodes →
    ∀ (fuel : Nat) (s : TourState), t.nodes.length ≤ fuel →
    ∃ s2, dfs adj fuel t.label (par.getD 0) s = some s2 ∧ Stamped t.nodes t.subtrees s s2 ∧
      s2.tin t.label = s.timer + 1 := by
  intro par t h
  induction h with
  | node par u cs hperm _ ih =>
    intro hnd hp fuel s hfuel
    rw [RTree.nodes] at hnd hp hfuel
    rw [List.nodup_cons] at hnd
    have hsub : ∀ c ∈ cs, ∀ d ∈ c.nodes, d ∈ RTree.nodesOfList cs := by
      intro c hc d hd
      rw [RTree.nodesOfList_eq]
      exact List.mem_flatMap.2 ⟨c, hc, hd⟩
    -- the entries of `adj u` other than the parent are the children, in some order
    have hfilter : ((adj u).filter (fun v => decide (v ≠ par.getD 0))).Perm
        (cs.map RTree.label) := by
      have h1 := hperm.filter (fun v => decide (v ≠ par.getD 0))
      have h2 : (par.toList ++ cs.map RTree.label).filter (fun v => decide (v ≠ par.getD 0))
          = cs.map RTree.label := by
        rw [List.filter_append]
        have h3 : par.toList.filter (fun v => decide (v ≠ par.getD 0)) = [] := by
          cases par <;> simp
        have h4 : (cs.map RTree.label).filter (fun v => decide (v ≠ par.getD 0))
            = cs.map RTree.label := by
          rw [List.filter_eq_self]
          intro a ha
          obtain ⟨c, hc, rfl⟩ := List.mem_map.1 ha
          have : c.label ≠ par.getD 0 := by
            intro heq
            exact hp (List.mem_cons_of_mem _ (heq ▸ hsub c hc _ c.label_mem_nodes))
          simpa using this
        rw [h3, h4, List.nil_append]
      rw [h2] at h1
      exact h1
    obtain ⟨cs2, hcs2, hmap⟩ := perm_map_exists RTree.label hfilter cs rfl
    have hnodes : (RTree.nodesOfList cs2).Perm (RTree.nodesOfList cs) := by
      rw [RTree.nodesOfList_eq, RTree.nodesOfList_eq]
      exact hcs2.flatMap_right _
    have hsubs : (RTree.subtreesOfList cs2).Perm (RTree.subtreesOfList cs) := by
      rw [RTree.subtreesOfList_eq, RTree.subtreesOfList_eq]
      exact hcs2.flatMap_right _
    cases fuel with
    | zero => simp at hfuel
    | succ k =>
      have hchild : ∀ c ∈ cs2, ∀ s0, ∃ s1, dfs adj k c.label u s0 = some s1 ∧
          Stamped c.nodes c.subtrees s0 s1 := by
        intro c hc2 s0
        have hc := hcs2.mem_iff.1 hc2
        have hlen := RTree.length_le_of_mem hc
        have hcnd : c.nodes.Nodup := by
          have := hnd.2
          rw [RTree.nodesOfList_eq, List.nodup_flatMap] at this
          exact this.1 c hc
        obtain ⟨s1, h1, hs1, _⟩ := ih c hc hcnd
          (fun hu => hnd.1 (hsub c hc _ hu)) k s0 (by simp at hfuel; omega)
        exact ⟨s1, h1, hs1⟩
      obtain ⟨s2, h2, hs2⟩ := dfs_loop adj k u (par.getD 0) (adj u) cs2 (enter s u) hmap.symm
        hchild (hnodes.nodup_iff.2 hnd.2)
      have hs3 : Stamped (RTree.nodesOfList cs) (RTree.subtreesOfList cs) (enter s u) s2 :=
        hs2.of_same_members hnodes.length_eq.symm (fun x => hnodes.mem_iff.symm)
          (fun r hr => hsubs.mem_iff.2 hr)
      have htu : s2.tin u = s.timer + 1 := by
        rw [(hs3.frame u hnd.1).1]
        simp [enter]
      have htimer : s2.timer = s.timer + 1 + (RTree.nodesOfList cs).length := hs3.timer_eq
      have hclosed : ∀ r ∈ RTree.subtreesOfList cs, ∀ d ∈ r.nodes, d ∈ RTree.nodesOfList cs := by
        intro r hr d hd
        rw [RTree.subtreesOfList_eq] at hr
        obtain ⟨c, hc, hrc⟩ := List.mem_flatMap.1 hr
        exact hsub c hc d (RTree.subtree_nodes_subset c r hrc d hd)
      have hne : ∀ d ∈ RTree.nodesOfList cs, d ≠ u := fun d hd hdu => hnd.1 (hdu ▸ hd)
      refine ⟨leave s2 u, ?_, ?_, ?_⟩
      · rw [RTree.label, dfs, h2]
      · rw [RTree.nodes, RTree.subtrees]
        constructor
        · show s2.timer = s.timer + (u :: RTree.nodesOfList cs).length
          rw [htimer, List.length_cons]; omega
        · intro x hx
          rw [List.mem_cons, not_or] at hx
          have hf := hs3.frame x hx.2
          constructor
          · show s2.tin x = s.tin x
            rw [hf.1]
            simp [enter, Function.update_noteq hx.1]
          · show Function.update s2.tout u s2.timer x = s.tout x
            rw [Function.update_noteq hx.1, hf.2]
            rfl
        · intro d hd
          rcases List.mem_cons.1 hd with rfl | hd
          · show s.timer < s2.tin d ∧ s2.tin d ≤ Function.update s2.tout d s2.timer d ∧
              Function.update s2.tout d s2.timer d ≤ s2.timer
            rw [Function.update_same, htu]
            omega
          · show s.timer < s2.tin d ∧ s2.tin d ≤ Function.update s2.tout u s2.timer d ∧
              Function.update s2.tout u s2.timer d ≤ s2.timer
            rw [Function.update_noteq (hne d hd)]
            have hr := hs3.range d hd
            have : (enter s u).timer = s.timer + 1 := rfl
            omega
        · intro d hd e he hde
          change s2.tin d = s2.tin e at hde
          have hent : (enter s u).timer = s.timer + 1 := rfl
          rcases List.mem_cons.1 hd with hdu | hd2 <;> rcases List.mem_cons.1 he with heu | he2
          · rw [hdu, heu]
          · have hr := hs3.range e he2
            rw [hdu] at hde
            omega
          · have hr := hs3.range d hd2
            rw [heu] at hde
            omega
          · exact hs3.inj d hd2 e he2 hde
        · intro r hr
          rcases List.mem_cons.1 hr with rfl | hr
          · show Function.update s2.tout u s2.timer u + 1
                = s2.tin u + (RTree.node u cs).nodes.length ∧
              ∀ d ∈ (RTree.node u cs).nodes, s2.tin u ≤ s2.tin d ∧
                Function.update s2.tout u s2.timer d ≤ Function.update s2.tout u s2.timer u
            rw [Function.update_same, RTree.nodes, List.length_cons, htu, htimer]
            refine ⟨by omega, ?_⟩
            intro d hd
            have hent : (enter s u).timer = s.timer + 1 := rfl
            rcases List.mem_cons.1 hd with rfl | hd
            · rw [Function.update_same, htu]
              omega
            · rw [Function.update_noteq (hne d hd)]
              have hr := hs3.range d hd
              omega
          · have hlab := hclosed r hr _ r.label_mem_nodes
            show Function.update s2.tout u s2.timer r.label + 1
                = s2.tin r.label + r.nodes.length ∧
              ∀ d ∈ r.nodes, s2.tin r.label ≤ s2.tin d ∧
                Function.update s2.tout u s2.timer d ≤ Function.update s2.tout u s2.timer r.label
            rw [Function.update_noteq (hne _ hlab)]
            refine ⟨(hs3.sub r hr).1, ?_⟩
            intro d hd
            rw [Function.update_noteq (hne d (hclosed r hr d hd))]
            exact (hs3.sub r hr).2 d hd
      · exact htu

theorem RTree.nodes_sublist_of_mem {c : RTree} {cs : List RTree} (hc : c ∈ cs) :
    c.nodes.Sublist (RTree.nodesOfList cs) := by
  induction cs with
  | nil => simp at hc
  | cons c0 cs ih =>
    rw [RTree.nodesOfList]
    rcases List.mem_cons.1 hc with rfl | hc
    · exact List.sublist_append_left _ _
    · exact (ih hc).trans (List.sublist_append_right _ _)

theorem RTree.subtree_nodes_sublist : ∀ (t r : RTree), r ∈ t.subtrees →
    r.nodes.Sublist t.nodes := by
  intro t
  induction t using RTree.induct_aux with
  | h u cs ih =>
    intro r hr
    rw [RTree.subtrees, RTree.subtreesOfList_eq] at hr
    rcases List.mem_cons.1 hr with rfl | hr
    · exact List.Sublist.refl _
    · rw [RTree.nodes]
      obtain ⟨c, hc, hrc⟩ := List.mem_flatMap.1 hr
      exact ((ih c hc r hrc).trans (RTree.nodes_sublist_of_mem hc)).trans
        (List.sublist_cons_self _ _)

/-- Pigeonhole on a duplicate-free list: an injective map of the list into a window of
the same length reaches every position of the window. -/
theorem surj_of_inj_window (L : List Nat) (hnd : L.Nodup) (f : Nat → Nat) (lo : Nat)
    (hinj : ∀ d ∈ L, ∀ e ∈ L, f d = f e → d = e)
    (hwin : ∀ d ∈ L, lo ≤ f d ∧ f d < lo + L.length) :
    ∀ k, lo ≤ k → k < lo + L.length → ∃ d ∈ L, f d = k := by
  intro k hk1 hk2
  have hcard : (Finset.Ico lo (lo + L.length)).card ≤ L.toFinset.card := by
    rw [List.toFinset_card_of_nodup hnd, Nat.card_Ico]
    omega
  obtain ⟨d, hd, hfd⟩ := Finset.surj_on_of_inj_on_of_card_le (fun a _ => f a)
    (fun a ha => Finset.mem_Ico.2 (hwin a (List.mem_toFinset.1 ha)))
    (fun a b ha hb hab => hinj a (List.mem_toFinset.1 ha) b (List.mem_toFinset.1 hb) hab)
    hcard k (Finset.mem_Ico.2 ⟨hk1, hk2⟩)
  exact ⟨d, List.mem_toFinset.1 hd, hfd.symm⟩

theorem IsTreeOn.mem_nodes {N : Nat} {adj : Nat → List Nat} {t : RTree}
    (h : IsTreeOn N adj t) (u : Nat) : u ∈ t.nodes ↔ 1 ≤ u ∧ u ≤ N := by
  rw [h.1.mem_iff, List.mem_range'_1]
  omega

theorem IsTreeOn.nodup {N : Nat} {adj : Nat → List Nat} {t : RTree}
    (h : IsTreeOn N adj t) : t.nodes.Nodup :=
  h.1.nodup_iff.2 (List.nodup_range' 1 N)

theorem IsTreeOn.length {N : Nat} {adj : Nat → List Nat} {t : RTree}
    (h : IsTreeOn N adj t) : t.nodes.length = N := by
  rw [h.1.length_eq, List.length_range']

/-- The call `dfs(root, 0)` from the initial globals returns, for any recursion allowance of
at least `N`, and stamps the whole tree. -/
theorem dfs_tree {N : Nat} {adj : Nat → List Nat} {t : RTree} (h : IsTreeOn N adj t)
    (fuel : Nat) (hf : N ≤ fuel) :
    ∃ s, dfs adj fuel t.label 0 TourState.init = some s ∧
      Stamped t.nodes t.subtrees TourState.init s ∧ s.tin t.label = 1 := by
  have h0 : (none : Option Nat).getD 0 ∉ t.nodes := by
    intro hmem
    have := (h.mem_nodes _).1 hmem
    simp at this
  obtain ⟨s, hs, hst, hroot⟩ := dfs_spec adj none t h.2 h.nodup h0 fuel TourState.init
    (by rw [h.length]; exact hf)
  exact ⟨s, hs, hst, by simpa [TourState.init] using hroot⟩

/-- In a stamped tree the entry times of the root's nodes lie in `[1, N]`. -/
theorem Stamped.tin_bounds {t : RTree} {s : TourState}
    (h : Stamped t.nodes t.subtrees TourState.init s) (d : Nat) (hd : d ∈ t.nodes) :
    1 ≤ s.tin d ∧ s.tin d ≤ s.tout d ∧ s.tout d ≤ t.nodes.length := by
  have hr := h.range d hd
  have ht := h.timer_eq
  simp only [TourState.init] at hr ht
  omega

/-- The interval characterisation of subtrees in a stamped tree. -/
theorem Stamped.interval {t : RTree} {s0 s : TourState} (hnd : t.nodes.Nodup)
    (h : Stamped t.nodes t.subtrees s0 s) (u d : Nat) (hu : u ∈ t.nodes) (hd : d ∈ t.nodes) :
    inSubtree t u d ↔ s.tin u ≤ s.tin d ∧ s.tin d ≤ s.tout u := by
  constructor
  · rintro ⟨r, hr, rfl, hdr⟩
    have h1 := (h.sub r hr).2 d hdr
    have h2 := h.range d hd
    omega
  · rintro ⟨h1, h2⟩
    obtain ⟨r, hr, rfl⟩ := t.exists_subtree u hu
    have hsubset := RTree.subtree_nodes_subset t r hr
    have hrnd : r.nodes.Nodup := (RTree.subtree_nodes_sublist t r hr).nodup hnd
    have hsz := (h.sub r hr).1
    obtain ⟨e, he, hte⟩ := surj_of_inj_window r.nodes hrnd s.tin (s.tin r.label)
      (fun a ha b hb hab => h.inj a (hsubset a ha) b (hsubset b hb) hab)
      (fun a ha => by
        have h3 := (h.sub r hr).2 a ha
        have h4 := h.range a (hsubset a ha)
        omega)
      (s.tin d) h1 (by omega)
    have := h.inj e (hsubset e he) d hd hte
    exact ⟨r, hr, rfl, this ▸ he⟩

theorem FenInv.zero (n : Nat) : FenInv n (fun _ => 0) (fun _ => 0) := by
  intro i _ _
  simp

theorem FenInv.of_eq_slots {n : Nat} {bit a a2 : Nat → Int} (h : FenInv n bit a)
    (heq : ∀ j, a2 j = a j) : FenInv n bit a2 := by
  have : a2 = a := funext heq
  rw [this]; exact h

theorem slotValue_nil (j : Nat) : slotValue [] j = 0 := rfl

theorem slotValue_cons (op : Nat × Int) (ops : List (Nat × Int)) (j : Nat) :
    slotValue (op :: ops) j = (if op.1 = j then op.2 else 0) + slotValue ops j := by
  unfold slotValue
  by_cases h : op.1 = j
  · rw [List.filter_cons_of_pos (by simpa using h), if_pos h]
    simp
  · rw [List.filter_cons_of_neg (by simpa using h), if_neg h]
    simp

theorem sum_slotValue (ops : List (Nat × Int)) (lo hi : Nat) :
    ∑ j ∈ Finset.Icc lo hi, slotValue ops j
      = ((ops.filter (fun op => lo ≤ op.1 ∧ op.1 ≤ hi)).map Prod.snd).sum := by
  induction ops with
  | nil => simp [slotValue_nil]
  | cons op ops ih =>
    simp only [slotValue_cons, Finset.sum_add_distrib, ih, Finset.sum_ite_eq, Finset.mem_Icc]
    by_cases h : lo ≤ op.1 ∧ op.1 ≤ hi
    · rw [if_pos h, List.filter_cons_of_pos (by simpa using h)]
      simp
    · rw [if_neg h, List.filter_cons_of_neg (by simpa using h)]
      simp

theorem updates_inv {n : Nat} (fuel : Nat) (hf : n ≤ fuel) :
    ∀ (ops : List (Nat × Int)) (bit a : Nat → Int), FenInv n bit a →
      (∀ op ∈ ops, 1 ≤ op.1 ∧ op.1 ≤ n) →
      ∃ bit2, updates n fuel ops bit = some bit2 ∧
        FenInv n bit2 (fun j => a j + slotValue ops j) := by
  intro ops
  induction ops with
  | nil =>
    intro bit a h _
    exact ⟨bit, rfl, h.of_eq_slots (by simp [slotValue_nil])⟩
  | cons op ops ih =>
    intro bit a h hops
    have hop := hops op (List.mem_cons_self _ _)
    obtain ⟨bit1, hb1, h1⟩ := update_inv h fuel op.1 op.2 hop.1 hop.2 hf
    obtain ⟨bit2, hb2, h2⟩ := ih bit1 _ h1 (fun o ho => hops o (List.mem_cons_of_mem _ ho))
    refine ⟨bit2, ?_, h2.of_eq_slots ?_⟩
    · unfold updates at hb2 ⊢
      rw [List.foldlM_cons, hb1]
      exact hb2
    · intro j
      rw [slotValue_cons]
      by_cases hj : op.1 = j
      · subst hj
        rw [Function.update_same, if_pos rfl]
        ring
      · rw [Function.update_noteq (Ne.symm hj), if_neg hj]
        ring

theorem slotValue_nodeOps_cons (x : Nat) (L : List Nat) (tin : Nat → Nat) (values : Nat → Int)
    (j : Nat) : slotValue (nodeOps (x :: L) tin values) j
      = (if tin x = j then values x else 0) + slotValue (nodeOps L tin values) j := by
  rw [nodeOps, List.map_cons, slotValue_cons]
  rfl

theorem slotValue_nodeOps_congr (L : List Nat) (tin : Nat → Nat) (values values2 : Nat → Int)
    (h : ∀ x ∈ L, values2 x = values x) (j : Nat) :
    slotValue (nodeOps L tin values2) j = slotValue (nodeOps L tin values) j := by
  induction L with
  | nil => rfl
  | cons x L ih =>
    rw [slotValue_nodeOps_cons, slotValue_nodeOps_cons, h x (List.mem_cons_self _ _),
      ih (fun y hy => h y (List.mem_cons_of_mem _ hy))]

/-- Changing the value of one node moves exactly the logical slot at its entry time. -/
theorem slotValue_nodeOps_update (tin : Nat → Nat) (values : Nat → Int) (u : Nat) (v : Int) :
    ∀ (L : List Nat), L.Nodup → u ∈ L → ∀ j,
      slotValue (nodeOps L tin (Function.update values u v)) j
        = slotValue (nodeOps L tin values) j + if tin u = j then v - values u else 0 := by
  intro L
  induction L with
  | nil => intro _ hu; simp at hu
  | cons x L ih =>
    intro hnd hu j
    rw [List.nodup_cons] at hnd
    rw [slotValue_nodeOps_cons, slotValue_nodeOps_cons]
    by_cases hx : x = u
    · subst hx
      have hrest : ∀ y ∈ L, Function.update values x v y = values y := by
        intro y hy
        apply Function.update_noteq
        intro hyx
        rw [hyx] at hy
        exact hnd.1 hy
      rw [slotValue_nodeOps_congr L tin values (Function.update values x v) hrest,
        Function.update_same]
      by_cases hj : tin x = j
      · simp only [if_pos hj]; ring
      · simp only [if_neg hj]; ring
    · have huL : u ∈ L := by
        rcases List.mem_cons.1 hu with h | h
        · exact absurd h.symm hx
        · exact h
      rw [ih hnd.2 huL j, Function.update_noteq hx]
      ring

theorem sum_slotValue_nodeOps (tin : Nat → Nat) (values : Nat → Int) (lo hi : Nat) :
    ∀ L : List Nat, ∑ j ∈ Finset.Icc lo hi, slotValue (nodeOps L tin values) j
      = ((L.filter (fun d => lo ≤ tin d ∧ tin d ≤ hi)).map values).sum := by
  intro L
  induction L with
  | nil => simp [nodeOps, slotValue_nil]
  | cons x L ih =>
    simp only [slotValue_nodeOps_cons, Finset.sum_add_distrib, ih, Finset.sum_ite_eq,
      Finset.mem_Icc]
    by_cases h : lo ≤ tin x ∧ tin x ≤ hi
    · rw [if_pos h, List.filter_cons_of_pos (by simpa using h)]
      simp
    · rw [if_neg h, List.filter_cons_of_neg (by simpa using h)]
      simp

theorem initLoop_eq_updates (n fuel : Nat) (tin : Nat → Nat) (values : Nat → Int)
    (bit : Nat → Int) :
    initLoop n fuel tin values bit = updates n fuel (nodeOps (List.range' 1 n) tin values) bit := by
  rw [initLoop, updates, nodeOps, List.foldlM_map]

/-- The initialisation loop of `main` returns and leaves `bit` in step with `values`. -/
theorem initLoop_synced (N fuel : Nat) (hf : N ≤ fuel) (tin : Nat → Nat) (values : Nat → Int)
    (htin : ∀ i, 1 ≤ i → i ≤ N → 1 ≤ tin i ∧ tin i ≤ N) :
    ∃ bit, initLoop N fuel tin values (fun _ => 0) = some bit ∧ Synced N tin ⟨bit, values⟩ := by
  obtain ⟨bit, hb, hinv⟩ := updates_inv fuel hf (nodeOps (List.range' 1 N) tin values)
    (fun _ => 0) (fun _ => 0) (FenInv.zero N) (by
      intro op hop
      obtain ⟨i, hi, rfl⟩ := List.mem_map.1 hop
      rw [List.mem_range'_1] at hi
      exact htin i hi.1 (by omega))
  refine ⟨bit, ?_, hinv.of_eq_slots (by simp)⟩
  rw [initLoop_eq_updates]
  exact hb

/-- A node update returns and keeps `bit` in step with `values`. -/
theorem updateNode_synced {N : Nat} {tin : Nat → Nat} {st : AggState} (fuel : Nat)
    (hf : N ≤ fuel) (h : Synced N tin st) (u : Nat) (v : Int) (hu : 1 ≤ u ∧ u ≤ N)
    (htin : 1 ≤ tin u ∧ tin u ≤ N) :
    ∃ st2, updateNode N fuel tin u v st = some st2 ∧ Synced N tin st2 ∧
      st2.values = Function.update st.values u v := by
  obtain ⟨bit2, hb, hinv⟩ := update_inv h fuel (tin u) (v - st.values u) htin.1 htin.2 hf
  refine ⟨⟨bit2, Function.update st.values u v⟩, ?_, ?_, rfl⟩
  · rw [updateNode, hb]
  · refine hinv.of_eq_slots ?_
    intro j
    rw [slotValue_nodeOps_update tin st.values u v _ (List.nodup_range' 1 N)
      (List.mem_range'_1.2 (by omega)) j]
    by_cases hj : tin u = j
    · subst hj
      rw [Function.update_same, if_pos rfl]
    · rw [Function.update_noteq (Ne.symm hj), if_neg hj]
      ring

/-- A sequence of node updates returns and keeps `bit` in step with `values`. -/
theorem updateNodes_synced {N : Nat} {tin : Nat → Nat} (fuel : Nat) (hf : N ≤ fuel)
    (htin : ∀ i, 1 ≤ i → i ≤ N → 1 ≤ tin i ∧ tin i ≤ N) :
    ∀ (ups : List (Nat × Int)) (st : AggState), Synced N tin st →
      (∀ up ∈ ups, 1 ≤ up.1 ∧ up.1 ≤ N) →
      ∃ st2, updateNodes N fuel tin ups st = some st2 ∧ Synced N tin st2 := by
  intro ups
  induction ups with
  | nil => intro st h _; exact ⟨st, rfl, h⟩
  | cons up ups ih =>
    intro st h hups
    have hup := hups up (List.mem_cons_self _ _)
    obtain ⟨st1, h1, hs1, _⟩ := updateNode_synced fuel hf h up.1 up.2 hup
      (htin up.1 hup.1 hup.2)
    obtain ⟨st2, h2, hs2⟩ := ih st1 hs1 (fun o ho => hups o (List.mem_cons_of_mem _ ho))
    refine ⟨st2, ?_, hs2⟩
    unfold updateNodes at h2 ⊢
    rw [List.foldlM_cons, h1]
    exact h2

/-- In a stamped tree whose `bit` is in step with `values`, the range query over the
interval of `u` returns the sum of the values in the subtree of `u`. -/
theorem synced_query {N : Nat} {adj : Nat → List Nat} {t : RTree} (h : IsTreeOn N adj t)
    {s : TourState} (hs : Stamped t.nodes t.subtrees TourState.init s) {st : AggState}
    (hsync : Synced N s.tin st) (fuel : Nat) (hf : N ≤ fuel) (u : Nat) (hu : u ∈ t.nodes) :
    query_range st.bit fuel (s.tin u) (s.tout u) = some (subtreeSum t st.values u) := by
  have hb := hs.tin_bounds u hu
  rw [h.length] at hb
  rw [query_range_inv hsync fuel (s.tin u) (s.tout u) hb.1 hb.2.1 hb.2.2 (by omega),
    sum_slotValue_nodeOps, subtreeSum]
  congr 1
  have hperm := ((h.1.filter (fun d => s.tin u ≤ s.tin d ∧ s.tin d ≤ s.tout u)).map
    st.values).sum_eq
  rw [← hperm]
  congr 2
  apply List.filter_congr
  intro d hd
  have := hs.interval h.nodup u d hu hd
  simp only [decide_eq_decide]
  exact this.symm

theorem foldlM_some_mono {σ α : Type} (f g : σ → α → Option σ)
    (h : ∀ st v r, f st v = some r → g st v = some r) :
    ∀ (vs : List α) (s r : σ), vs.foldlM f s = some r → vs.foldlM g s = some r := by
  intro vs
  induction vs with
  | nil => intro s r hr; exact hr
  | cons v vs ih =>
    intro s r hr
    rw [List.foldlM_cons] at hr ⊢
    cases hfv : f s v with
    | none => rw [hfv] at hr; simp at hr
    | some s1 =>
      rw [hfv] at hr
      rw [h s v s1 hfv]
      exact ih s1 r hr

/-- More recursion allowance does not change the result of a `dfs` call that returned. -/
theorem dfs_mono (adj : Nat → List Nat) : ∀ (fuel : Nat) (u p : Nat) (s r : TourState),
    dfs adj fuel u p s = some r → ∀ fuel2, fuel ≤ fuel2 → dfs adj fuel2 u p s = some r := by
  intro fuel
  induction fuel with
  | zero => intro u p s r h; simp [dfs] at h
  | succ k ih =>
    intro u p s r h fuel2 hle
    cases fuel2 with
    | zero => omega
    | succ k2 =>
      rw [dfs] at h ⊢
      cases hk : (adj u).foldlM (fun st v => if v ≠ p then dfs adj k v u st else some st)
          (enter s u) with
      | none => rw [hk] at h; simp at h
      | some s2 =>
        rw [hk] at h
        rw [foldlM_some_mono _ (fun st v => if v ≠ p then dfs adj k2 v u st else some st) _
          (adj u) (enter s u) s2 hk]
        · exact h
        · intro st v r2 hr2
          simp only at hr2 ⊢
          by_cases hv : v ≠ p
          · rw [if_pos hv] at hr2 ⊢
            exact ih v u st r2 hr2 k2 (by omega)
          · rw [if_neg hv] at hr2 ⊢
            exact hr2

theorem mainAdj_cycle : ∀ (k : Nat) (s : TourState),
    dfs mainAdj k 1 5 s = none ∧ dfs mainAdj k 5 2 s = none ∧ dfs mainAdj k 2 1 s = none ∧
      dfs mainAdj k 1 0 s = none := by
  intro k
  induction k with
  | zero => intro s; simp [dfs]
  | succ k ih =>
    intro s
    refine ⟨?_, ?_, ?_, ?_⟩
    · simp [dfs, mainAdj, (ih _).2.2.1]
    · simp [dfs, mainAdj, (ih _).1]
    · rw [dfs]
      simp only [mainAdj, List.foldlM_cons]
      cases h4 : dfs mainAdj k 4 2 (enter s 2) with
      | none => simp [h4]
      | some s3 => simp [h4, (ih _).2.1]
    · simp [dfs, mainAdj, (ih _).2.2.1]

theorem sum_map_update (values : Nat → Int) (u : Nat) (v : Int) :
    ∀ L : List Nat, L.Nodup →
      (L.map (Function.update values u v)).sum
        = (L.map values).sum + if u ∈ L then v - values u else 0 := by
  intro L
  induction L with
  | nil => intro _; simp
  | cons x L ih =>
    intro hnd
    rw [List.nodup_cons] at hnd
    rw [List.map_cons, List.map_cons, List.sum_cons, List.sum_cons, ih hnd.2]
    by_cases hx : x = u
    · subst hx
      rw [Function.update_same, if_neg hnd.1, if_pos (List.mem_cons_self _ _)]
      ring
    · rw [Function.update_noteq hx]
      by_cases hu : u ∈ L
      · rw [if_pos hu, if_pos (List.mem_cons_of_mem _ hu)]
        ring
      · rw [if_neg hu, if_neg (by
          intro hmem
          rcases List.mem_cons.1 hmem with h | h
          · exact hx h.symm
          · exact hu h)]
        ring

/-- Changing the value of node `u` moves the subtree sum of exactly the nodes whose subtree
contains `u`. -/
theorem subtreeSum_update (t : RTree) (hnd : t.nodes.Nodup) (values : Nat → Int) (u : Nat)
    (hu : u ∈ t.nodes) (v : Int) (a : Nat) :
    subtreeSum t (Function.update values u v) a
      = subtreeSum t values a + if inSubtree t a u then v - values u else 0 := by
  rw [subtreeSum, subtreeSum, sum_map_update values u v _ (hnd.filter _)]
  congr 1
  by_cases h : inSubtree t a u
  · rw [if_pos h, if_pos (List.mem_filter.2 ⟨hu, by simpa using h⟩)]
  · rw [if_neg h, if_neg (fun hm => h (by simpa using (List.mem_filter.1 hm).2))]

theorem sum_filter_single (values : Nat → Int) (u : Nat) :
    ∀ L : List Nat, L.Nodup → u ∈ L →
      ((L.filter (fun d => decide (d = u))).map values).sum = values u := by
  intro L
  induction L with
  | nil => intro _ hu; simp at hu
  | cons x L ih =>
    intro hnd hu
    rw [List.nodup_cons] at hnd
    by_cases hx : x = u
    · subst hx
      rw [List.filter_cons_of_pos (by simp)]
      have : L.filter (fun d => decide (d = x)) = [] := by
        rw [List.filter_eq_nil_iff]
        intro a ha
        simp only [decide_eq_true_eq]
        intro hax
        exact hnd.1 (hax ▸ ha)
      rw [this]
      simp
    · rw [List.filter_cons_of_neg (by simpa using hx)]
      rcases List.mem_cons.1 hu with h | h
      · exact absurd h.symm hx
      · exact ih hnd.2 h

/-- The traversal of a tree on `1..N` returns, and every entry time lies in `[1, N]`. -/
theorem tour_ready {N : Nat} {adj : Nat → List Nat} {t : RTree} (h : IsTreeOn N adj t)
    (fuel : Nat) (hf : N ≤ fuel) :
    ∃ s, dfs adj fuel t.label 0 TourState.init = some s ∧
      Stamped t.nodes t.subtrees TourState.init s ∧
      ∀ i, 1 ≤ i → i ≤ N → 1 ≤ s.tin i ∧ s.tin i ≤ N := by
  obtain ⟨s, hs, hst, _⟩ := dfs_tree h fuel hf
  refine ⟨s, hs, hst, ?_⟩
  intro i h1 h2
  have hb := hst.tin_bounds i ((h.mem_nodes i).2 ⟨h1, h2⟩)
  rw [h.length] at hb
  omega

/-- After the traversal, the initialisation loop and any sequence of node updates, the
array `bit` is in step with the current values. -/
theorem tour_synced {N : Nat} {adj : Nat → List Nat} {t : RTree} (h : IsTreeOn N adj t)
    (values : Nat → Int) (fuel : Nat) (hf : N ≤ fuel) (ups : List (Nat × Int))
    (hups : ∀ up ∈ ups, up.1 ∈ t.nodes) :
    ∃ s bit st, dfs adj fuel t.label 0 TourState.init = some s ∧
      initLoop N fuel s.tin values (fun _ => 0) = some bit ∧
      updateNodes N fuel s.tin ups ⟨bit, values⟩ = some st ∧
      Stamped t.nodes t.subtrees TourState.init s ∧ Synced N s.tin st := by
  obtain ⟨s, hs, hst, htin⟩ := tour_ready h fuel hf
  obtain ⟨bit, hb, hsync⟩ := initLoop_synced N fuel hf s.tin values htin
  obtain ⟨st, hu, hsync2⟩ := updateNodes_synced fuel hf htin ups ⟨bit, values⟩ hsync
    (fun up hup => (h.mem_nodes _).1 (hups up hup))
  exact ⟨s, bit, st, hs, hb, hu, hst, hsync2⟩

theorem refTree_isTreeOn : IsTreeOn 5 refAdj refTree := by
  refine ⟨by decide, ?_⟩
  refine .node _ _ _ (by decide) ?_
  simp only [List.forall_mem_cons, List.not_mem_nil, false_implies, implies_true, and_true]
  refine ⟨.node _ _ _ (by decide) ?_, .node _ _ _ (by decide) (by simp)⟩
  simp only [List.forall_mem_cons, List.not_mem_nil, false_implies, implies_true, and_true]
  exact ⟨.node _ _ _ (by decide) (by simp), .node _ _ _ (by decide) (by simp)⟩

/-! ## The claims -/

/-- C1: for every tree on the nodes `1..N` given as symmetric adjacency lists, every root
and every value assignment, after `timer = 0; dfs(root, 0)` and the loop
`update(tin[i], values[i])` on the all-zero array, `query_range(tin[u], tout[u])` returns
the sum of the values over exactly the nodes in the subtree of `u`, for every node `u`. -/
theorem subtree_query_correct (N : Nat) (adj : Nat → List Nat) (t : RTree)
    (h : IsTreeOn N adj t) (values : Nat → Int) (fuel : Nat) (hf : N ≤ fuel) :
    ∃ s bit, dfs adj fuel t.label 0 TourState.init = some s ∧
      initLoop N fuel s.tin values (fun _ => 0) = some bit ∧
      ∀ u ∈ t.nodes, query_range bit fuel (s.tin u) (s.tout u)
        = some (subtreeSum t values u) := by
  obtain ⟨s, bit, st, hs, hb, hu, hst, hsync⟩ := tour_synced h values fuel hf [] (by simp)
  have hst2 : st = ⟨bit, values⟩ := by
    simp only [updateNodes, List.foldlM_nil] at hu
    exact (Option.some.inj hu).symm
  subst hst2
  exact ⟨s, bit, hs, hb, fun u hu => synced_query h hst hsync fuel hf u hu⟩

/-- The subtree-sum theorem at the reference tree with the values of `main`. -/
theorem subtree_query_correct_witness :
    IsTreeOn 5 refAdj refTree ∧ 5 ≤ 5 ∧
      ∃ s bit, dfs refAdj 5 refTree.label 0 TourState.init = some s ∧
        initLoop 5 5 s.tin mainValues (fun _ => 0) = some bit ∧
        ∀ u ∈ refTree.nodes, query_range bit 5 (s.tin u) (s.tout u)
          = some (subtreeSum refTree mainValues u) :=
  ⟨refTree_isTreeOn, le_refl 5,
    subtree_query_correct 5 refAdj refTree refTree_isTreeOn mainValues 5 (le_refl 5)⟩

/-- C2: interval invariant.  For every tree given as symmetric adjacency lists and every
root, after `timer = 0; dfs(root, 0)`, for all nodes `u` and `d`: `d` is in the subtree of
`u` if and only if `tin[u] <= tin[d] <= tout[u]`. -/
theorem interval_invariant (N : Nat) (adj : Nat → List Nat) (t : RTree)
    (h : IsTreeOn N adj t) (fuel : Nat) (hf : N ≤ fuel) :
    ∃ s, dfs adj fuel t.label 0 TourState.init = some s ∧
      ∀ u ∈ t.nodes, ∀ d ∈ t.nodes,
        (inSubtree t u d ↔ s.tin u ≤ s.tin d ∧ s.tin d ≤ s.tout u) := by
  obtain ⟨s, hs, hst, _⟩ := tour_ready h fuel hf
  exact ⟨s, hs, fun u hu d hd => hst.interval h.nodup u d hu hd⟩

/-- The interval invariant at the reference tree, with a recursion allowance of 7. -/
theorem interval_invariant_witness :
    IsTreeOn 5 refAdj refTree ∧ 5 ≤ 7 ∧
      ∃ s, dfs refAdj 7 refTree.label 0 TourState.init = some s ∧
        ∀ u ∈ refTree.nodes, ∀ d ∈ refTree.nodes,
          (inSubtree refTree u d ↔ s.tin u ≤ s.tin d ∧ s.tin d ≤ s.tout u) :=
  ⟨refTree_isTreeOn, by decide,
    interval_invariant 5 refAdj refTree refTree_isTreeOn 7 (by decide)⟩

/-- C5: permutation invariant.  For every tree with `N` nodes given as symmetric adjacency
lists and every root, after `timer = 0; dfs(root, 0)` the map `u -> tin[u]` is a bijection
from the node set `{1..N}` onto `{1..N}`. -/
theorem tin_bijection (N : Nat) (adj : Nat → List Nat) (t : RTree)
    (h : IsTreeOn N adj t) (fuel : Nat) (hf : N ≤ fuel) :
    ∃ s, dfs adj fuel t.label 0 TourState.init = some s ∧
      Set.BijOn s.tin (Set.Icc 1 N) (Set.Icc 1 N) := by
  obtain ⟨s, hs, hst, htin⟩ := tour_ready h fuel hf
  refine ⟨s, hs, ?_, ?_, ?_⟩
  · intro i hi
    exact htin i hi.1 hi.2
  · intro a ha b hb hab
    exact hst.inj a ((h.mem_nodes a).2 ha) b ((h.mem_nodes b).2 hb) hab
  · intro k hk
    obtain ⟨d, hd, hdk⟩ := surj_of_inj_window t.nodes h.nodup s.tin 1 hst.inj
      (fun d hd => by
        have := htin d ((h.mem_nodes d).1 hd).1 ((h.mem_nodes d).1 hd).2
        rw [h.length]
        omega)
      k hk.1 (by rw [h.length]; have := hk.2; omega)
    exact ⟨d, (h.mem_nodes d).1 hd, hdk⟩

/-- The permutation invariant at the reference tree. -/
theorem tin_bijection_witness :
    IsTreeOn 5 refAdj refTree ∧ 5 ≤ 6 ∧
      ∃ s, dfs refAdj 6 refTree.label 0 TourState.init = some s ∧
        Set.BijOn s.tin (Set.Icc 1 5) (Set.Icc 1 5) :=
  ⟨refTree_isTreeOn, by decide, tin_bijection 5 refAdj refTree refTree_isTreeOn 6 (by decide)⟩

/-- C6: nesting invariant.  For every tree given as symmetric adjacency lists and every
root, after `timer = 0; dfs(root, 0)` every node `u` has `tin[u] <= tout[u]`, and every
node `d` in the subtree of `u` (`u` included) has
`tin[u] <= tin[d] <= tout[d] <= tout[u]`. -/
theorem nesting_invariant (N : Nat) (adj : Nat → List Nat) (t : RTree)
    (h : IsTreeOn N adj t) (fuel : Nat) (hf : N ≤ fuel) :
    ∃ s, dfs adj fuel t.label 0 TourState.init = some s ∧
      ∀ u ∈ t.nodes, s.tin u ≤ s.tout u ∧
        ∀ d, inSubtree t u d →
          s.tin u ≤ s.tin d ∧ s.tin d ≤ s.tout d ∧ s.tout d ≤ s.tout u := by
  obtain ⟨s, hs, hst, _⟩ := tour_ready h fuel hf
  refine ⟨s, hs, ?_⟩
  intro u hu
  refine ⟨(hst.range u hu).2.1, ?_⟩
  rintro d ⟨r, hr, rfl, hdr⟩
  have h1 := (hst.sub r hr).2 d hdr
  have h2 := hst.range d (RTree.subtree_nodes_subset t r hr d hdr)
  omega

/-- The nesting invariant at the reference tree. -/
theorem nesting_invariant_witness :
    IsTreeOn 5 refAdj refTree ∧ 5 ≤ 5 ∧
      ∃ s, dfs refAdj 5 refTree.label 0 TourState.init = some s ∧
        ∀ u ∈ refTree.nodes, s.tin u ≤ s.tout u ∧
          ∀ d, inSubtree refTree u d →
            s.tin u ≤ s.tin d ∧ s.tin d ≤ s.tout d ∧ s.tout d ≤ s.tout u :=
  ⟨refTree_isTreeOn, le_refl 5,
    nesting_invariant 5 refAdj refTree refTree_isTreeOn 5 (le_refl 5)⟩

/-- On the reference tree the traversal needs a recursion allowance of 3 and stamps the
nodes 1..5 with the intervals `[1,5]`, `[2,4]`, `[5,5]`, `[3,3]`, `[4,4]`. -/
theorem refAdj_stamps (fuel : Nat) (hf : 3 ≤ fuel) :
    ∃ s, dfs refAdj fuel 1 0 TourState.init = some s ∧
      [s.tin 1, s.tout 1, s.tin 2, s.tout 2, s.tin 3, s.tout 3, s.tin 4, s.tout 4,
        s.tin 5, s.tout 5] = [1, 5, 2, 4, 5, 5, 3, 3, 4, 4] := by
  have hrun : (dfs refAdj 3 1 0 TourState.init).map (fun s =>
      [s.tin 1, s.tout 1, s.tin 2, s.tout 2, s.tin 3, s.tout 3, s.tin 4, s.tout 4,
        s.tin 5, s.tout 5]) = some [1, 5, 2, 4, 5, 5, 3, 3, 4, 4] := by decide
  cases h3 : dfs refAdj 3 1 0 TourState.init with
  | none => rw [h3] at hrun; simp at hrun
  | some s =>
    rw [h3] at hrun
    exact ⟨s, dfs_mono refAdj 3 1 0 _ s h3 fuel hf, Option.some.inj hrun⟩

/-- The body of `main` on the symmetric adjacency lists of the reference tree: the first
subtree query of node 2 returns 110 and, after node 4 is set to 100, the second returns
170. -/
theorem demo_on_reference_tree (fuel : Nat) (hf : 5 ≤ fuel) :
    mainRun refAdj fuel = some (110, 170) := by
  obtain ⟨s, hs, hst, htin⟩ := tour_ready refTree_isTreeOn fuel hf
  obtain ⟨bit, hb, hsync⟩ := initLoop_synced 5 fuel hf s.tin mainValues htin
  obtain ⟨st, hu, hsync2, hval⟩ := updateNode_synced fuel hf hsync 4 100
    (by decide) (htin 4 (by decide) (by decide))
  have hq1 : query_range bit fuel (s.tin 2) (s.tout 2) = some 110 := by
    rw [synced_query refTree_isTreeOn hst hsync fuel hf 2 (by decide)]
    show some (subtreeSum refTree mainValues 2) = some 110
    decide
  have hq2 : query_range st.bit fuel (s.tin 2) (s.tout 2) = some 170 := by
    rw [synced_query refTree_isTreeOn hst hsync2 fuel hf 2 (by decide), hval,
      subtreeSum_update refTree refTree_isTreeOn.nodup _ 4 (by decide)]
    show some (subtreeSum refTree mainValues 2
      + if inSubtree refTree 2 4 then 100 - mainValues 4 else 0) = some 170
    decide
  have hs1 : dfs refAdj fuel 1 0 TourState.init = some s := hs
  simp only [mainRun, hs1, hb, hq1, hu, hq2]

/-- C8, on the code as written: with the adjacency lists that `main` builds on lines 82-85
the call `dfs(1, 0)` never returns, whatever the recursion allowance, so `main` reaches
neither of its queries and reports neither 110 nor 170. -/
theorem main_dfs_diverges :
    ∀ fuel, dfs mainAdj fuel 1 0 TourState.init = none ∧ mainRun mainAdj fuel = none := by
  intro fuel
  have h := (mainAdj_cycle fuel TourState.init).2.2.2
  exact ⟨h, by simp only [mainRun, h]⟩

/-- C9, the claim as stated is false: no run of `dfs(1, 0)` on the reference tree yields
node1:[1,5], node2:[2,4], node3:[5,5], node4:[2,2], node5:[3,3]. -/
theorem claimed_reference_stamps_false :
    ¬ ∃ fuel s, dfs refAdj fuel 1 0 TourState.init = some s ∧
      (s.tin 1 = 1 ∧ s.tout 1 = 5) ∧ (s.tin 2 = 2 ∧ s.tout 2 = 4) ∧
      (s.tin 3 = 5 ∧ s.tout 3 = 5) ∧ (s.tin 4 = 2 ∧ s.tout 4 = 2) ∧
      (s.tin 5 = 3 ∧ s.tout 5 = 3) := by
  rintro ⟨fuel, s, hs, -, -, -, ⟨h4, -⟩, -⟩
  obtain ⟨s2, hs2, hl⟩ := refAdj_stamps (max fuel 3) (le_max_right _ _)
  have hmono := dfs_mono refAdj fuel 1 0 _ s hs (max fuel 3) (le_max_left _ _)
  rw [hmono] at hs2
  have heq := Option.some.inj hs2
  subst heq
  simp only [List.cons.injEq] at hl
  omega

/-- C9, amended: on the reference tree with symmetric adjacency lists in the order 2
before 3 and 4 before 5, `dfs(1, 0)` started with `timer = 0` yields node1:[1,5],
node2:[2,4], node3:[5,5], node4:[3,3], node5:[4,4]. -/
theorem ref_tour (fuel : Nat) (hf : 3 ≤ fuel) :
    ∃ s, dfs refAdj fuel 1 0 TourState.init = some s ∧
      (s.tin 1 = 1 ∧ s.tout 1 = 5) ∧ (s.tin 2 = 2 ∧ s.tout 2 = 4) ∧
      (s.tin 3 = 5 ∧ s.tout 3 = 5) ∧ (s.tin 4 = 3 ∧ s.tout 4 = 3) ∧
      (s.tin 5 = 4 ∧ s.tout 5 = 4) := by
  obtain ⟨s, hs, hl⟩ := refAdj_stamps fuel hf
  simp only [List.cons.injEq] at hl
  exact ⟨s, hs, ⟨hl.1, hl.2.1⟩, ⟨hl.2.2.1, hl.2.2.2.1⟩, ⟨hl.2.2.2.2.1, hl.2.2.2.2.2.1⟩,
    ⟨hl.2.2.2.2.2.2.1, hl.2.2.2.2.2.2.2.1⟩,
    ⟨hl.2.2.2.2.2.2.2.2.1, hl.2.2.2.2.2.2.2.2.2.1⟩⟩

/-- The stamps of the reference tree at the smallest sufficient recursion allowance. -/
theorem ref_tour_witness :
    3 ≤ 3 ∧ ∃ s, dfs refAdj 3 1 0 TourState.init = some s ∧
      (s.tin 1 = 1 ∧ s.tout 1 = 5) ∧ (s.tin 2 = 2 ∧ s.tout 2 = 4) ∧
      (s.tin 3 = 5 ∧ s.tout 3 = 5) ∧ (s.tin 4 = 3 ∧ s.tout 4 = 3) ∧
      (s.tin 5 = 4 ∧ s.tout 5 = 4) :=
  ⟨le_refl 3, ref_tour 3 (le_refl 3)⟩

/-! ## Out-of-range and reversed arguments -/

/-- With the index past `n` the loop of `update` does not run: the call returns the array
as it was, whatever the iteration allowance. -/
theorem update_past_n (n fuel idx : Nat) (val : Int) (bit : Nat → Int) (h : n < idx) :
    update n fuel idx val bit = some bit := by
  unfold update
  rw [if_neg (by omega)]

/-- With index 0 the loop of `update` never exits: the index stays 0. -/
theorem update_zero_none (n : Nat) (val : Int) :
    ∀ (fuel : Nat) (bit : Nat → Int), update n fuel 0 val bit = none := by
  intro fuel
  induction fuel with
  | zero => intro bit; simp [update]
  | succ k ih =>
    intro bit
    rw [update, if_pos (Nat.zero_le n)]
    simp only [lowbit_zero, Nat.add_zero]
    exact ih _

/-- The loop of `query` returns for every index, within `idx` iterations. -/
theorem queryLoop_returns (bit : Nat → Int) : ∀ (fuel idx : Nat) (acc : Int), idx ≤ fuel →
    ∃ r, queryLoop bit fuel idx acc = some r := by
  intro fuel
  induction fuel with
  | zero =>
    intro idx acc h
    have : idx = 0 := by omega
    subst this
    exact ⟨acc, by simp [queryLoop]⟩
  | succ k ih =>
    intro idx acc h
    by_cases h0 : 0 < idx
    · have hL := lowbit_pos_le idx h0
      obtain ⟨r, hr⟩ := ih (idx - lowbit idx) (acc + bit idx) (by omega)
      exact ⟨r, by rw [queryLoop, if_pos h0]; exact hr⟩
    · exact ⟨acc, by rw [queryLoop, if_neg h0]⟩

/-- With `hi < lo` the two sums of `query_range` come out in the other order: the result
is minus the sum of the slots strictly between. -/
theorem query_range_reversed {n : Nat} {bit a : Nat → Int} (h : FenInv n bit a)
    (fuel lo hi : Nat) (hlt : hi < lo) (hlo : lo ≤ n) (hf : n ≤ fuel) :
    query_range bit fuel lo hi = some (- ∑ j ∈ Finset.Icc (hi + 1) (lo - 1), a j) := by
  rw [query_range, query_inv h fuel hi (by omega) (by omega),
    query_inv h fuel (lo - 1) (by omega) (by omega)]
  simp only
  congr 1
  rw [← Finset.sum_Ioc_consecutive a (Nat.zero_le hi) (show hi ≤ lo - 1 by omega)]
  have : Finset.Ioc hi (lo - 1) = Finset.Icc (hi + 1) (lo - 1) := by
    ext x
    simp only [Finset.mem_Ioc, Finset.mem_Icc]
    omega
  rw [this]
  ring

theorem foldlM_none_of_mem {σ α : Type} (f : σ → α → Option σ) (x : α)
    (hx : ∀ b, f b x = none) : ∀ (l : List α) (b : σ), x ∈ l → l.foldlM f b = none := by
  intro l
  induction l with
  | nil => intro b h; simp at h
  | cons y l ih =>
    intro b h
    rw [List.foldlM_cons]
    rcases List.mem_cons.1 h with rfl | h
    · rw [hx b]; rfl
    · cases hy : f b y with
      | none => rfl
      | some b2 => exact ih b2 h

/-- The initialisation loop never finishes when some node `i` in `1..n` has `tin[i] = 0`. -/
theorem initLoop_zero_none (n : Nat) (tin : Nat → Nat) (values : Nat → Int) (i : Nat)
    (h1 : 1 ≤ i) (hn : i ≤ n) (h0 : tin i = 0) :
    ∀ (fuel : Nat) (bit : Nat → Int), initLoop n fuel tin values bit = none := by
  intro fuel bit
  unfold initLoop
  apply foldlM_none_of_mem _ i
  · intro b
    simp only [h0]
    exact update_zero_none n (values i) fuel b
  · rw [List.mem_range'_1]
    omega

/-- C20: for every `n` and `val` the loop of `update(0, val)` never exits, since
`0 & -0 = 0` keeps the index at 0 while `idx <= n` stays true; consequently the
initialisation loop does not terminate when some node `i` has `tin[i]` left at 0. -/
theorem update_zero_diverges (n : Nat) (val : Int) (bit : Nat → Int) :
    lowbit 0 = 0 ∧ (∀ fuel, update n fuel 0 val bit = none) ∧
      ∀ (tin : Nat → Nat) (values : Nat → Int) (i : Nat), 1 ≤ i → i ≤ n → tin i = 0 →
        ∀ fuel, initLoop n fuel tin values bit = none :=
  ⟨lowbit_zero, fun fuel => update_zero_none n val fuel bit,
    fun tin values i h1 hn h0 fuel => initLoop_zero_none n tin values i h1 hn h0 fuel bit⟩

/-! ## Order of the updates -/

/-- The effect of a sequence of in-range updates on every cell: each call adds its delta
to the cells that cover its index. -/
theorem updates_cells {n : Nat} (fuel : Nat) (hf : n ≤ fuel) :
    ∀ (ops : List (Nat × Int)) (bit : Nat → Int), (∀ op ∈ ops, 1 ≤ op.1 ∧ op.1 ≤ n) →
      ∃ bit2, updates n fuel ops bit = some bit2 ∧
        ∀ i, bit2 i = bit i + (ops.map (fun op =>
          if op.1 ≤ i ∧ i ≤ n ∧ i - lowbit i < op.1 then op.2 else 0)).sum := by
  intro ops
  induction ops with
  | nil => intro bit _; exact ⟨bit, rfl, by simp⟩
  | cons op ops ih =>
    intro bit hops
    have hop := hops op (List.mem_cons_self _ _)
    obtain ⟨bit1, hb1, hc1⟩ := update_cells n op.2 fuel op.1 bit hop.1 (by omega)
    obtain ⟨bit2, hb2, hc2⟩ := ih bit1 (fun o ho => hops o (List.mem_cons_of_mem _ ho))
    refine ⟨bit2, ?_, ?_⟩
    · unfold updates at hb2 ⊢
      rw [List.foldlM_cons, hb1]
      exact hb2
    · intro i
      rw [hc2 i, hc1 i, List.map_cons, List.sum_cons]
      ring

/-- C14: for every `n` and every list of in-range point updates applied to the same
starting array, every permutation of the list produces the same final array; in
particular `update(i, a)` then `update(j, b)` gives the same array as `update(j, b)` then
`update(i, a)`. -/
theorem updates_order_independent (n fuel : Nat) (hf : n ≤ fuel) (bit : Nat → Int)
    (ops ops2 : List (Nat × Int)) (hperm : ops.Perm ops2)
    (hops : ∀ op ∈ ops, 1 ≤ op.1 ∧ op.1 ≤ n) :
    (∃ b, updates n fuel ops bit = some b ∧ updates n fuel ops2 bit = some b) ∧
      ∀ (i j : Nat) (a c : Int), 1 ≤ i → i ≤ n → 1 ≤ j → j ≤ n →
        ∃ b1 b2 b, update n fuel i a bit = some b1 ∧ update n fuel j c b1 = some b ∧
          update n fuel j c bit = some b2 ∧ update n fuel i a b2 = some b := by
  constructor
  · obtain ⟨b, hb, hc⟩ := updates_cells fuel hf ops bit hops
    obtain ⟨b2, hb2, hc2⟩ := updates_cells fuel hf ops2 bit
      (fun op hop => hops op (hperm.mem_iff.2 hop))
    refine ⟨b, hb, ?_⟩
    rw [hb2]
    congr 1
    funext i
    rw [hc i, hc2 i]
    congr 1
    exact ((hperm.map _).sum_eq).symm
  · intro i j a c hi1 hi2 hj1 hj2
    obtain ⟨b1, hb1, hc1⟩ := update_cells n a fuel i bit hi1 (by omega)
    obtain ⟨b, hb, hc⟩ := update_cells n c fuel j b1 hj1 (by omega)
    obtain ⟨b2, hb2, hc2⟩ := update_cells n c fuel j bit hj1 (by omega)
    obtain ⟨b3, hb3, hc3⟩ := update_cells n a fuel i b2 hi1 (by omega)
    refine ⟨b1, b2, b, hb1, hb, hb2, ?_⟩
    rw [hb3]
    congr 1
    funext k
    rw [hc3 k, hc2 k, hc k, hc1 k]
    ring

/-- Order independence at three updates on an array of size 4, reversed. -/
theorem updates_order_independent_witness :
    4 ≤ 4 ∧ [((1 : Nat), (10 : Int)), (3, 5), (4, -2)].Perm [(4, -2), (3, 5), (1, 10)] ∧
      (∀ op ∈ [((1 : Nat), (10 : Int)), (3, 5), (4, -2)], 1 ≤ op.1 ∧ op.1 ≤ 4) ∧
      ((∃ b, updates 4 4 [((1 : Nat), (10 : Int)), (3, 5), (4, -2)] (fun _ => 0) = some b ∧
          updates 4 4 [((4 : Nat), (-2 : Int)), (3, 5), (1, 10)] (fun _ => 0) = some b) ∧
        ∀ (i j : Nat) (a c : Int), 1 ≤ i → i ≤ 4 → 1 ≤ j → j ≤ 4 →
          ∃ b1 b2 b, update 4 4 i a (fun _ => 0) = some b1 ∧ update 4 4 j c b1 = some b ∧
            update 4 4 j c (fun _ => 0) = some b2 ∧ update 4 4 i a b2 = some b) :=
  ⟨le_refl 4, by decide, by decide,
    updates_order_independent 4 4 (le_refl 4) (fun _ => 0) [(1, 10), (3, 5), (4, -2)]
      [(4, -2), (3, 5), (1, 10)] (by decide) (by decide)⟩

/-- Divergence at index 0 on an array of size 3, and of the initialisation loop when node
3 was never stamped. -/
theorem update_zero_diverges_witness :
    (∀ fuel, update 3 fuel 0 7 (fun _ => 0) = none) ∧
      ∀ fuel, initLoop 3 fuel (fun i => if i = 3 then 0 else i) mainValues (fun _ => 0)
        = none :=
  ⟨(update_zero_diverges 3 7 (fun _ => 0)).2.1,
    (update_zero_diverges 3 7 (fun _ => 0)).2.2 (fun i => if i = 3 then 0 else i) mainValues 3
      (by decide) (by decide) (by decide)⟩

/-! ## The cell invariant -/

theorem slotValue_append_single (ops : List (Nat × Int)) (idx : Nat) (val : Int) (j : Nat) :
    slotValue (ops ++ [(idx, val)]) j = slotValue ops j + if j = idx then val else 0 := by
  induction ops with
  | nil =>
    rw [List.nil_append, slotValue_cons, slotValue_nil]
    by_cases h : idx = j
    · subst h; simp
    · have h2 : ¬ j = idx := fun e => h e.symm
      simp [h, h2]
  | cons op ops ih =>
    rw [List.cons_append, slotValue_cons, slotValue_cons, ih]
    ring

/-! ## The number of iterations -/

theorem update_fuel_mono (n : Nat) (val : Int) : ∀ (fuel idx : Nat) (bit r : Nat → Int),
    update n fuel idx val bit = some r → ∀ fuel2, fuel ≤ fuel2 →
      update n fuel2 idx val bit = some r := by
  intro fuel
  induction fuel with
  | zero =>
    intro idx bit r h fuel2 _
    unfold update at h ⊢
    by_cases hn : idx ≤ n
    · rw [if_pos hn] at h; simp at h
    · rw [if_neg hn] at h ⊢; exact h
  | succ k ih =>
    intro idx bit r h fuel2 hle
    cases fuel2 with
    | zero => omega
    | succ k2 =>
      rw [update] at h ⊢
      by_cases hn : idx ≤ n
      · rw [if_pos hn] at h ⊢
        exact ih _ _ r h k2 (by omega)
      · rw [if_neg hn] at h ⊢; exact h

theorem queryLoop_fuel_mono (bit : Nat → Int) : ∀ (fuel idx : Nat) (acc r : Int),
    queryLoop bit fuel idx acc = some r → ∀ fuel2, fuel ≤ fuel2 →
      queryLoop bit fuel2 idx acc = some r := by
  intro fuel
  induction fuel with
  | zero =>
    intro idx acc r h fuel2 _
    unfold queryLoop at h ⊢
    by_cases hn : 0 < idx
    · rw [if_pos hn] at h; simp at h
    · rw [if_neg hn] at h ⊢; exact h
  | succ k ih =>
    intro idx acc r h fuel2 hle
    cases fuel2 with
    | zero => omega
    | succ k2 =>
      rw [queryLoop] at h ⊢
      by_cases hn : 0 < idx
      · rw [if_pos hn] at h ⊢
        exact ih _ _ r h k2 (by omega)
      · rw [if_neg hn] at h ⊢; exact h

/-- Doubling the index and the bound does not change the number of iterations of
`update`. -/
theorem update_double (n : Nat) : ∀ (fuel m : Nat) (val val2 : Int) (bit bit2 : Nat → Int),
    (∃ r, update (n / 2) fuel m val bit = some r) →
    ∃ r, update n fuel (2 * m) val2 bit2 = some r := by
  intro fuel
  induction fuel with
  | zero =>
    intro m val val2 bit bit2 ⟨r, h⟩
    unfold update at h ⊢
    by_cases hn : m ≤ n / 2
    · rw [if_pos hn] at h; simp at h
    · rw [if_neg (by omega)]; exact ⟨_, rfl⟩
  | succ k ih =>
    intro m val val2 bit bit2 ⟨r, h⟩
    rw [update] at h ⊢
    by_cases hn : m ≤ n / 2
    · rw [if_pos hn] at h
      rw [if_pos (by omega)]
      have h2 : 2 * m + lowbit (2 * m) = 2 * (m + lowbit m) := by
        rw [lowbit_two_mul]; ring
      simp only [h2]
      exact ih _ _ _ _ _ ⟨r, h⟩
    · rw [if_neg (by omega)]; exact ⟨_, rfl⟩

/-- Doubling the index does not change the number of iterations of `query`. -/
theorem queryLoop_double (bit bit2 : Nat → Int) : ∀ (fuel m : Nat) (acc acc2 : Int),
    (∃ r, queryLoop bit fuel m acc = some r) →
    ∃ r, queryLoop bit2 fuel (2 * m) acc2 = some r := by
  intro fuel
  induction fuel with
  | zero =>
    intro m acc acc2 ⟨r, h⟩
    unfold queryLoop at h ⊢
    by_cases hn : 0 < m
    · rw [if_pos hn] at h; simp at h
    · rw [if_neg (by omega)]; exact ⟨_, rfl⟩
  | succ k ih =>
    intro m acc acc2 ⟨r, h⟩
    rw [queryLoop] at h ⊢
    by_cases hn : 0 < m
    · rw [if_pos hn] at h
      rw [if_pos (by omega)]
      have hL := lowbit_pos_le m hn
      have h2 : 2 * m - lowbit (2 * m) = 2 * (m - lowbit m) := by
        rw [lowbit_two_mul]; omega
      simp only [h2]
      exact ih _ _ _ ⟨r, h⟩
    · rw [if_neg (by omega)]; exact ⟨_, rfl⟩

/-- The loop of `update` takes at most `k` iterations when `n < 2 ^ k`. -/
theorem update_steps : ∀ (k n idx : Nat) (val : Int) (bit : Nat → Int), n < 2 ^ k →
    1 ≤ idx → ∃ r, update n k idx val bit = some r := by
  intro k
  induction k with
  | zero =>
    intro n idx val bit hn hidx
    exact ⟨bit, update_past_n n 0 idx val bit (by simp at hn; omega)⟩
  | succ k ih =>
    intro n idx val bit hn hidx
    have hhalf : n / 2 < 2 ^ k := by
      rw [pow_succ] at hn
      omega
    rcases Nat.even_or_odd' idx with ⟨m, rfl | rfl⟩
    · obtain ⟨r, hr⟩ := update_double n k m val val bit bit (ih (n / 2) m val bit hhalf (by omega))
      exact ⟨r, update_fuel_mono n val k _ bit r hr (k + 1) (by omega)⟩
    · by_cases hle : 2 * m + 1 ≤ n
      · rw [update, if_pos hle]
        simp only [lowbit_two_mul_add_one]
        have h2 : 2 * m + 1 + 1 = 2 * (m + 1) := by ring
        rw [h2]
        exact update_double n k (m + 1) val val bit _ (ih (n / 2) (m + 1) val bit hhalf (by omega))
      · exact ⟨bit, update_past_n n _ _ val bit (by omega)⟩

/-- The loop of `query` takes at most `k` iterations when `idx < 2 ^ k`. -/
theorem queryLoop_steps (bit : Nat → Int) : ∀ (k idx : Nat) (acc : Int), idx < 2 ^ k →
    ∃ r, queryLoop bit k idx acc = some r := by
  intro k
  induction k with
  | zero =>
    intro idx acc h
    have : idx = 0 := by simp at h; omega
    subst this
    exact ⟨acc, by simp [queryLoop]⟩
  | succ k ih =>
    intro idx acc h
    rw [pow_succ] at h
    rcases Nat.even_or_odd' idx with ⟨m, rfl | rfl⟩
    · obtain ⟨r, hr⟩ := queryLoop_double bit bit k m acc acc (ih m acc (by omega))
      exact ⟨r, queryLoop_fuel_mono bit k _ acc r hr (k + 1) (by omega)⟩
    · rw [queryLoop, if_pos (by omega)]
      simp only [lowbit_two_mul_add_one, Nat.add_sub_cancel]
      exact queryLoop_double bit bit k m acc _ (ih m acc (by omega))

/-- C17: for every `n >= 1` and every index `1 <= i <= n`, the loop of `update(i, val)`
terminates after at most `floor(log2(n)) + 1` iterations, and so does the loop of
`query(i)`.  (`n >= 1` follows from `1 <= i <= n`.) -/
theorem log_step_bound (n i : Nat) (val : Int) (bit : Nat → Int) (h1 : 1 ≤ i) (h2 : i ≤ n) :
    (∃ r, update n (Nat.log 2 n + 1) i val bit = some r) ∧
      ∃ r, query bit (Nat.log 2 n + 1) i = some r := by
  have hlt : n < 2 ^ (Nat.log 2 n + 1) := Nat.lt_pow_succ_log_self (by decide) n
  exact ⟨update_steps _ n i val bit hlt h1, queryLoop_steps bit _ i 0 (by omega)⟩

/-- The step bound at `n = 5`, `i = 3`: three iterations suffice. -/
theorem log_step_bound_witness :
    1 ≤ 3 ∧ 3 ≤ 5 ∧
      (∃ r, update 5 (Nat.log 2 5 + 1) 3 7 (fun _ => 0) = some r) ∧
      ∃ r, query (fun _ => 0) (Nat.log 2 5 + 1) 3 = some r :=
  ⟨by decide, by decide, log_step_bound 5 3 7 (fun _ => 0) (by decide) (by decide)⟩

/-! ## Unreached nodes, the root and subtree sizes -/

/-- Every node of a rooted tree can be reached from its root along the adjacency lists. -/
theorem reachable_of_mem (adj : Nat → List Nat) : ∀ (par : Option Nat) (t : RTree),
    IsAdjacency adj par t → ∀ x ∈ t.nodes, Reachable adj t.label x := by
  intro par t h
  induction h with
  | node par u cs hperm _ ih =>
    intro x hx
    rw [RTree.nodes, RTree.nodesOfList_eq] at hx
    rcases List.mem_cons.1 hx with rfl | hx
    · exact Relation.ReflTransGen.refl
    · obtain ⟨c, hc, hxc⟩ := List.mem_flatMap.1 hx
      have hstep : c.label ∈ adj u :=
        hperm.mem_iff.2 (List.mem_append_right _ (List.mem_map.2 ⟨c, hc, rfl⟩))
      exact Relation.ReflTransGen.head hstep (ih c hc x hxc)

theorem splitTree_isAdjacency : IsAdjacency splitAdj none splitTree := by
  refine .node _ _ _ (by decide) ?_
  simp only [List.forall_mem_cons, List.not_mem_nil, false_implies, implies_true, and_true]
  exact .node _ _ _ (by decide) (by simp)

theorem splitAdj_unreachable : ¬ Reachable splitAdj splitTree.label 3 := by
  intro h
  have key : ∀ x, Reachable splitAdj 1 x → x = 1 ∨ x = 2 := by
    intro x hx
    induction hx with
    | refl => exact Or.inl rfl
    | tail _ hstep ih =>
      rcases ih with rfl | rfl
      · simp [splitAdj] at hstep; exact Or.inr hstep
      · simp [splitAdj] at hstep; exact Or.inl hstep
  have := key 3 h
  omega

/-- C13, the claim as stated is false: on nodes 1..3 with the single edge 1-2, node 3 is
unreachable from the root 1, and `timer = 0; dfs(1, 0)` completes normally, leaving
`tin[3] = tout[3] = 0`. -/
theorem disconnected_claim_false :
    ¬ Reachable splitAdj 1 3 ∧
      ∃ s, dfs splitAdj 2 1 0 TourState.init = some s ∧ s.tin 3 = 0 ∧ s.tout 3 = 0 := by
  refine ⟨splitAdj_unreachable, ?_⟩
  have hrun : (dfs splitAdj 2 1 0 TourState.init).map (fun s => (s.tin 3, s.tout 3))
      = some (0, 0) := by decide
  cases h : dfs splitAdj 2 1 0 TourState.init with
  | none => rw [h] at hrun; simp at hrun
  | some s =>
    rw [h] at hrun
    have := Option.some.inj hrun
    simp only [Prod.mk.injEq] at this
    exact ⟨s, rfl, this.1, this.2⟩

/-- C13, amended: the code has no connectivity check.  When the nodes reachable from the
root form a tree given as symmetric adjacency lists, inside `1..N`, the flattening step
`timer = 0; dfs(root, 0)` completes normally, leaves `timer` at the number of reachable
nodes, and leaves `tin[x] = tout[x] = 0` for every node `x` that is unreachable from the
root. -/
theorem unreached_left_zero (N : Nat) (adj : Nat → List Nat) (t : RTree)
    (hadj : IsAdjacency adj none t) (hnd : t.nodes.Nodup)
    (hin : ∀ u ∈ t.nodes, 1 ≤ u ∧ u ≤ N) (fuel : Nat) (hf : t.nodes.length ≤ fuel)
    (x : Nat) (hx : ¬ Reachable adj t.label x) :
    ∃ s, dfs adj fuel t.label 0 TourState.init = some s ∧ s.timer = t.nodes.length ∧
      s.tin x = 0 ∧ s.tout x = 0 := by
  have h0 : (none : Option Nat).getD 0 ∉ t.nodes := by
    intro hmem
    have := (hin _ hmem).1
    simp at this
  obtain ⟨s, hs, hst, _⟩ := dfs_spec adj none t hadj hnd h0 fuel TourState.init hf
  have hxn : x ∉ t.nodes := fun hmem => hx (reachable_of_mem adj none t hadj x hmem)
  have hfr := hst.frame x hxn
  refine ⟨s, hs, ?_, hfr.1, hfr.2⟩
  have := hst.timer_eq
  simpa [TourState.init] using this

/-- The unreached node 3 of the split adjacency lists. -/
theorem unreached_left_zero_witness :
    IsAdjacency splitAdj none splitTree ∧ splitTree.nodes.Nodup ∧
      (∀ u ∈ splitTree.nodes, 1 ≤ u ∧ u ≤ 3) ∧ splitTree.nodes.length ≤ 2 ∧
      ¬ Reachable splitAdj splitTree.label 3 ∧
      ∃ s, dfs splitAdj 2 splitTree.label 0 TourState.init = some s ∧
        s.timer = splitTree.nodes.length ∧ s.tin 3 = 0 ∧ s.tout 3 = 0 :=
  ⟨splitTree_isAdjacency, by decide, by decide, by decide, splitAdj_unreachable,
    unreached_left_zero 3 splitAdj splitTree splitTree_isAdjacency (by decide) (by decide) 2
      (by decide) 3 splitAdj_unreachable⟩

/-- In a stamped tree a node whose entry time lies in the interval of a subtree belongs to
that subtree. -/
theorem Stamped.mem_of_interval {t : RTree} {s0 s : TourState} (hnd : t.nodes.Nodup)
    (h : Stamped t.nodes t.subtrees s0 s) (r : RTree) (hr : r ∈ t.subtrees) (d : Nat)
    (hd : d ∈ t.nodes) (h1 : s.tin r.label ≤ s.tin d) (h2 : s.tin d ≤ s.tout r.label) :
    d ∈ r.nodes := by
  have hsubset := RTree.subtree_nodes_subset t r hr
  have hrnd : r.nodes.Nodup := (RTree.subtree_nodes_sublist t r hr).nodup hnd
  have hsz := (h.sub r hr).1
  obtain ⟨e, he, hte⟩ := surj_of_inj_window r.nodes hrnd s.tin (s.tin r.label)
    (fun a ha b hb hab => h.inj a (hsubset a ha) b (hsubset b hb) hab)
    (fun a ha => by
      have h3 := (h.sub r hr).2 a ha
      have h4 := h.range a (hsubset a ha)
      omega)
    (s.tin d) h1 (by omega)
  have := h.inj e (hsubset e he) d hd hte
  exact this ▸ he

/-- In a stamped tree the nodes in the subtree of `r.label` are the nodes of `r`. -/
theorem Stamped.subtree_nodes {t : RTree} {s0 s : TourState} (hnd : t.nodes.Nodup)
    (h : Stamped t.nodes t.subtrees s0 s) (r : RTree) (hr : r ∈ t.subtrees) :
    (t.nodes.filter (fun d => inSubtree t r.label d)).Perm r.nodes := by
  have hrnd : r.nodes.Nodup := (RTree.subtree_nodes_sublist t r hr).nodup hnd
  apply (List.perm_ext_iff_of_nodup (hnd.filter _) hrnd).2
  intro d
  rw [List.mem_filter]
  constructor
  · rintro ⟨hd, hin⟩
    have hint := (h.interval hnd r.label d
      (RTree.subtree_nodes_subset t r hr _ r.label_mem_nodes) hd).1 (by simpa using hin)
    exact h.mem_of_interval hnd r hr d hd hint.1 hint.2
  · intro hdr
    exact ⟨RTree.subtree_nodes_subset t r hr d hdr, by simpa using ⟨r, hr, rfl, hdr⟩⟩

/-- C19: subtree size formula.  For every tree given as symmetric adjacency lists and
every root, after `timer = 0; dfs(root, 0)` every node `u` satisfies
`tout[u] = tin[u] + size(u) - 1`, where `size(u)` is the number of nodes in the subtree of
`u`, and the entry times of the nodes in the subtree of `u` are exactly the integers
`tin[u], ..., tout[u]`. -/
theorem subtree_size_formula (N : Nat) (adj : Nat → List Nat) (t : RTree)
    (h : IsTreeOn N adj t) (fuel : Nat) (hf : N ≤ fuel) :
    ∃ s, dfs adj fuel t.label 0 TourState.init = some s ∧
      ∀ u ∈ t.nodes, 1 ≤ subtreeSize t u ∧
        s.tout u = s.tin u + subtreeSize t u - 1 ∧
        ∀ k, (s.tin u ≤ k ∧ k ≤ s.tout u) ↔ ∃ d, inSubtree t u d ∧ s.tin d = k := by
  obtain ⟨s, hs, hst, _⟩ := tour_ready h fuel hf
  refine ⟨s, hs, ?_⟩
  intro u hu
  obtain ⟨r, hr, rfl⟩ := t.exists_subtree u hu
  have hsize : subtreeSize t r.label = r.nodes.length :=
    (hst.subtree_nodes h.nodup r hr).length_eq
  have hsz := (hst.sub r hr).1
  have hpos : 1 ≤ r.nodes.length := List.length_pos_of_mem r.label_mem_nodes
  have hsubset := RTree.subtree_nodes_subset t r hr
  have hrnd : r.nodes.Nodup := (RTree.subtree_nodes_sublist t r hr).nodup h.nodup
  refine ⟨by omega, by omega, ?_⟩
  intro k
  constructor
  · rintro ⟨h1, h2⟩
    obtain ⟨d, hd, hdk⟩ := surj_of_inj_window r.nodes hrnd s.tin (s.tin r.label)
      (fun a ha b hb hab => hst.inj a (hsubset a ha) b (hsubset b hb) hab)
      (fun a ha => by
        have h3 := (hst.sub r hr).2 a ha
        have h4 := hst.range a (hsubset a ha)
        omega)
      k h1 (by omega)
    exact ⟨d, ⟨r, hr, rfl, hd⟩, hdk⟩
  · rintro ⟨d, ⟨r2, hr2, hlab, hd⟩, rfl⟩
    have h3 := (hst.sub r2 hr2).2 d hd
    have h4 := hst.range d (RTree.subtree_nodes_subset t r2 hr2 d hd)
    rw [hlab] at h3
    omega

/-- The size formula at the reference tree. -/
theorem subtree_size_formula_witness :
    IsTreeOn 5 refAdj refTree ∧ 5 ≤ 5 ∧
      ∃ s, dfs refAdj 5 refTree.label 0 TourState.init = some s ∧
        ∀ u ∈ refTree.nodes, 1 ≤ subtreeSize refTree u ∧
          s.tout u = s.tin u + subtreeSize refTree u - 1 ∧
          ∀ k, (s.tin u ≤ k ∧ k ≤ s.tout u) ↔ ∃ d, inSubtree refTree u d ∧ s.tin d = k :=
  ⟨refTree_isTreeOn, le_refl 5,
    subtree_size_formula 5 refAdj refTree refTree_isTreeOn 5 (le_refl 5)⟩

/-! ## The record of writes -/

theorem foldlM_erase {σ τ α : Type} (e : σ → τ) (f : σ → α → Option σ)
    (g : τ → α → Option τ) (h : ∀ st v, (f st v).map e = g (e st) v) :
    ∀ (l : List α) (st : σ), (l.foldlM f st).map e = l.foldlM g (e st) := by
  intro l
  induction l with
  | nil => intro st; rfl
  | cons v l ih =>
    intro st
    rw [List.foldlM_cons, List.foldlM_cons, ← h st v]
    cases hf : f st v with
    | none => rfl
    | some st2 => exact ih st2

/-- Dropping the ghost record from `dfsTraced` gives `dfs`. -/
theorem dfsTraced_state (adj : Nat → List Nat) : ∀ (fuel u p : Nat) (g : Traced),
    (dfsTraced adj fuel u p g).map Traced.state = dfs adj fuel u p g.state := by
  intro fuel
  induction fuel with
  | zero => intro u p g; rfl
  | succ k ih =>
    intro u p g
    rw [dfsTraced, dfs]
    have hfold := foldlM_erase Traced.state
      (fun st v => if v ≠ p then dfsTraced adj k v u st else some st)
      (fun st v => if v ≠ p then dfs adj k v u st else some st)
      (by
        intro st v
        by_cases hv : v ≠ p
        · simp only [if_pos hv]; exact ih v u st
        · simp only [if_neg hv]; rfl)
      (adj u) ⟨enter g.state u, g.tinWrites ++ [u], g.toutWrites⟩
    rw [← hfold]
    cases (adj u).foldlM (fun st v => if v ≠ p then dfsTraced adj k v u st else some st)
        ⟨enter g.state u, g.tinWrites ++ [u], g.toutWrites⟩ with
    | none => rfl
    | some g2 => rfl

theorem Logged.start (g : Traced) : Logged [] g g :=
  ⟨[], [], by simp, List.Perm.refl _, by simp, List.Perm.refl _⟩

theorem Logged.chain {ns1 ns2 : List Nat} {g g1 g2 : Traced} (h1 : Logged ns1 g g1)
    (h2 : Logged ns2 g1 g2) : Logged (ns1 ++ ns2) g g2 := by
  obtain ⟨es1, ls1, he1, hp1, hl1, hq1⟩ := h1
  obtain ⟨es2, ls2, he2, hp2, hl2, hq2⟩ := h2
  exact ⟨es1 ++ es2, ls1 ++ ls2, by rw [he2, he1, List.append_assoc], hp1.append hp2,
    by rw [hl2, hl1, List.append_assoc], hq1.append hq2⟩

/-- The loop of `dfsTraced` over an adjacency list whose entries other than the parent
are the roots of the trees `cs`. -/
theorem dfsTraced_loop (adj : Nat → List Nat) (fuel u p : Nat) :
    ∀ (vs : List Nat) (cs : List RTree) (g : Traced),
      vs.filter (fun v => decide (v ≠ p)) = cs.map RTree.label →
      (∀ c ∈ cs, ∀ g0, ∃ g1, dfsTraced adj fuel c.label u g0 = some g1 ∧
        Logged c.nodes g0 g1) →
      ∃ g2, vs.foldlM (fun st v => if v ≠ p then dfsTraced adj fuel v u st else some st) g
          = some g2 ∧ Logged (RTree.nodesOfList cs) g g2 := by
  intro vs
  induction vs with
  | nil =>
    intro cs g hf _
    cases cs with
    | nil => exact ⟨g, rfl, Logged.start g⟩
    | cons c cs => simp at hf
  | cons v vs ih =>
    intro cs g hf hdfs
    by_cases hv : v = p
    · have hf2 : vs.filter (fun v => decide (v ≠ p)) = cs.map RTree.label := by
        rw [← hf, List.filter_cons_of_neg (by simp [hv])]
      obtain ⟨g2, h2, hl2⟩ := ih cs g hf2 hdfs
      refine ⟨g2, ?_, hl2⟩
      rw [List.foldlM_cons, if_neg (by simp [hv])]
      exact h2
    · rw [List.filter_cons_of_pos (by simp [hv])] at hf
      cases cs with
      | nil => simp at hf
      | cons c cs =>
        simp only [List.map_cons, List.cons.injEq] at hf
        obtain ⟨g1, h1, hl1⟩ := hdfs c (List.mem_cons_self _ _) g
        obtain ⟨g2, h2, hl2⟩ := ih cs g1 hf.2
          (fun c2 hc2 => hdfs c2 (List.mem_cons_of_mem _ hc2))
        refine ⟨g2, ?_, ?_⟩
        · rw [List.foldlM_cons, if_pos hv, hf.1, h1]
          exact h2
        · rw [RTree.nodesOfList]
          exact hl1.chain hl2

/-- The entries of the adjacency list of a node other than its parent are its children,
in some order. -/
theorem children_order {adj : Nat → List Nat} {par : Option Nat} {u : Nat}
    {cs : List RTree} (hperm : (adj u).Perm (par.toList ++ cs.map RTree.label))
    (hp : par.getD 0 ∉ RTree.nodesOfList cs) :
    ∃ cs2 : List RTree, cs2.Perm cs ∧
      cs2.map RTree.label = (adj u).filter (fun v => decide (v ≠ par.getD 0)) := by
  have h1 := hperm.filter (fun v => decide (v ≠ par.getD 0))
  have h2 : (par.toList ++ cs.map RTree.label).filter (fun v => decide (v ≠ par.getD 0))
      = cs.map RTree.label := by
    rw [List.filter_append]
    have h3 : par.toList.filter (fun v => decide (v ≠ par.getD 0)) = [] := by
      cases par <;> simp
    have h4 : (cs.map RTree.label).filter (fun v => decide (v ≠ par.getD 0))
        = cs.map RTree.label := by
      rw [List.filter_eq_self]
      intro a ha
      obtain ⟨c, hc, rfl⟩ := List.mem_map.1 ha
      have : c.label ≠ par.getD 0 := by
        intro heq
        apply hp
        rw [RTree.nodesOfList_eq]
        exact List.mem_flatMap.2 ⟨c, hc, heq ▸ c.label_mem_nodes⟩
      simpa using this
    rw [h3, h4, List.nil_append]
  rw [h2] at h1
  exact perm_map_exists RTree.label h1 cs rfl

/-- One call of `dfsTraced` on a rooted tree returns and assigns the `tin` cell and the
`tout` cell of every node of the tree exactly once. -/
theorem dfsTraced_spec (adj : Nat → List Nat) : ∀ (par : Option Nat) (t : RTree),
    IsAdjacency adj par t → t.nodes.Nodup → par.getD 0 ∉ t.nodes →
    ∀ (fuel : Nat) (g : Traced), t.nodes.length ≤ fuel →
    ∃ g2, dfsTraced adj fuel t.label (par.getD 0) g = some g2 ∧ Logged t.nodes g g2 := by
  intro par t h
  induction h with
  | node par u cs hperm _ ih =>
    intro hnd hp fuel g hfuel
    rw [RTree.nodes] at hnd hp hfuel
    rw [List.nodup_cons] at hnd
    have hsub : ∀ c ∈ cs, ∀ d ∈ c.nodes, d ∈ RTree.nodesOfList cs := by
      intro c hc d hd
      rw [RTree.nodesOfList_eq]
      exact List.mem_flatMap.2 ⟨c, hc, hd⟩
    obtain ⟨cs2, hcs2, hmap⟩ := children_order hperm
      (fun hmem => hp (List.mem_cons_of_mem _ hmem))
    have hnodes : (RTree.nodesOfList cs2).Perm (RTree.nodesOfList cs) := by
      rw [RTree.nodesOfList_eq, RTree.nodesOfList_eq]
      exact hcs2.flatMap_right _
    cases fuel with
    | zero => simp at hfuel
    | succ k =>
      have hchild : ∀ c ∈ cs2, ∀ g0, ∃ g1, dfsTraced adj k c.label u g0 = some g1 ∧
          Logged c.nodes g0 g1 := by
        intro c hc2 g0
        have hc := hcs2.mem_iff.1 hc2
        have hlen := RTree.length_le_of_mem hc
        have hcnd : c.nodes.Nodup := by
          have := hnd.2
          rw [RTree.nodesOfList_eq, List.nodup_flatMap] at this
          exact this.1 c hc
        exact ih c hc hcnd (fun hu => hnd.1 (hsub c hc _ hu)) k g0
          (by simp at hfuel; omega)
      obtain ⟨g2, h2, es, ls, he, hpe, hl, hpl⟩ := dfsTraced_loop adj k u (par.getD 0) (adj u)
        cs2 ⟨enter g.state u, g.tinWrites ++ [u], g.toutWrites⟩ hmap.symm hchild
      refine ⟨⟨leave g2.state u, g2.tinWrites, g2.toutWrites ++ [u]⟩, ?_, ?_⟩
      · rw [RTree.label, dfsTraced, h2]
      · refine ⟨u :: es, ls ++ [u], ?_, ?_, ?_, ?_⟩
        · show g2.tinWrites = g.tinWrites ++ u :: es
          rw [he]
          simp
        · rw [RTree.nodes]
          exact (hpe.trans hnodes).cons u
        · show g2.toutWrites ++ [u] = g.toutWrites ++ (ls ++ [u])
          rw [hl]
          simp
        · rw [RTree.nodes]
          exact (List.perm_append_singleton u ls).trans ((hpl.trans hnodes).cons u)

/-- C16: termination and single visit.  For every tree with `N` nodes given as symmetric
adjacency lists and every root, `dfs(root, 0)` started with `timer = 0` terminates, enters
every node exactly once (the `tin` cell and the `tout` cell of each node are each assigned
exactly once), and leaves `timer = N`. -/
theorem dfs_single_visit (N : Nat) (adj : Nat → List Nat) (t : RTree)
    (h : IsTreeOn N adj t) (fuel : Nat) (hf : N ≤ fuel) :
    ∃ s g, dfs adj fuel t.label 0 TourState.init = some s ∧ s.timer = N ∧
      dfsTraced adj fuel t.label 0 ⟨TourState.init, [], []⟩ = some g ∧ g.state = s ∧
      g.tinWrites.Perm (List.range' 1 N) ∧ g.toutWrites.Perm (List.range' 1 N) ∧
      ∀ u, 1 ≤ u → u ≤ N → g.tinWrites.count u = 1 ∧ g.toutWrites.count u = 1 := by
  have h0 : (none : Option Nat).getD 0 ∉ t.nodes := by
    intro hmem
    have := (h.mem_nodes _).1 hmem
    simp at this
  obtain ⟨s, hs, hst, _⟩ := tour_ready h fuel hf
  obtain ⟨g, hg, es, ls, he, hpe, hl, hpl⟩ := dfsTraced_spec adj none t h.2 h.nodup h0 fuel
    ⟨TourState.init, [], []⟩ (by rw [h.length]; exact hf)
  have hgs : g.state = s := by
    have := dfsTraced_state adj fuel t.label 0 ⟨TourState.init, [], []⟩
    rw [show (none : Option Nat).getD 0 = 0 from rfl] at hg
    rw [hg, hs] at this
    exact Option.some.inj this
  simp only [List.nil_append] at he hl
  have hin : g.tinWrites.Perm (List.range' 1 N) := by rw [he]; exact hpe.trans h.1
  have hout : g.toutWrites.Perm (List.range' 1 N) := by rw [hl]; exact hpl.trans h.1
  refine ⟨s, g, hs, ?_, hg, hgs, hin, hout, ?_⟩
  · have := hst.timer_eq
    rw [h.length] at this
    simpa [TourState.init] using this
  · intro u h1 h2
    have hmem : u ∈ List.range' 1 N := List.mem_range'_1.2 (by omega)
    rw [hin.count_eq, hout.count_eq]
    exact ⟨List.count_eq_one_of_mem (List.nodup_range' 1 N) hmem,
      List.count_eq_one_of_mem (List.nodup_range' 1 N) hmem⟩

/-- Termination and single visit at the reference tree. -/
theorem dfs_single_visit_witness :
    IsTreeOn 5 refAdj refTree ∧ 5 ≤ 5 ∧
      ∃ s g, dfs refAdj 5 refTree.label 0 TourState.init = some s ∧ s.timer = 5 ∧
        dfsTraced refAdj 5 refTree.label 0 ⟨TourState.init, [], []⟩ = some g ∧
        g.state = s ∧
        g.tinWrites.Perm (List.range' 1 5) ∧ g.toutWrites.Perm (List.range' 1 5) ∧
        ∀ u, 1 ≤ u → u ≤ 5 → g.tinWrites.count u = 1 ∧ g.toutWrites.count u = 1 :=
  ⟨refTree_isTreeOn, le_refl 5,
    dfs_single_visit 5 refAdj refTree refTree_isTreeOn 5 (le_refl 5)⟩

/-! ## Machine width: arithmetic -/

theorem wrapLong_of_isLong {x : Int} (h : IsLong x) : wrapLong x = x := by
  unfold IsLong at h
  unfold wrapLong
  omega

theorem wrapInt_of_isInt {x : Int} (h : IsInt x) : wrapInt x = x := by
  unfold IsInt at h
  unfold wrapInt
  omega

theorem wrapLong_isLong (x : Int) : IsLong (wrapLong x) := by
  unfold IsLong wrapLong
  omega

theorem wrapLong_add_left (a b : Int) : wrapLong (wrapLong a + b) = wrapLong (a + b) := by
  unfold wrapLong
  omega

theorem wrapLong_add_right (a b : Int) : wrapLong (a + wrapLong b) = wrapLong (a + b) := by
  unfold wrapLong
  omega

theorem wrapLong_sub_wrap (a b : Int) :
    wrapLong (wrapLong a - wrapLong b) = wrapLong (a - b) := by
  unfold wrapLong
  omega

theorem wrapLong_zero : wrapLong 0 = 0 := by decide

/-- On a non-negative `int` the machine expression `idx & -idx` is `lowbit`. -/
theorem land_neg_eq_lowbit (idx : Nat) :
    Int.land (idx : Int) (-(idx : Int)) = (lowbit idx : Int) := by
  unfold lowbit
  rw [Int.toNat_of_nonneg]
  cases idx with
  | zero => simp [Int.land]
  | succ k =>
    show 0 ≤ Int.land (Int.ofNat (k + 1)) (Int.negSucc k)
    simp only [Int.land]
    exact Int.ofNat_nonneg _

/-! ## Machine width: simulation -/

/-- One `update` call: when every machine cell is the 64-bit wrap of the mathematical
cell and `n` is within the capacity, the machine call returns whenever the mathematical
call does, and the cells stay related. -/
theorem updateM_sim (n : Nat) (hn : n < MAXN) (val : Int) :
    ∀ (fuel idx : Nat) (bitZ bitM bitZ2 : Nat → Int), (∀ i, bitM i = wrapLong (bitZ i)) →
      update n fuel idx val bitZ = some bitZ2 →
      ∃ bitM2, updateM n fuel (idx : Int) val bitM = .returned bitM2 ∧
        ∀ i, bitM2 i = wrapLong (bitZ2 i) := by
  intro fuel
  induction fuel with
  | zero =>
    intro idx bitZ bitM bitZ2 hR h
    unfold update at h
    by_cases hle : idx ≤ n
    · rw [if_pos hle] at h; simp at h
    · rw [if_neg hle] at h
      have h2 := Option.some.inj h
      subst h2
      refine ⟨bitM, ?_, hR⟩
      unfold updateM
      rw [if_neg (by omega)]
  | succ k ih =>
    intro idx bitZ bitM bitZ2 hR h
    rw [update] at h
    by_cases hle : idx ≤ n
    · rw [if_pos hle] at h
      have hstep : (idx : Int) + Int.land (idx : Int) (-(idx : Int))
          = ((idx + lowbit idx : Nat) : Int) := by
        rw [land_neg_eq_lowbit]; push_cast; rfl
      obtain ⟨bitM2, hb, hR2⟩ := ih (idx + lowbit idx)
        (Function.update bitZ idx (bitZ idx + val))
        (Function.update bitM idx (wrapLong (bitM idx + val))) bitZ2 (by
          intro i
          by_cases hi : i = idx
          · subst hi
            rw [Function.update_same, Function.update_same, hR, wrapLong_add_left]
          · rw [Function.update_noteq hi, Function.update_noteq hi]
            exact hR i) h
      refine ⟨bitM2, ?_, hR2⟩
      rw [updateM, if_pos (by omega), if_pos ⟨by omega, by omega⟩]
      simp only [hstep, Int.toNat_ofNat]
      exact hb
    · rw [if_neg hle] at h
      have h2 := Option.some.inj h
      subst h2
      refine ⟨bitM, ?_, hR⟩
      rw [updateM, if_neg (by omega)]

/-- The loop of `query`: when every machine cell is the 64-bit wrap of the mathematical
cell and the index is within the capacity, the machine loop returns the 64-bit wrap of
the mathematical result. -/
theorem queryLoopM_sim (bitZ bitM : Nat → Int) (hR : ∀ i, bitM i = wrapLong (bitZ i)) :
    ∀ (fuel idx : Nat) (acc accM r : Int), idx < MAXN → accM = wrapLong acc →
      queryLoop bitZ fuel idx acc = some r →
      queryLoopM bitM fuel (idx : Int) accM = .returned (wrapLong r) := by
  intro fuel
  induction fuel with
  | zero =>
    intro idx acc accM r hidx hacc h
    unfold queryLoop at h
    by_cases h0 : 0 < idx
    · rw [if_pos h0] at h; simp at h
    · rw [if_neg h0] at h
      have h2 := Option.some.inj h
      subst h2
      unfold queryLoopM
      rw [if_neg (by omega), hacc]
  | succ k ih =>
    intro idx acc accM r hidx hacc h
    rw [queryLoop] at h
    by_cases h0 : 0 < idx
    · rw [if_pos h0] at h
      have hL := lowbit_pos_le idx h0
      have hstep : (idx : Int) - Int.land (idx : Int) (-(idx : Int))
          = ((idx - lowbit idx : Nat) : Int) := by
        rw [land_neg_eq_lowbit]; omega
      rw [queryLoopM, if_pos (by omega), if_pos (by omega)]
      simp only [hstep, Int.toNat_ofNat]
      exact ih (idx - lowbit idx) (acc + bitZ idx) _ r (by omega)
        (by rw [hacc, hR, wrapLong_add_left, wrapLong_add_right]) h
    · rw [if_neg h0] at h
      have h2 := Option.some.inj h
      subst h2
      rw [queryLoopM, if_neg (by omega), hacc]

/-- A sequence of `update` calls: the machine run returns whenever the mathematical run
does, and the cells stay related. -/
theorem updatesM_sim (n : Nat) (hn : n < MAXN) (fuel : Nat) :
    ∀ (ops : List (Nat × Int)) (bitZ bitM bitZ2 : Nat → Int),
      (∀ i, bitM i = wrapLong (bitZ i)) → updates n fuel ops bitZ = some bitZ2 →
      ∃ bitM2, updatesM n fuel ops bitM = .returned bitM2 ∧
        ∀ i, bitM2 i = wrapLong (bitZ2 i) := by
  intro ops
  induction ops with
  | nil =>
    intro bitZ bitM bitZ2 hR h
    have h2 : bitZ = bitZ2 := Option.some.inj h
    subst h2
    exact ⟨bitM, rfl, hR⟩
  | cons op ops ih =>
    intro bitZ bitM bitZ2 hR h
    unfold updates at h
    rw [List.foldlM_cons] at h
    cases h1 : update n fuel op.1 op.2 bitZ with
    | none => rw [h1] at h; simp at h
    | some bitZ1 =>
      rw [h1] at h
      obtain ⟨bitM1, hb1, hR1⟩ := updateM_sim n hn op.2 fuel op.1 bitZ bitM bitZ1 hR h1
      obtain ⟨bitM2, hb2, hR2⟩ := ih bitZ1 bitM1 bitZ2 hR1 h
      refine ⟨bitM2, ?_, hR2⟩
      rw [updatesM, hb1]
      exact hb2

/-! ## Machine width: the Fenwick tree -/

/-- The states reached from the all-zero array by in-range updates, at machine width next
to the mathematical integers: both runs return, the mathematical cells satisfy the cell
invariant, and every machine cell is the 64-bit wrap of the mathematical cell. -/
theorem machine_reached (n fuel : Nat) (ops : List (Nat × Int)) (hn : n < MAXN)
    (hops : ∀ op ∈ ops, 1 ≤ op.1 ∧ op.1 ≤ n) (hf : n ≤ fuel) :
    ∃ bitZ bitM, updatesM n fuel ops (fun _ => 0) = .returned bitM ∧
      FenInv n bitZ (slotValue ops) ∧ ∀ i, bitM i = wrapLong (bitZ i) := by
  obtain ⟨bitZ, hb, hinv⟩ := updates_inv fuel hf ops (fun _ => 0) (fun _ => 0)
    (FenInv.zero n) hops
  have hinv2 : FenInv n bitZ (slotValue ops) := hinv.of_eq_slots (by simp)
  obtain ⟨bitM, hbM, hR⟩ := updatesM_sim n hn fuel ops (fun _ => 0) (fun _ => 0) bitZ
    (fun _ => wrapLong_zero.symm) hb
  exact ⟨bitZ, bitM, hbM, hinv2, hR⟩

/-- The machine `query` on related cells returns the 64-bit wrap of the slot sum. -/
theorem queryM_inv {n : Nat} {bitZ bitM a : Nat → Int} (hn : n < MAXN)
    (h : FenInv n bitZ a) (hR : ∀ i, bitM i = wrapLong (bitZ i)) (fuel i : Nat)
    (hin : i ≤ n) (hf : i ≤ fuel) :
    queryM bitM fuel (i : Int) = .returned (wrapLong (∑ j ∈ Finset.Ioc 0 i, a j)) :=
  queryLoopM_sim bitZ bitM hR fuel i 0 0 _ (by omega) wrapLong_zero.symm
    (query_inv h fuel i hin hf)

theorem Ioc_zero_eq_Icc (i : Nat) : Finset.Ioc 0 i = Finset.Icc 1 i := by
  ext x
  simp only [Finset.mem_Ioc, Finset.mem_Icc]
  omega

/-- The machine `query_range` on related cells returns the 64-bit wrap of the difference
of the two slot sums. -/
theorem query_rangeM_inv {n : Nat} {bitZ bitM a : Nat → Int} (hn : n < MAXN)
    (h : FenInv n bitZ a) (hR : ∀ i, bitM i = wrapLong (bitZ i)) (fuel lo hi : Nat)
    (hlo : 1 ≤ lo) (hlon : lo ≤ n) (hin : hi ≤ n) (hf : n ≤ fuel) :
    query_rangeM bitM fuel (lo : Int) (hi : Int)
      = .returned (wrapLong (∑ j ∈ Finset.Ioc 0 hi, a j - ∑ j ∈ Finset.Ioc 0 (lo - 1), a j)) := by
  have hw : wrapInt ((lo : Int) - 1) = ((lo - 1 : Nat) : Int) := by
    rw [wrapInt_of_isInt]
    · omega
    · unfold IsInt
      unfold MAXN at hn
      omega
  rw [query_rangeM, queryM_inv hn h hR fuel hi hin (by omega), hw,
    queryM_inv hn h hR fuel (lo - 1) (by omega) (by omega)]
  simp only [Run.andThen, wrapLong_sub_wrap]

theorem sum_filter_replicate_le (k : Nat) (d : Int) :
    (((List.replicate k ((1 : Nat), d)).filter (fun op => op.1 ≤ 1)).map Prod.snd).sum
      = (k : Int) * d := by
  induction k with
  | zero => simp
  | succ k ih =>
    rw [List.replicate_succ, List.filter_cons_of_pos (by simp), List.map_cons, List.sum_cons,
      ih]
    push_cast
    ring

theorem slotValue_replicate (k : Nat) (d : Int) :
    slotValue (List.replicate k ((1 : Nat), d)) 1 = (k : Int) * d := by
  induction k with
  | zero => simp [slotValue]
  | succ k ih =>
    rw [List.replicate_succ, slotValue_cons, ih]
    push_cast
    ring

theorem bigOps_in_range : ∀ op ∈ bigOps, 1 ≤ op.1 ∧ op.1 ≤ 1 := by
  intro op hop
  have := List.eq_of_mem_replicate hop
  subst this
  exact ⟨le_refl 1, le_refl 1⟩

theorem bigOps_slot : slotValue bigOps 1 = 9223372039002259453 := by
  rw [bigOps, slotValue_replicate]
  decide

theorem bigOps_sum :
    ((bigOps.filter (fun op => op.1 ≤ 1)).map Prod.snd).sum = 9223372039002259453 := by
  rw [bigOps, sum_filter_replicate_le]
  decide

/-- The state after the calls `bigOps` on an array of size 1: cell 1, `query(1)` and
`query_range(1, 1)` all hold the wrapped value `-2^63 + 2^31 - 3`. -/
theorem bigOps_state :
    ∃ bit, updatesM 1 1 bigOps (fun _ => 0) = .returned bit ∧
      bit 1 = -9223372034707292163 ∧
      queryM bit 1 1 = .returned (-9223372034707292163) ∧
      query_rangeM bit 1 1 1 = .returned (-9223372034707292163) := by
  have hn : 1 < MAXN := by decide
  obtain ⟨bitZ, bitM, hb, hinv, hR⟩ := machine_reached 1 1 bigOps hn bigOps_in_range
    (le_refl 1)
  have hone : Finset.Ioc 0 1 = {1} := by decide
  have hcell : bitZ 1 = 9223372039002259453 := by
    rw [hinv 1 (le_refl 1) (le_refl 1)]
    have : lowbit 1 = 1 := lowbit_two_mul_add_one 0
    rw [this, Nat.sub_self, hone, Finset.sum_singleton, bigOps_slot]
  have hq := queryM_inv hn hinv hR 1 1 (le_refl 1) (le_refl 1)
  have hr := query_rangeM_inv hn hinv hR 1 1 1 (le_refl 1) (le_refl 1) (le_refl 1)
    (le_refl 1)
  rw [hone, Finset.sum_singleton, bigOps_slot] at hq
  rw [hone, Finset.sum_singleton, bigOps_slot] at hr
  have hw : wrapLong 9223372039002259453 = -9223372034707292163 := by decide
  refine ⟨bitM, hb, ?_, ?_, ?_⟩
  · rw [hR, hcell, hw]
  · rw [show ((1 : Nat) : Int) = 1 from rfl, hw] at hq
    exact hq
  · rw [show ((1 : Nat) : Int) = 1 from rfl] at hr
    rw [hr]
    simp only [Nat.sub_self, Finset.Ioc_self, Finset.sum_empty, sub_zero, hw]

theorem bigOps_well_formed : ∀ op ∈ bigOps, 1 ≤ op.1 ∧ op.1 ≤ 1 ∧ IsInt op.2 := by
  intro op hop
  have := List.eq_of_mem_replicate hop
  subst this
  exact ⟨le_refl 1, le_refl 1, by decide⟩

theorem sum_Ioc_sub (a : Nat → Int) (lo hi : Nat) (hlo : 1 ≤ lo) (hle : lo ≤ hi) :
    ∑ j ∈ Finset.Ioc 0 hi, a j - ∑ j ∈ Finset.Ioc 0 (lo - 1), a j
      = ∑ j ∈ Finset.Icc lo hi, a j := by
  rw [← Finset.sum_Ioc_consecutive a (Nat.zero_le (lo - 1)) (show lo - 1 ≤ hi by omega)]
  have : Finset.Ioc (lo - 1) hi = Finset.Icc lo hi := by
    ext x
    simp only [Finset.mem_Ioc, Finset.mem_Icc]
    omega
  rw [this]
  ring

theorem sum_Ioc_sub_reversed (a : Nat → Int) (lo hi : Nat) (hlt : hi < lo) :
    ∑ j ∈ Finset.Ioc 0 hi, a j - ∑ j ∈ Finset.Ioc 0 (lo - 1), a j
      = - ∑ j ∈ Finset.Icc (hi + 1) (lo - 1), a j := by
  rw [← Finset.sum_Ioc_consecutive a (Nat.zero_le hi) (show hi ≤ lo - 1 by omega)]
  have : Finset.Ioc hi (lo - 1) = Finset.Icc (hi + 1) (lo - 1) := by
    ext x
    simp only [Finset.mem_Ioc, Finset.mem_Icc]
    omega
  rw [this]
  ring

/-- C3, the claim as stated is false: after `2^32 + 3` calls `update(1, INT_MAX)` on the
all-zero array of size 1, the deltas sum to `2^63 + 2^31 - 3`, and `query(1)` returns the
value wrapped at 64 bits, `-2^63 + 2^31 - 3`. -/
theorem query_sum_claim_false :
    (∀ op ∈ bigOps, 1 ≤ op.1 ∧ op.1 ≤ 1 ∧ IsInt op.2) ∧
      ((bigOps.filter (fun op => op.1 ≤ 1)).map Prod.snd).sum = 9223372039002259453 ∧
      ∃ bit, updatesM 1 1 bigOps (fun _ => 0) = .returned bit ∧
        queryM bit 1 1 = .returned (-9223372034707292163) := by
  obtain ⟨bit, hb, _, hq, _⟩ := bigOps_state
  exact ⟨bigOps_well_formed, bigOps_sum, bit, hb, hq⟩

/-- C3, amended: starting from the all-zero array of size `n`, with `n` within the
capacity of `bit[MAXN]`, after any finite sequence of `update(i_k, d_k)` calls with
`1 <= i_k <= n`, `query(i)` for every `0 <= i <= n` returns the sum of all `d_k` with
`i_k <= i` (the sum of the logical slot values `1..i`) reduced modulo `2^64` into the
`long long` range; it is the sum itself whenever the sum fits in a `long long`, and
`query(0) = 0`. -/
theorem query_sum_wrapped (n fuel : Nat) (ops : List (Nat × Int)) (hn : n < MAXN)
    (hops : ∀ op ∈ ops, 1 ≤ op.1 ∧ op.1 ≤ n) (hf : n ≤ fuel) :
    ∃ bit, updatesM n fuel ops (fun _ => 0) = .returned bit ∧
      (∀ i : Nat, i ≤ n →
        queryM bit fuel (i : Int)
          = .returned (wrapLong (((ops.filter (fun op => op.1 ≤ i)).map Prod.snd).sum)) ∧
        ((ops.filter (fun op => op.1 ≤ i)).map Prod.snd).sum
          = ∑ j ∈ Finset.Icc 1 i, slotValue ops j ∧
        (IsLong (((ops.filter (fun op => op.1 ≤ i)).map Prod.snd).sum) →
          queryM bit fuel (i : Int)
            = .returned (((ops.filter (fun op => op.1 ≤ i)).map Prod.snd).sum))) ∧
      queryM bit fuel 0 = .returned 0 := by
  obtain ⟨bitZ, bit, hb, hinv, hR⟩ := machine_reached n fuel ops hn hops hf
  have hsum : ∀ i, ((ops.filter (fun op => op.1 ≤ i)).map Prod.snd).sum
      = ∑ j ∈ Finset.Icc 1 i, slotValue ops j := by
    intro i
    rw [sum_slotValue]
    congr 2
    apply List.filter_congr
    intro op hop
    have := (hops op hop).1
    simp only [decide_eq_decide]
    omega
  have hq : ∀ i : Nat, i ≤ n → queryM bit fuel (i : Int)
      = .returned (wrapLong (((ops.filter (fun op => op.1 ≤ i)).map Prod.snd).sum)) := by
    intro i hi
    rw [queryM_inv hn hinv hR fuel i hi (by omega), Ioc_zero_eq_Icc, hsum i]
  refine ⟨bit, hb, ?_, ?_⟩
  · intro i hi
    refine ⟨hq i hi, hsum i, ?_⟩
    intro hfit
    rw [hq i hi, wrapLong_of_isLong hfit]
  · have := queryM_inv hn hinv hR fuel 0 (Nat.zero_le n) (Nat.zero_le fuel)
    simpa [wrapLong_zero] using this

/-- The wrapped-sum theorem at three updates on an array of size 4. -/
theorem query_sum_wrapped_witness :
    4 < MAXN ∧ (∀ op ∈ [((1 : Nat), (10 : Int)), (3, 5), (1, -4)], 1 ≤ op.1 ∧ op.1 ≤ 4) ∧
      4 ≤ 4 ∧
      ∃ bit, updatesM 4 4 [((1 : Nat), (10 : Int)), (3, 5), (1, -4)] (fun _ => 0)
          = .returned bit ∧
        (∀ i : Nat, i ≤ 4 →
          queryM bit 4 (i : Int)
            = .returned (wrapLong ((([((1 : Nat), (10 : Int)), (3, 5), (1, -4)].filter
                (fun op => op.1 ≤ i)).map Prod.snd).sum)) ∧
          (([((1 : Nat), (10 : Int)), (3, 5), (1, -4)].filter
              (fun op => op.1 ≤ i)).map Prod.snd).sum
            = ∑ j ∈ Finset.Icc 1 i, slotValue [((1 : Nat), (10 : Int)), (3, 5), (1, -4)] j ∧
          (IsLong ((([((1 : Nat), (10 : Int)), (3, 5), (1, -4)].filter
              (fun op => op.1 ≤ i)).map Prod.snd).sum) →
            queryM bit 4 (i : Int)
              = .returned ((([((1 : Nat), (10 : Int)), (3, 5), (1, -4)].filter
                  (fun op => op.1 ≤ i)).map Prod.snd).sum))) ∧
        queryM bit 4 0 = .returned 0 :=
  ⟨by decide, by decide, by decide,
    query_sum_wrapped 4 4 [(1, 10), (3, 5), (1, -4)] (by decide) (by decide) (by decide)⟩

/-- C7, the claim as stated is false: after `2^32 + 3` calls `update(1, INT_MAX)` on the
all-zero array of size 1, slot 1 holds `2^63 + 2^31 - 3`, and `query_range(1, 1)` returns
the value wrapped at 64 bits, `-2^63 + 2^31 - 3`. -/
theorem query_range_claim_false :
    (∀ op ∈ bigOps, 1 ≤ op.1 ∧ op.1 ≤ 1 ∧ IsInt op.2) ∧
      slotValue bigOps 1 = 9223372039002259453 ∧
      ∃ bit, updatesM 1 1 bigOps (fun _ => 0) = .returned bit ∧
        query_rangeM bit 1 1 1 = .returned (-9223372034707292163) := by
  obtain ⟨bit, hb, _, _, hr⟩ := bigOps_state
  exact ⟨bigOps_well_formed, bigOps_slot, bit, hb, hr⟩

/-- C7, amended: `query_range(lo, hi)` is `query(hi) - query(lo - 1)` computed in
`long long`, and for every state reached from the all-zero array of size `n` (within the
capacity of `bit[MAXN]`) by in-range updates and every `1 <= lo <= hi <= n` it equals the
sum of the logical slot values `lo..hi` reduced modulo `2^64` into the `long long` range,
hence the sum itself whenever that fits in a `long long`; for `lo = hi` it is the single
slot value, reduced the same way. -/
theorem query_range_wrapped (n fuel : Nat) (ops : List (Nat × Int)) (hn : n < MAXN)
    (hops : ∀ op ∈ ops, 1 ≤ op.1 ∧ op.1 ≤ n) (hf : n ≤ fuel) :
    ∃ bit, updatesM n fuel ops (fun _ => 0) = .returned bit ∧
      ∀ lo hi : Nat, 1 ≤ lo → lo ≤ hi → hi ≤ n →
        ∃ a b, queryM bit fuel (hi : Int) = .returned a ∧
          queryM bit fuel ((lo : Int) - 1) = .returned b ∧
          query_rangeM bit fuel (lo : Int) (hi : Int) = .returned (wrapLong (a - b)) ∧
          wrapLong (a - b) = wrapLong (∑ j ∈ Finset.Icc lo hi, slotValue ops j) ∧
          (IsLong (∑ j ∈ Finset.Icc lo hi, slotValue ops j) →
            query_rangeM bit fuel (lo : Int) (hi : Int)
              = .returned (∑ j ∈ Finset.Icc lo hi, slotValue ops j)) ∧
          (lo = hi → query_rangeM bit fuel (lo : Int) (hi : Int)
            = .returned (wrapLong (slotValue ops lo))) := by
  obtain ⟨bitZ, bit, hb, hinv, hR⟩ := machine_reached n fuel ops hn hops hf
  refine ⟨bit, hb, ?_⟩
  intro lo hi h1 h2 h3
  have hq1 := queryM_inv hn hinv hR fuel hi h3 (by omega)
  have hq2 := queryM_inv hn hinv hR fuel (lo - 1) (by omega) (by omega)
  have hcast : ((lo - 1 : Nat) : Int) = (lo : Int) - 1 := by omega
  rw [hcast] at hq2
  have hr := query_rangeM_inv hn hinv hR fuel lo hi h1 (by omega) h3 hf
  rw [sum_Ioc_sub _ lo hi h1 h2] at hr
  have hw : wrapLong (wrapLong (∑ j ∈ Finset.Ioc 0 hi, slotValue ops j)
      - wrapLong (∑ j ∈ Finset.Ioc 0 (lo - 1), slotValue ops j))
      = wrapLong (∑ j ∈ Finset.Icc lo hi, slotValue ops j) := by
    rw [wrapLong_sub_wrap, sum_Ioc_sub _ lo hi h1 h2]
  refine ⟨_, _, hq1, hq2, ?_, hw, ?_, ?_⟩
  · rw [hr, hw]
  · intro hfit
    rw [hr, wrapLong_of_isLong hfit]
  · intro heq
    subst heq
    rw [hr]
    simp

/-- The wrapped range-sum theorem at two updates on an array of size 3. -/
theorem query_range_wrapped_witness :
    3 < MAXN ∧ (∀ op ∈ [((2 : Nat), (7 : Int)), (3, 5)], 1 ≤ op.1 ∧ op.1 ≤ 3) ∧ 3 ≤ 3 ∧
      ∃ bit, updatesM 3 3 [((2 : Nat), (7 : Int)), (3, 5)] (fun _ => 0) = .returned bit ∧
        ∀ lo hi : Nat, 1 ≤ lo → lo ≤ hi → hi ≤ 3 →
          ∃ a b, queryM bit 3 (hi : Int) = .returned a ∧
            queryM bit 3 ((lo : Int) - 1) = .returned b ∧
            query_rangeM bit 3 (lo : Int) (hi : Int) = .returned (wrapLong (a - b)) ∧
            wrapLong (a - b)
              = wrapLong (∑ j ∈ Finset.Icc lo hi, slotValue [((2 : Nat), (7 : Int)), (3, 5)] j) ∧
            (IsLong (∑ j ∈ Finset.Icc lo hi, slotValue [((2 : Nat), (7 : Int)), (3, 5)] j) →
              query_rangeM bit 3 (lo : Int) (hi : Int)
                = .returned (∑ j ∈ Finset.Icc lo hi,
                    slotValue [((2 : Nat), (7 : Int)), (3, 5)] j)) ∧
            (lo = hi → query_rangeM bit 3 (lo : Int) (hi : Int)
              = .returned (wrapLong (slotValue [((2 : Nat), (7 : Int)), (3, 5)] lo))) :=
  ⟨by decide, by decide, by decide,
    query_range_wrapped 3 3 [(2, 7), (3, 5)] (by decide) (by decide) (by decide)⟩

/-- C18, the claim as stated is false: after `2^32 + 3` calls `update(1, INT_MAX)` on the
all-zero array of size 1, the logical slot 1 (the only slot that cell 1 covers, since
`lowbit 1 = 1`) holds `2^63 + 2^31 - 3`, but the cell `bit[1]` holds the value wrapped at
64 bits. -/
theorem cell_invariant_claim_false :
    (∀ op ∈ bigOps, 1 ≤ op.1 ∧ op.1 ≤ 1 ∧ IsInt op.2) ∧
      ∑ j ∈ Finset.Ioc (1 - lowbit 1) 1, slotValue bigOps j = 9223372039002259453 ∧
      ∃ bit, updatesM 1 1 bigOps (fun _ => 0) = .returned bit ∧
        bit 1 = -9223372034707292163 := by
  obtain ⟨bit, hb, hc, _, _⟩ := bigOps_state
  refine ⟨bigOps_well_formed, ?_, bit, hb, hc⟩
  have h1 : lowbit 1 = 1 := lowbit_two_mul_add_one 0
  have hone : Finset.Ioc 0 1 = {1} := by decide
  rw [h1, Nat.sub_self, hone, Finset.sum_singleton, bigOps_slot]

/-- C18, amended: starting from the all-zero array of size `n` (within the capacity of
`bit[MAXN]`), after any finite sequence of `update` calls with indices in `[1, n]`, every
cell `i` in `[1, n]` holds the sum of the logical slot values at the positions `j` with
`i - lowbit(i) < j <= i`, reduced modulo `2^64` into the `long long` range (the sum itself
when it fits); a further `update(idx, val)` keeps this true while adding `val` to the
logical slot `idx` only. -/
theorem cell_invariant_wrapped (n fuel : Nat) (ops : List (Nat × Int)) (hn : n < MAXN)
    (hops : ∀ op ∈ ops, 1 ≤ op.1 ∧ op.1 ≤ n) (hf : n ≤ fuel) :
    ∃ bit, updatesM n fuel ops (fun _ => 0) = .returned bit ∧
      (∀ i, 1 ≤ i → i ≤ n →
        bit i = wrapLong (∑ j ∈ Finset.Ioc (i - lowbit i) i, slotValue ops j) ∧
        (IsLong (∑ j ∈ Finset.Ioc (i - lowbit i) i, slotValue ops j) →
          bit i = ∑ j ∈ Finset.Ioc (i - lowbit i) i, slotValue ops j)) ∧
      ∀ (idx : Nat) (val : Int), 1 ≤ idx → idx ≤ n →
        ∃ bit2, updateM n fuel (idx : Int) val bit = .returned bit2 ∧
          (∀ i, 1 ≤ i → i ≤ n →
            bit2 i = wrapLong (∑ j ∈ Finset.Ioc (i - lowbit i) i,
              slotValue (ops ++ [(idx, val)]) j)) ∧
          ∀ j, slotValue (ops ++ [(idx, val)]) j
            = slotValue ops j + if j = idx then val else 0 := by
  obtain ⟨bitZ, bit, hb, hinv, hR⟩ := machine_reached n fuel ops hn hops hf
  refine ⟨bit, hb, ?_, ?_⟩
  · intro i h1 h2
    have hcell : bit i = wrapLong (∑ j ∈ Finset.Ioc (i - lowbit i) i, slotValue ops j) := by
      rw [hR i, hinv i h1 h2]
    exact ⟨hcell, fun hfit => by rw [hcell, wrapLong_of_isLong hfit]⟩
  · intro idx val h1 h2
    obtain ⟨bitZ2, hbZ2, hinv3⟩ := update_inv hinv fuel idx val h1 h2 hf
    obtain ⟨bit2, hb2, hR2⟩ := updateM_sim n hn val fuel idx bitZ bit bitZ2 hR hbZ2
    have hinv4 : FenInv n bitZ2 (slotValue (ops ++ [(idx, val)])) := by
      refine hinv3.of_eq_slots ?_
      intro j
      rw [slotValue_append_single]
      by_cases hj : j = idx
      · subst hj
        rw [Function.update_same, if_pos rfl]
      · rw [Function.update_noteq hj, if_neg hj]
        ring
    refine ⟨bit2, hb2, ?_, slotValue_append_single ops idx val⟩
    intro i hi1 hi2
    rw [hR2 i, hinv4 i hi1 hi2]

/-- The wrapped cell invariant at two updates on an array of size 6. -/
theorem cell_invariant_wrapped_witness :
    6 < MAXN ∧ (∀ op ∈ [((2 : Nat), (5 : Int)), (6, 1)], 1 ≤ op.1 ∧ op.1 ≤ 6) ∧ 6 ≤ 6 ∧
      ∃ bit, updatesM 6 6 [((2 : Nat), (5 : Int)), (6, 1)] (fun _ => 0) = .returned bit ∧
        (∀ i, 1 ≤ i → i ≤ 6 →
          bit i = wrapLong (∑ j ∈ Finset.Ioc (i - lowbit i) i,
            slotValue [((2 : Nat), (5 : Int)), (6, 1)] j) ∧
          (IsLong (∑ j ∈ Finset.Ioc (i - lowbit i) i,
              slotValue [((2 : Nat), (5 : Int)), (6, 1)] j) →
            bit i = ∑ j ∈ Finset.Ioc (i - lowbit i) i,
              slotValue [((2 : Nat), (5 : Int)), (6, 1)] j)) ∧
        ∀ (idx : Nat) (val : Int), 1 ≤ idx → idx ≤ 6 →
          ∃ bit2, updateM 6 6 (idx : Int) val bit = .returned bit2 ∧
            (∀ i, 1 ≤ i → i ≤ 6 →
              bit2 i = wrapLong (∑ j ∈ Finset.Ioc (i - lowbit i) i,
                slotValue ([((2 : Nat), (5 : Int)), (6, 1)] ++ [(idx, val)]) j)) ∧
            ∀ j, slotValue ([((2 : Nat), (5 : Int)), (6, 1)] ++ [(idx, val)]) j
              = slotValue [((2 : Nat), (5 : Int)), (6, 1)] j + if j = idx then val else 0 :=
  ⟨by decide, by decide, by decide,
    cell_invariant_wrapped 6 6 [(2, 5), (6, 1)] (by decide) (by decide) (by decide)⟩

/-- C11, the claim as stated is false: after `update(2, 5)` on the all-zero array of size
3, `query_range(3, 1)` returns `query(1) - query(2) = -5`, not 0. -/
theorem empty_range_claim_false :
    ∃ bit, updatesM 3 3 [((2 : Nat), (5 : Int))] (fun _ => 0) = .returned bit ∧
      query_rangeM bit 3 3 1 = .returned (-5) := by
  obtain ⟨bitZ, bit, hb, hinv, hR⟩ := machine_reached 3 3 [((2 : Nat), (5 : Int))]
    (by decide) (by decide) (le_refl 3)
  refine ⟨bit, hb, ?_⟩
  have hr := query_rangeM_inv (by decide : 3 < MAXN) hinv hR 3 3 1 (by decide) (by decide)
    (by decide) (le_refl 3)
  rw [sum_Ioc_sub_reversed _ 3 1 (by decide)] at hr
  have hv : ∑ j ∈ Finset.Icc (1 + 1) (3 - 1), slotValue [((2 : Nat), (5 : Int))] j = 5 := by
    simp [slotValue]
  rw [hv] at hr
  have hw : wrapLong (-5) = -5 := by decide
  rw [hw] at hr
  exact hr

/-- C11, amended: in every state reached from the all-zero array of size `n` (within the
capacity of `bit[MAXN]`) by in-range updates, for `1 <= hi < lo <= n`,
`query_range(lo, hi)` returns `query(hi) - query(lo - 1)`, which is minus the sum of the
logical slot values `hi+1 .. lo-1`, reduced modulo `2^64` into the `long long` range (the
exact value when it fits); it is 0 when `lo = hi + 1`. -/
theorem empty_range_value (n fuel : Nat) (ops : List (Nat × Int)) (hn : n < MAXN)
    (hops : ∀ op ∈ ops, 1 ≤ op.1 ∧ op.1 ≤ n) (hf : n ≤ fuel) :
    ∃ bit, updatesM n fuel ops (fun _ => 0) = .returned bit ∧
      ∀ lo hi : Nat, 1 ≤ hi → hi < lo → lo ≤ n →
        query_rangeM bit fuel (lo : Int) (hi : Int)
          = .returned (wrapLong (- ∑ j ∈ Finset.Icc (hi + 1) (lo - 1), slotValue ops j)) ∧
        (IsLong (- ∑ j ∈ Finset.Icc (hi + 1) (lo - 1), slotValue ops j) →
          query_rangeM bit fuel (lo : Int) (hi : Int)
            = .returned (- ∑ j ∈ Finset.Icc (hi + 1) (lo - 1), slotValue ops j)) ∧
        (lo = hi + 1 → query_rangeM bit fuel (lo : Int) (hi : Int) = .returned 0) := by
  obtain ⟨bitZ, bit, hb, hinv, hR⟩ := machine_reached n fuel ops hn hops hf
  refine ⟨bit, hb, ?_⟩
  intro lo hi h1 hlt hlo
  have hr := query_rangeM_inv hn hinv hR fuel lo hi (by omega) hlo (by omega) hf
  rw [sum_Ioc_sub_reversed _ lo hi hlt] at hr
  refine ⟨hr, ?_, ?_⟩
  · intro hfit
    rw [hr, wrapLong_of_isLong hfit]
  · intro heq
    subst heq
    rw [hr]
    simp [wrapLong_zero]

/-- The reversed-range theorem at two updates on an array of size 4. -/
theorem empty_range_value_witness :
    4 < MAXN ∧ (∀ op ∈ [((2 : Nat), (5 : Int)), (3, 1)], 1 ≤ op.1 ∧ op.1 ≤ 4) ∧ 4 ≤ 4 ∧
      ∃ bit, updatesM 4 4 [((2 : Nat), (5 : Int)), (3, 1)] (fun _ => 0) = .returned bit ∧
        ∀ lo hi : Nat, 1 ≤ hi → hi < lo → lo ≤ 4 →
          query_rangeM bit 4 (lo : Int) (hi : Int)
            = .returned (wrapLong (- ∑ j ∈ Finset.Icc (hi + 1) (lo - 1),
                slotValue [((2 : Nat), (5 : Int)), (3, 1)] j)) ∧
          (IsLong (- ∑ j ∈ Finset.Icc (hi + 1) (lo - 1),
              slotValue [((2 : Nat), (5 : Int)), (3, 1)] j) →
            query_rangeM bit 4 (lo : Int) (hi : Int)
              = .returned (- ∑ j ∈ Finset.Icc (hi + 1) (lo - 1),
                  slotValue [((2 : Nat), (5 : Int)), (3, 1)] j)) ∧
          (lo = hi + 1 → query_rangeM bit 4 (lo : Int) (hi : Int) = .returned 0) :=
  ⟨by decide, by decide, by decide,
    empty_range_value 4 4 [(2, 5), (3, 1)] (by decide) (by decide) (by decide)⟩

/-! ## Machine width: indices outside `1..n` -/

/-- With the index past `n` the loop of `update` does not run. -/
theorem updateM_past_n (n fuel : Nat) (idx val : Int) (bit : Nat → Int) (h : (n : Int) < idx) :
    updateM n fuel idx val bit = .returned bit := by
  unfold updateM
  rw [if_neg (by omega)]

/-- With index 0 the loop of `update` never exits: `0 & -0 = 0` keeps the index at 0. -/
theorem updateM_zero (n : Nat) (val : Int) :
    ∀ (fuel : Nat) (bit : Nat → Int), updateM n fuel 0 val bit = .outOfFuel := by
  intro fuel
  induction fuel with
  | zero =>
    intro bit
    unfold updateM
    rw [if_pos (by omega), if_pos ⟨le_refl 0, by decide⟩]
  | succ k ih =>
    intro bit
    rw [updateM, if_pos (by omega), if_pos ⟨le_refl 0, by decide⟩]
    have h0 : (0 : Int) + Int.land 0 (-0) = 0 := by decide
    simp only [h0]
    exact ih _

/-- With a negative index the first iteration of `update` stores outside `bit`. -/
theorem updateM_negative (n fuel : Nat) (idx val : Int) (bit : Nat → Int) (h : idx < 0) :
    updateM n fuel idx val bit = .outOfBounds := by
  unfold updateM
  rw [if_pos (by omega), if_neg (by omega)]

/-- Inside the capacity the loop of `query` returns, within `idx` iterations. -/
theorem queryLoopM_returns (bit : Nat → Int) : ∀ (fuel idx : Nat) (acc : Int), idx ≤ fuel →
    idx < MAXN → ∃ r, queryLoopM bit fuel (idx : Int) acc = .returned r := by
  intro fuel
  induction fuel with
  | zero =>
    intro idx acc h _
    have : idx = 0 := by omega
    subst this
    exact ⟨acc, by unfold queryLoopM; rw [if_neg (by decide)]⟩
  | succ k ih =>
    intro idx acc h hcap
    by_cases h0 : 0 < idx
    · have hL := lowbit_pos_le idx h0
      have hstep : (idx : Int) - Int.land (idx : Int) (-(idx : Int))
          = ((idx - lowbit idx : Nat) : Int) := by
        rw [land_neg_eq_lowbit]; omega
      obtain ⟨r, hr⟩ := ih (idx - lowbit idx) (wrapLong (acc + bit idx)) (by omega) (by omega)
      refine ⟨r, ?_⟩
      rw [queryLoopM, if_pos (by omega), if_pos (by omega)]
      simp only [hstep, Int.toNat_ofNat]
      exact hr
    · exact ⟨acc, by rw [queryLoopM, if_neg (by omega)]⟩

/-- Past the capacity the first iteration of `query` reads outside `bit`. -/
theorem queryM_past_capacity (bit : Nat → Int) (fuel : Nat) (idx : Int)
    (h : (MAXN : Int) ≤ idx) : queryM bit fuel idx = .outOfBounds := by
  unfold queryM queryLoopM
  have : (0 : Int) < idx := by unfold MAXN at h; omega
  rw [if_pos this, if_neg (by omega)]

/-- C12, the claim as stated is false: on an array of size 3, `update(4, 7)` returns
normally without running its loop and `query(4)` returns the number 0; neither reports an
error.  Below the range, `update(0, 7)` does not return at all and `update(-1, 7)` stores
to `bit[-1]`, outside the array. -/
theorem out_of_range_claim_false :
    updateM 3 0 4 7 (fun _ => 0) = .returned (fun _ => 0) ∧
      queryM (fun _ => 0) 4 4 = .returned 0 ∧
      (∀ fuel, updateM 3 fuel 0 7 (fun _ => 0) = .outOfFuel) ∧
      ∀ fuel, updateM 3 fuel (-1) 7 (fun _ => 0) = .outOfBounds := by
  refine ⟨updateM_past_n 3 0 4 7 _ (by decide), ?_,
    fun fuel => updateM_zero 3 7 fuel _,
    fun fuel => updateM_negative 3 fuel (-1) 7 _ (by decide)⟩
  have := queryM_inv (by decide : 4 < MAXN) (FenInv.zero 4) (fun _ => wrapLong_zero.symm) 4 4
    (le_refl 4) (le_refl 4)
  simpa [wrapLong_zero] using this

/-- C12, amended: the code has no range check and no error path.  For every index
`idx > n`, `update(idx, val)` returns normally after zero iterations and leaves the array
unchanged; `query(idx)` returns a number when `idx < MAXN`, and reads `bit[idx]` outside
the array when `idx >= MAXN`.  Below the range, `update(0, val)` never returns, and
`update(idx, val)` with `idx < 0` stores to `bit[idx]` outside the array on its first
iteration. -/
theorem out_of_range_behaviour (n : Nat) (idx val : Int) (bit : Nat → Int)
    (h : (n : Int) < idx) :
    (∀ fuel, updateM n fuel idx val bit = .returned bit) ∧
      (idx < (MAXN : Int) → ∀ fuel, idx.toNat ≤ fuel →
        ∃ r, queryM bit fuel idx = .returned r) ∧
      ((MAXN : Int) ≤ idx → ∀ fuel, queryM bit fuel idx = .outOfBounds) ∧
      (∀ fuel, updateM n fuel 0 val bit = .outOfFuel) ∧
      ∀ neg : Int, neg < 0 → ∀ fuel, updateM n fuel neg val bit = .outOfBounds := by
  refine ⟨fun fuel => updateM_past_n n fuel idx val bit h, ?_,
    fun hcap fuel => queryM_past_capacity bit fuel idx hcap,
    fun fuel => updateM_zero n val fuel bit,
    fun neg hneg fuel => updateM_negative n fuel neg val bit hneg⟩
  intro hcap fuel hf
  have hidx : idx = ((idx.toNat : Nat) : Int) := by omega
  have := queryLoopM_returns bit fuel idx.toNat 0 hf (by omega)
  rw [← hidx] at this
  exact this

/-- The out-of-range behaviour at index 9 on the array of size 5 of the demo. -/
theorem out_of_range_behaviour_witness :
    ((5 : Nat) : Int) < 9 ∧
      (∀ fuel, updateM 5 fuel 9 3 (fun _ => 0) = .returned (fun _ => 0)) ∧
      ((9 : Int) < (MAXN : Int) → ∀ fuel, (9 : Int).toNat ≤ fuel →
        ∃ r, queryM (fun _ => 0) fuel 9 = .returned r) ∧
      ((MAXN : Int) ≤ 9 → ∀ fuel, queryM (fun _ => 0) fuel 9 = .outOfBounds) ∧
      (∀ fuel, updateM 5 fuel 0 3 (fun _ => 0) = .outOfFuel) ∧
      ∀ neg : Int, neg < 0 → ∀ fuel, updateM 5 fuel neg 3 (fun _ => 0) = .outOfBounds :=
  ⟨by decide, out_of_range_behaviour 5 9 3 (fun _ => 0) (by decide)⟩

/-! ## Machine width: the tour -/

theorem FenInvM.initial (n : Nat) : FenInvM n (fun _ => 0) (fun _ => 0) :=
  ⟨fun _ => 0, FenInv.zero n, fun _ => wrapLong_zero.symm⟩

theorem FenInvM.of_same_slots {n : Nat} {bit a a2 : Nat → Int} (h : FenInvM n bit a)
    (heq : ∀ j, a2 j = a j) : FenInvM n bit a2 := by
  obtain ⟨bitZ, hinv, hR⟩ := h
  exact ⟨bitZ, hinv.of_eq_slots heq, hR⟩

/-- One in-range `update` at machine width returns and adds its delta to the logical slot
`idx`. -/
theorem updateM_inv {n : Nat} {bit a : Nat → Int} (hn : n < MAXN) (h : FenInvM n bit a)
    (fuel idx : Nat) (val : Int) (h0 : 0 < idx) (hle : idx ≤ n) (hf : n ≤ fuel) :
    ∃ bit2, updateM n fuel (idx : Int) val bit = .returned bit2 ∧
      FenInvM n bit2 (Function.update a idx (a idx + val)) := by
  obtain ⟨bitZ, hinv, hR⟩ := h
  obtain ⟨bitZ2, hbZ, hinv2⟩ := update_inv hinv fuel idx val h0 hle hf
  obtain ⟨bit2, hb, hR2⟩ := updateM_sim n hn val fuel idx bitZ bit bitZ2 hR hbZ
  exact ⟨bit2, hb, bitZ2, hinv2, hR2⟩

/-- The range query at machine width returns the 64-bit wrap of the slot sum. -/
theorem query_rangeM_slots {n : Nat} {bit a : Nat → Int} (hn : n < MAXN)
    (h : FenInvM n bit a) (fuel lo hi : Nat) (hlo : 1 ≤ lo) (hle : lo ≤ hi) (hin : hi ≤ n)
    (hf : n ≤ fuel) :
    query_rangeM bit fuel (lo : Int) (hi : Int)
      = .returned (wrapLong (∑ j ∈ Finset.Icc lo hi, a j)) := by
  obtain ⟨bitZ, hinv, hR⟩ := h
  rw [query_rangeM_inv hn hinv hR fuel lo hi hlo (by omega) hin hf, sum_Ioc_sub a lo hi hlo hle]

theorem slotValue_append (l1 l2 : List (Nat × Int)) (j : Nat) :
    slotValue (l1 ++ l2) j = slotValue l1 j + slotValue l2 j := by
  induction l1 with
  | nil => simp [slotValue_nil]
  | cons op l1 ih =>
    rw [List.cons_append, slotValue_cons, slotValue_cons, ih]
    ring

/-- The initialisation loop over a list of nodes, at machine width. -/
theorem initFromM_inv {n : Nat} (hn : n < MAXN) (fuel : Nat) (hf : n ≤ fuel)
    (tin : Nat → Nat) (values : Nat → Int) :
    ∀ (L : List Nat) (bit a : Nat → Int), FenInvM n bit a →
      (∀ i ∈ L, 1 ≤ tin i ∧ tin i ≤ n) →
      ∃ bit2, initFromM n fuel tin values L bit = .returned bit2 ∧
        FenInvM n bit2 (fun j => a j + slotValue (nodeOps L tin values) j) := by
  intro L
  induction L with
  | nil =>
    intro bit a h _
    exact ⟨bit, rfl, h.of_same_slots (by simp [nodeOps, slotValue_nil])⟩
  | cons x L ih =>
    intro bit a h hL
    have hx := hL x (List.mem_cons_self _ _)
    obtain ⟨bit1, hb1, h1⟩ := updateM_inv hn h fuel (tin x) (values x) hx.1 hx.2 hf
    obtain ⟨bit2, hb2, h2⟩ := ih bit1 _ h1 (fun i hi => hL i (List.mem_cons_of_mem _ hi))
    refine ⟨bit2, ?_, h2.of_same_slots ?_⟩
    · rw [initFromM, hb1]
      exact hb2
    · intro j
      rw [slotValue_nodeOps_cons]
      by_cases hj : tin x = j
      · subst hj
        rw [Function.update_same, if_pos rfl]
        ring
      · rw [Function.update_noteq (Ne.symm hj), if_neg hj]
        ring

theorem diffOps_cons (tin : Nat → Nat) (values : Nat → Int) (up : Nat × Int)
    (ups : List (Nat × Int)) :
    diffOps tin values (up :: ups)
      = (tin up.1, wrapInt (up.2 - values up.1))
        :: diffOps tin (Function.update values up.1 up.2) ups := rfl

/-- A sequence of node updates at machine width returns, stores the new values, and adds
the 32-bit differences to the logical slots. -/
theorem updateNodesM_inv {n : Nat} (hn : n < MAXN) (fuel : Nat) (hf : n ≤ fuel)
    (tin : Nat → Nat) :
    ∀ (ups : List (Nat × Int)) (st : AggState) (a : Nat → Int), FenInvM n st.bit a →
      (∀ up ∈ ups, 1 ≤ tin up.1 ∧ tin up.1 ≤ n) →
      ∃ st2, updateNodesM n fuel tin ups st = .returned st2 ∧
        st2.values = finalValues st.values ups ∧
        FenInvM n st2.bit (fun j => a j + slotValue (diffOps tin st.values ups) j) := by
  intro ups
  induction ups with
  | nil =>
    intro st a h _
    exact ⟨st, rfl, rfl, h.of_same_slots (by simp [diffOps, slotValue_nil])⟩
  | cons up ups ih =>
    intro st a h hups
    have hup := hups up (List.mem_cons_self _ _)
    obtain ⟨bit1, hb1, h1⟩ := updateM_inv hn h fuel (tin up.1)
      (wrapInt (up.2 - st.values up.1)) hup.1 hup.2 hf
    obtain ⟨st2, hb2, hv2, h2⟩ := ih ⟨bit1, Function.update st.values up.1 up.2⟩ _ h1
      (fun o ho => hups o (List.mem_cons_of_mem _ ho))
    refine ⟨st2, ?_, ?_, h2.of_same_slots ?_⟩
    · rw [updateNodesM, updateNodeM, hb1]
      exact hb2
    · rw [hv2]; rfl
    · intro j
      rw [diffOps_cons, slotValue_cons]
      by_cases hj : tin up.1 = j
      · subst hj
        rw [Function.update_same]
        simp only [if_pos]
        ring
      · rw [Function.update_noteq (Ne.symm hj)]
        simp only [if_neg hj]
        ring

/-- After the traversal, the initialisation loop and any sequence of node updates, all at
machine width and within the capacity, the cells of `bit` are the 64-bit wraps of the
Fenwick cells over the logical slots `tourSlots`. -/
theorem tour_machine {N : Nat} {adj : Nat → List Nat} {t : RTree} (h : IsTreeOn N adj t)
    (hN : N < MAXN) (values : Nat → Int) (fuel : Nat) (hf : N ≤ fuel)
    (ups : List (Nat × Int)) (hups : ∀ up ∈ ups, up.1 ∈ t.nodes) :
    ∃ s bit st, dfs adj fuel t.label 0 TourState.init = some s ∧
      initLoopM N fuel s.tin values (fun _ => 0) = .returned bit ∧
      updateNodesM N fuel s.tin ups ⟨bit, values⟩ = .returned st ∧
      st.values = finalValues values ups ∧
      Stamped t.nodes t.subtrees TourState.init s ∧
      FenInvM N st.bit (tourSlots N s.tin values ups) := by
  obtain ⟨s, hs, hst, htin⟩ := tour_ready h fuel hf
  obtain ⟨bit, hb, hinv⟩ := initFromM_inv hN fuel hf s.tin values (List.range' 1 N)
    (fun _ => 0) (fun _ => 0) (FenInvM.initial N) (by
      intro i hi
      rw [List.mem_range'_1] at hi
      exact htin i hi.1 (by omega))
  obtain ⟨st, hu, hv, hinv2⟩ := updateNodesM_inv hN fuel hf s.tin ups ⟨bit, values⟩ _ hinv
    (by
      intro up hup
      have := (h.mem_nodes _).1 (hups up hup)
      exact htin up.1 this.1 this.2)
  refine ⟨s, bit, st, hs, hb, hu, hv, hst, hinv2.of_same_slots ?_⟩
  intro j
  simp [tourSlots]

/-- The range query over the interval of a node, at machine width. -/
theorem tour_queryM {N : Nat} {adj : Nat → List Nat} {t : RTree} (h : IsTreeOn N adj t)
    (hN : N < MAXN) {s : TourState} (hs : Stamped t.nodes t.subtrees TourState.init s)
    {bit a : Nat → Int} (hinv : FenInvM N bit a) (fuel : Nat) (hf : N ≤ fuel) (u : Nat)
    (hu : u ∈ t.nodes) :
    query_rangeM bit fuel (s.tin u : Int) (s.tout u : Int)
      = .returned (wrapLong (∑ j ∈ Finset.Icc (s.tin u) (s.tout u), a j)) := by
  have hb := hs.tin_bounds u hu
  rw [h.length] at hb
  exact query_rangeM_slots hN hinv fuel (s.tin u) (s.tout u) hb.1 hb.2.1 hb.2.2 hf

/-- The slot sum over the interval of a node is the sum of the values in its subtree. -/
theorem interval_sum_eq_subtreeSum {N : Nat} {adj : Nat → List Nat} {t : RTree}
    (h : IsTreeOn N adj t) {s : TourState}
    (hs : Stamped t.nodes t.subtrees TourState.init s) (values : Nat → Int) (u : Nat)
    (hu : u ∈ t.nodes) :
    ∑ j ∈ Finset.Icc (s.tin u) (s.tout u),
        slotValue (nodeOps (List.range' 1 N) s.tin values) j
      = subtreeSum t values u := by
  rw [sum_slotValue_nodeOps, subtreeSum]
  have hperm := ((h.1.filter (fun d => s.tin u ≤ s.tin d ∧ s.tin d ≤ s.tout u)).map
    values).sum_eq
  rw [← hperm]
  congr 2
  apply List.filter_congr
  intro d hd
  have := hs.interval h.nodup u d hu hd
  simp only [decide_eq_decide]
  exact this.symm

/-- When no difference wraps, the logical slots are the current values placed at the
entry times. -/
theorem tourSlots_of_fit (tin : Nat → Nat) (L : List Nat) (hL : L.Nodup) :
    ∀ (ups : List (Nat × Int)) (values : Nat → Int), (∀ up ∈ ups, up.1 ∈ L) →
      DiffsFit values ups → ∀ j,
      slotValue (nodeOps L tin values) j + slotValue (diffOps tin values ups) j
        = slotValue (nodeOps L tin (finalValues values ups)) j := by
  intro ups
  induction ups with
  | nil =>
    intro values _ _ j
    simp [diffOps, finalValues, slotValue_nil]
  | cons up ups ih =>
    intro values hups hfit j
    obtain ⟨hfit1, hfit2⟩ := hfit
    have hmem := hups up (List.mem_cons_self _ _)
    have hih := ih (Function.update values up.1 up.2)
      (fun o ho => hups o (List.mem_cons_of_mem _ ho)) hfit2 j
    rw [slotValue_nodeOps_update tin values up.1 up.2 L hL hmem j] at hih
    rw [diffOps_cons, slotValue_cons, wrapInt_of_isInt hfit1]
    show _ = slotValue (nodeOps L tin (finalValues (Function.update values up.1 up.2) ups)) j
    rw [← hih]
    simp only
    ring

theorem finalValues_isInt : ∀ (ups : List (Nat × Int)) (values : Nat → Int),
    (∀ i, IsInt (values i)) → (∀ up ∈ ups, IsInt up.2) → ∀ i, IsInt (finalValues values ups i) := by
  intro ups
  induction ups with
  | nil => intro values hv _ i; exact hv i
  | cons up ups ih =>
    intro values hv hups i
    apply ih (Function.update values up.1 up.2)
    · intro k
      by_cases hk : k = up.1
      · subst hk
        rw [Function.update_same]
        exact hups up (List.mem_cons_self _ _)
      · rw [Function.update_noteq hk]
        exact hv k
    · exact fun o ho => hups o (List.mem_cons_of_mem _ ho)

theorem sum_map_bound (f : Nat → Int) : ∀ L : List Nat, (∀ x ∈ L, IsInt (f x)) →
    -2147483648 * (L.length : Int) ≤ (L.map f).sum ∧
      (L.map f).sum ≤ 2147483648 * (L.length : Int) := by
  intro L
  induction L with
  | nil => intro _; simp
  | cons x L ih =>
    intro h
    have hx := h x (List.mem_cons_self _ _)
    have hr := ih (fun y hy => h y (List.mem_cons_of_mem _ hy))
    unfold IsInt at hx
    rw [List.map_cons, List.sum_cons, List.length_cons]
    push_cast
    omega

/-- Within the capacity a sum of `int` values over distinct nodes fits in a `long long`. -/
theorem subtreeSum_isLong {N : Nat} {adj : Nat → List Nat} {t : RTree} (h : IsTreeOn N adj t)
    (hN : N < MAXN) (values : Nat → Int) (hv : ∀ i, IsInt (values i)) (u : Nat) :
    IsLong (subtreeSum t values u) := by
  have hb := sum_map_bound values (t.nodes.filter (fun d => inSubtree t u d))
    (fun x _ => hv x)
  have hlen : (t.nodes.filter (fun d => inSubtree t u d)).length ≤ N := by
    rw [← h.length]
    exact List.length_filter_le _ _
  unfold subtreeSum IsLong
  unfold MAXN at hN
  omega

/-- One node update at machine width returns, stores the new value, and adds the 32-bit
difference to the logical slot at the entry time of the node. -/
theorem updateNodeM_inv {n : Nat} (hn : n < MAXN) (fuel : Nat) (hf : n ≤ fuel)
    (tin : Nat → Nat) (st : AggState) (a : Nat → Int) (h : FenInvM n st.bit a) (u : Nat)
    (v : Int) (htin : 1 ≤ tin u ∧ tin u ≤ n) :
    ∃ st2, updateNodeM n fuel tin u v st = .returned st2 ∧
      st2.values = Function.update st.values u v ∧
      FenInvM n st2.bit
        (Function.update a (tin u) (a (tin u) + wrapInt (v - st.values u))) := by
  obtain ⟨bit1, hb1, h1⟩ := updateM_inv hn h fuel (tin u) (wrapInt (v - st.values u))
    htin.1 htin.2 hf
  exact ⟨⟨bit1, Function.update st.values u v⟩, by rw [updateNodeM, hb1]; rfl, rfl, h1⟩

theorem sum_Icc_update (a : Nat → Int) (k : Nat) (d : Int) (lo hi : Nat) :
    ∑ j ∈ Finset.Icc lo hi, Function.update a k (a k + d) j
      = ∑ j ∈ Finset.Icc lo hi, a j + if lo ≤ k ∧ k ≤ hi then d else 0 := by
  have hsplit : ∀ j, Function.update a k (a k + d) j = a j + if j = k then d else 0 := by
    intro j
    by_cases hj : j = k
    · subst hj; simp
    · rw [Function.update_noteq hj, if_neg hj]; simp
  simp only [hsplit, Finset.sum_add_distrib, Finset.sum_ite_eq', Finset.mem_Icc]

theorem oneTree_isTreeOn : IsTreeOn 1 oneAdj oneTree :=
  ⟨by decide, .node _ _ _ (by decide) (by simp)⟩

/-- The run on the one-node tree with `values[1] = -1` and the node update of node 1 to
`INT_MAX`: the 32-bit difference wraps to `-2^31`, so the range query of node 1 goes from
`-1` to `-2147483649` while the stored value becomes `2147483647`. -/
theorem one_node_run :
    ∃ s bit st, dfs oneAdj 1 1 0 TourState.init = some s ∧
      s.tin 1 = 1 ∧ s.tout 1 = 1 ∧
      initLoopM 1 1 s.tin negOnes (fun _ => 0) = .returned bit ∧
      query_rangeM bit 1 (s.tin 1 : Int) (s.tout 1 : Int) = .returned (-1) ∧
      updateNodeM 1 1 s.tin 1 2147483647 ⟨bit, negOnes⟩ = .returned st ∧
      updateNodesM 1 1 s.tin [(1, 2147483647)] ⟨bit, negOnes⟩ = .returned st ∧
      st.values 1 = 2147483647 ∧
      query_rangeM st.bit 1 (s.tin 1 : Int) (s.tout 1 : Int) = .returned (-2147483649) := by
  have hN : 1 < MAXN := by decide
  obtain ⟨s, bit, st0, hs, hb, hu0, _, hst, hinv0⟩ := tour_machine oneTree_isTreeOn hN negOnes 1
    (le_refl 1) [] (by simp)
  have hst0 : st0 = ⟨bit, negOnes⟩ := by
    simp only [updateNodesM] at hu0
    exact (Run.returned.inj hu0).symm
  subst hst0
  have hbnd := hst.tin_bounds 1 (by decide)
  have hlen : oneTree.nodes.length = 1 := rfl
  rw [hlen] at hbnd
  have htin : s.tin 1 = 1 := by omega
  have htout : s.tout 1 = 1 := by omega
  obtain ⟨st, hu, hv, hinv⟩ := updateNodeM_inv hN 1 (le_refl 1) s.tin ⟨bit, negOnes⟩ _ hinv0
    1 2147483647 ⟨by omega, by omega⟩
  have hq0 := tour_queryM oneTree_isTreeOn hN hst hinv0 1 (le_refl 1) 1 (by decide)
  have hq := tour_queryM oneTree_isTreeOn hN hst hinv 1 (le_refl 1) 1 (by decide)
  have hslot : tourSlots 1 s.tin negOnes [] 1 = -1 := by
    simp [tourSlots, nodeOps, diffOps, slotValue, htin, negOnes]
  have hd : wrapInt (2147483647 - negOnes 1) = -2147483648 := by decide
  have hw1 : wrapLong (-1) = -1 := by decide
  have hw2 : wrapLong (-1 + -2147483648) = -2147483649 := by decide
  rw [htin, htout, Finset.Icc_self, Finset.sum_singleton, hslot, hw1] at hq0
  rw [htin, htout, Finset.Icc_self, Finset.sum_singleton, Function.update_same, hslot] at hq
  simp only [hd, hw2] at hq
  refine ⟨s, bit, st, hs, htin, htout, hb, ?_, hu, ?_, ?_, ?_⟩
  · rw [htin, htout]; exact hq0
  · rw [updateNodesM, hu]; rfl
  · rw [hv, Function.update_same]
  · rw [htin, htout]; exact hq

/-- C4, the claim as stated is false: on the one-node tree with `values[1] = -1`, the node
update of node 1 to `INT_MAX` should raise the subtree sum of node 1 by
`INT_MAX - (-1) = 2^31`; the `int diff` of the code wraps to `-2^31`, and the query goes
from `-1` to `-2147483649`. -/
theorem update_linearity_claim_false :
    IsTreeOn 1 oneAdj oneTree ∧ inSubtree oneTree 1 1 ∧
      ∃ s bit st, dfs oneAdj 1 1 0 TourState.init = some s ∧
        initLoopM 1 1 s.tin negOnes (fun _ => 0) = .returned bit ∧
        query_rangeM bit 1 (s.tin 1 : Int) (s.tout 1 : Int) = .returned (-1) ∧
        updateNodeM 1 1 s.tin 1 2147483647 ⟨bit, negOnes⟩ = .returned st ∧
        query_rangeM st.bit 1 (s.tin 1 : Int) (s.tout 1 : Int) = .returned (-2147483649) ∧
        (-2147483649 : Int) ≠ -1 + (2147483647 - negOnes 1) := by
  obtain ⟨s, bit, st, hs, _, _, hb, hq0, hu, _, _, hq⟩ := one_node_run
  exact ⟨oneTree_isTreeOn, by decide, s, bit, st, hs, hb, hq0, hu, hq, by decide⟩

/-- C4, amended: in a state built by the traversal, the initialisation loop and any
earlier node updates, on a tree within the capacity `MAXN`, the node update of `u` to `v`
changes `query_range(tin[a], tout[a])` by exactly the difference `diff = v - values[u]`
as the code computes it in 32-bit `int`, the sum being kept in `long long`, for every node
`a` whose subtree contains `u` (`u` itself and its ancestors): this is exactly
`v - previousValue(u)` whenever that difference fits in an `int` and the new sum fits in a
`long long`.  The query is unchanged for every other node. -/
theorem update_linearity_wrapped (N : Nat) (adj : Nat → List Nat) (t : RTree)
    (h : IsTreeOn N adj t) (hN : N < MAXN) (values : Nat → Int) (fuel : Nat) (hf : N ≤ fuel)
    (ups : List (Nat × Int)) (hups : ∀ up ∈ ups, up.1 ∈ t.nodes)
    (u : Nat) (hu : u ∈ t.nodes) (v : Int) :
    ∃ s bit st st2, dfs adj fuel t.label 0 TourState.init = some s ∧
      initLoopM N fuel s.tin values (fun _ => 0) = .returned bit ∧
      updateNodesM N fuel s.tin ups ⟨bit, values⟩ = .returned st ∧
      st.values = finalValues values ups ∧
      updateNodeM N fuel s.tin u v st = .returned st2 ∧
      st2.values = Function.update st.values u v ∧
      ∀ a ∈ t.nodes, ∃ q q2,
        query_rangeM st.bit fuel (s.tin a : Int) (s.tout a : Int) = .returned q ∧
        query_rangeM st2.bit fuel (s.tin a : Int) (s.tout a : Int) = .returned q2 ∧
        (inSubtree t a u →
          q2 = wrapLong (q + wrapInt (v - st.values u)) ∧
          (IsInt (v - st.values u) → IsLong (q + (v - st.values u)) →
            q2 = q + (v - st.values u))) ∧
        (¬ inSubtree t a u → q2 = q) := by
  obtain ⟨s, bit, st, hs, hb, hupd, hval, hst, hinv⟩ := tour_machine h hN values fuel hf ups
    hups
  have hu2 := (h.mem_nodes u).1 hu
  have htu := hst.tin_bounds u hu
  rw [h.length] at htu
  obtain ⟨st2, h2, hval2, hinv2⟩ := updateNodeM_inv hN fuel hf s.tin st _ hinv u v
    ⟨htu.1, by omega⟩
  refine ⟨s, bit, st, st2, hs, hb, hupd, hval, h2, hval2, ?_⟩
  intro a ha
  have hq := tour_queryM h hN hst hinv fuel hf a ha
  have hq2 := tour_queryM h hN hst hinv2 fuel hf a ha
  rw [sum_Icc_update] at hq2
  have hint := hst.interval h.nodup a u ha hu
  refine ⟨_, _, hq, hq2, ?_, ?_⟩
  · intro hin
    rw [if_pos (hint.1 hin)]
    have hw : wrapLong (∑ j ∈ Finset.Icc (s.tin a) (s.tout a), tourSlots N s.tin values ups j
          + wrapInt (v - st.values u))
        = wrapLong (wrapLong (∑ j ∈ Finset.Icc (s.tin a) (s.tout a),
            tourSlots N s.tin values ups j) + wrapInt (v - st.values u)) :=
      (wrapLong_add_left _ _).symm
    refine ⟨hw, ?_⟩
    intro hfit hlong
    rw [hw, wrapInt_of_isInt hfit, wrapLong_of_isLong hlong]
  · intro hin
    rw [if_neg (fun hc => hin (hint.2 hc))]
    simp

/-- Wrapped update linearity at the reference tree: node 3 is set to 7, then node 4 to
100. -/
theorem update_linearity_wrapped_witness :
    IsTreeOn 5 refAdj refTree ∧ 5 < MAXN ∧ 5 ≤ 5 ∧
      (∀ up ∈ [((3 : Nat), (7 : Int))], up.1 ∈ refTree.nodes) ∧ 4 ∈ refTree.nodes ∧
      ∃ s bit st st2, dfs refAdj 5 refTree.label 0 TourState.init = some s ∧
        initLoopM 5 5 s.tin mainValues (fun _ => 0) = .returned bit ∧
        updateNodesM 5 5 s.tin [((3 : Nat), (7 : Int))] ⟨bit, mainValues⟩ = .returned st ∧
        st.values = finalValues mainValues [((3 : Nat), (7 : Int))] ∧
        updateNodeM 5 5 s.tin 4 100 st = .returned st2 ∧
        st2.values = Function.update st.values 4 100 ∧
        ∀ a ∈ refTree.nodes, ∃ q q2,
          query_rangeM st.bit 5 (s.tin a : Int) (s.tout a : Int) = .returned q ∧
          query_rangeM st2.bit 5 (s.tin a : Int) (s.tout a : Int) = .returned q2 ∧
          (inSubtree refTree a 4 →
            q2 = wrapLong (q + wrapInt (100 - st.values 4)) ∧
            (IsInt (100 - st.values 4) → IsLong (q + (100 - st.values 4)) →
              q2 = q + (100 - st.values 4))) ∧
          (¬ inSubtree refTree a 4 → q2 = q) :=
  ⟨refTree_isTreeOn, by decide, le_refl 5, by decide, by decide,
    update_linearity_wrapped 5 refAdj refTree refTree_isTreeOn (by decide) mainValues 5
      (le_refl 5) [(3, 7)] (by decide) 4 (by decide) 100⟩

theorem mainValues_isInt : ∀ i, IsInt (mainValues i) := by
  intro i
  unfold mainValues
  split <;> decide

/-- A childless node has a one-point interval, and its subtree sum is its own value. -/
theorem leaf_interval_and_sum {t : RTree} {s : TourState} (hnd : t.nodes.Nodup)
    (hst : Stamped t.nodes t.subtrees TourState.init s) (u : Nat) (hleaf : isLeaf t u)
    (values : Nat → Int) :
    u ∈ t.nodes ∧ s.tin u = s.tout u ∧ subtreeSum t values u = values u := by
  obtain ⟨r, hr, hlab, hch⟩ := hleaf
  have hu : u ∈ t.nodes := hlab ▸ RTree.subtree_nodes_subset t r hr _ r.label_mem_nodes
  have hlen : r.nodes.length = 1 := by
    cases r with
    | node x cs =>
      simp only [RTree.children] at hch
      subst hch
      rfl
  have heq : s.tin u = s.tout u := by
    have := (hst.sub r hr).1
    rw [hlab, hlen] at this
    omega
  refine ⟨hu, heq, ?_⟩
  rw [subtreeSum, ← sum_filter_single values u t.nodes hnd hu]
  congr 2
  apply List.filter_congr
  intro d hd
  simp only [decide_eq_decide]
  rw [hst.interval hnd u d hu hd]
  constructor
  · intro hint
    exact hst.inj d hd u hu (by omega)
  · intro hdu
    subst hdu
    omega

theorem sum_range_eq_sum_Icc (f : Nat → Int) : ∀ m : Nat,
    ((List.range' 1 m).map f).sum = ∑ i ∈ Finset.Icc 1 m, f i := by
  intro m
  induction m with
  | zero => simp
  | succ m ihm =>
    rw [List.range'_concat, List.map_append, List.sum_append, ihm,
      ← Nat.Icc_insert_succ_right (by omega), Finset.sum_insert (by simp)]
    simp only [List.map_cons, List.map_nil, List.sum_cons, List.sum_nil, add_zero,
      Nat.add_comm 1 m, Nat.one_mul]
    exact add_comm _ _

/-- The root is stamped `[1, N]`, and its subtree sum is the sum of all values. -/
theorem root_interval_and_sum {N : Nat} {adj : Nat → List Nat} {t : RTree}
    (h : IsTreeOn N adj t) {s : TourState}
    (hst : Stamped t.nodes t.subtrees TourState.init s) (values : Nat → Int) :
    s.tin t.label = 1 ∧ s.tout t.label = N ∧
      subtreeSum t values t.label = ∑ i ∈ Finset.Icc 1 N, values i := by
  have hsz := (hst.sub t t.self_mem_subtrees).1
  have hb := hst.tin_bounds t.label t.label_mem_nodes
  rw [h.length] at hsz hb
  refine ⟨by omega, by omega, ?_⟩
  have hp := (hst.subtree_nodes h.nodup t t.self_mem_subtrees).trans h.1
  rw [subtreeSum, (hp.map values).sum_eq]
  exact sum_range_eq_sum_Icc values N

/-- At machine width, within the capacity, with `int` values and node updates whose
differences fit in an `int`, every subtree query returns the sum of the current values
in the subtree. -/
theorem tour_machine_fit {N : Nat} {adj : Nat → List Nat} {t : RTree} (h : IsTreeOn N adj t)
    (hN : N < MAXN) (values : Nat → Int) (hvals : ∀ i, IsInt (values i)) (fuel : Nat)
    (hf : N ≤ fuel) (ups : List (Nat × Int)) (hups : ∀ up ∈ ups, up.1 ∈ t.nodes)
    (hv : ∀ up ∈ ups, IsInt up.2) (hfit : DiffsFit values ups) :
    ∃ s bit st, dfs adj fuel t.label 0 TourState.init = some s ∧
      initLoopM N fuel s.tin values (fun _ => 0) = .returned bit ∧
      updateNodesM N fuel s.tin ups ⟨bit, values⟩ = .returned st ∧
      st.values = finalValues values ups ∧
      Stamped t.nodes t.subtrees TourState.init s ∧
      ∀ a ∈ t.nodes, query_rangeM st.bit fuel (s.tin a : Int) (s.tout a : Int)
        = .returned (subtreeSum t st.values a) := by
  obtain ⟨s, bit, st, hs, hb, hupd, hval, hst, hinv⟩ := tour_machine h hN values fuel hf ups
    hups
  refine ⟨s, bit, st, hs, hb, hupd, hval, hst, ?_⟩
  intro a ha
  have hinv2 : FenInvM N st.bit
      (slotValue (nodeOps (List.range' 1 N) s.tin (finalValues values ups))) := by
    refine hinv.of_same_slots ?_
    intro j
    exact (tourSlots_of_fit s.tin (List.range' 1 N) (List.nodup_range' 1 N) ups values
      (fun up hup => h.1.mem_iff.1 (hups up hup)) hfit j).symm
  rw [tour_queryM h hN hst hinv2 fuel hf a ha, interval_sum_eq_subtreeSum h hst _ a ha, hval,
    wrapLong_of_isLong (subtreeSum_isLong h hN _ (finalValues_isInt ups values hvals hv) a)]

/-- C10, the claim as stated is false: on the one-node tree (node 1 is a leaf) with
`values[1] = -1`, after the node update of node 1 to `INT_MAX` the current value of node 1
is `2147483647`, but `query_range(tin[1], tout[1])` returns `-2147483649`. -/
theorem leaf_degeneracy_claim_false :
    IsTreeOn 1 oneAdj oneTree ∧ isLeaf oneTree 1 ∧
      ∃ s bit st, dfs oneAdj 1 1 0 TourState.init = some s ∧
        initLoopM 1 1 s.tin negOnes (fun _ => 0) = .returned bit ∧
        updateNodesM 1 1 s.tin [(1, 2147483647)] ⟨bit, negOnes⟩ = .returned st ∧
        st.values 1 = 2147483647 ∧
        query_rangeM st.bit 1 (s.tin 1 : Int) (s.tout 1 : Int) = .returned (-2147483649) := by
  obtain ⟨s, bit, st, hs, _, _, hb, _, _, hu, hv, hq⟩ := one_node_run
  exact ⟨oneTree_isTreeOn, ⟨oneTree, by simp [oneTree, RTree.subtrees], rfl, rfl⟩,
    s, bit, st, hs, hb, hu, hv, hq⟩

/-- C10, amended: for every tree within the capacity `MAXN` given as symmetric adjacency
lists, every root and every node `u` without children in the rooted tree, after
`dfs(root, 0)` from `timer = 0` it holds that `tin[u] = tout[u]`; and after the
initialisation loop with `int` values and any sequence of node updates to `int` values
whose differences `v - values[u]` each fit in an `int`, `query_range(tin[u], tout[u])`
returns the current value of `u`. -/
theorem leaf_degeneracy_fit (N : Nat) (adj : Nat → List Nat) (t : RTree)
    (h : IsTreeOn N adj t) (hN : N < MAXN) (values : Nat → Int)
    (hvals : ∀ i, IsInt (values i)) (fuel : Nat) (hf : N ≤ fuel)
    (ups : List (Nat × Int)) (hups : ∀ up ∈ ups, up.1 ∈ t.nodes)
    (hv : ∀ up ∈ ups, IsInt up.2) (hfit : DiffsFit values ups)
    (u : Nat) (hleaf : isLeaf t u) :
    ∃ s bit st, dfs adj fuel t.label 0 TourState.init = some s ∧
      initLoopM N fuel s.tin values (fun _ => 0) = .returned bit ∧
      updateNodesM N fuel s.tin ups ⟨bit, values⟩ = .returned st ∧
      st.values = finalValues values ups ∧
      s.tin u = s.tout u ∧
      query_rangeM st.bit fuel (s.tin u : Int) (s.tout u : Int)
        = .returned (st.values u) := by
  obtain ⟨s, bit, st, hs, hb, hupd, hval, hst, hq⟩ := tour_machine_fit h hN values hvals fuel
    hf ups hups hv hfit
  obtain ⟨hu, heq, hsum⟩ := leaf_interval_and_sum h.nodup hst u hleaf st.values
  exact ⟨s, bit, st, hs, hb, hupd, hval, heq, by rw [hq u hu, hsum]⟩

/-- Leaf degeneracy at leaf 5 of the reference tree after two node updates. -/
theorem leaf_degeneracy_fit_witness :
    IsTreeOn 5 refAdj refTree ∧ 5 < MAXN ∧ (∀ i, IsInt (mainValues i)) ∧ 5 ≤ 5 ∧
      (∀ up ∈ [((5 : Nat), (9 : Int)), (2, 1)], up.1 ∈ refTree.nodes) ∧
      (∀ up ∈ [((5 : Nat), (9 : Int)), (2, 1)], IsInt up.2) ∧
      DiffsFit mainValues [((5 : Nat), (9 : Int)), (2, 1)] ∧ isLeaf refTree 5 ∧
      ∃ s bit st, dfs refAdj 5 refTree.label 0 TourState.init = some s ∧
        initLoopM 5 5 s.tin mainValues (fun _ => 0) = .returned bit ∧
        updateNodesM 5 5 s.tin [((5 : Nat), (9 : Int)), (2, 1)] ⟨bit, mainValues⟩
          = .returned st ∧
        st.values = finalValues mainValues [((5 : Nat), (9 : Int)), (2, 1)] ∧
        s.tin 5 = s.tout 5 ∧
        query_rangeM st.bit 5 (s.tin 5 : Int) (s.tout 5 : Int) = .returned (st.values 5) :=
  ⟨refTree_isTreeOn, by decide, mainValues_isInt, le_refl 5, by decide, by decide,
    ⟨by decide, by decide, trivial⟩,
    ⟨.node 5 [], by simp [refTree, RTree.subtrees, RTree.subtreesOfList], rfl, rfl⟩,
    leaf_degeneracy_fit 5 refAdj refTree refTree_isTreeOn (by decide) mainValues
      mainValues_isInt 5 (le_refl 5) [(5, 9), (2, 1)] (by decide) (by decide)
      ⟨by decide, by decide, trivial⟩
      5 ⟨.node 5 [], by simp [refTree, RTree.subtrees, RTree.subtreesOfList], rfl, rfl⟩⟩

/-- C15, the claim as stated is false: on the one-node tree with `values[1] = -1`, after
the node update of the root to `INT_MAX` the sum of the current values of all nodes is
`2147483647`, but `query_range(tin[1], tout[1])` returns `-2147483649`. -/
theorem root_total_claim_false :
    IsTreeOn 1 oneAdj oneTree ∧
      ∃ s bit st, dfs oneAdj 1 oneTree.label 0 TourState.init = some s ∧
        initLoopM 1 1 s.tin negOnes (fun _ => 0) = .returned bit ∧
        updateNodesM 1 1 s.tin [(1, 2147483647)] ⟨bit, negOnes⟩ = .returned st ∧
        ∑ i ∈ Finset.Icc 1 1, st.values i = 2147483647 ∧
        query_rangeM st.bit 1 (s.tin oneTree.label : Int) (s.tout oneTree.label : Int)
          = .returned (-2147483649) := by
  obtain ⟨s, bit, st, hs, _, _, hb, _, _, hu, hv, hq⟩ := one_node_run
  refine ⟨oneTree_isTreeOn, s, bit, st, hs, hb, hu, ?_, hq⟩
  rw [Finset.Icc_self, Finset.sum_singleton, hv]

/-- C15, amended: for every tree with `N` nodes, within the capacity `MAXN`, given as
symmetric adjacency lists and every root `r`, after `dfs(r, 0)` from `timer = 0` it holds
that `tin[r] = 1` and `tout[r] = N`; and after the initialisation loop with `int` values
and any sequence of node updates to `int` values whose differences `v - values[u]` each
fit in an `int`, `query_range(tin[r], tout[r])` returns the sum of the current values of
all `N` nodes. -/
theorem root_total_fit (N : Nat) (adj : Nat → List Nat) (t : RTree)
    (h : IsTreeOn N adj t) (hN : N < MAXN) (values : Nat → Int)
    (hvals : ∀ i, IsInt (values i)) (fuel : Nat) (hf : N ≤ fuel)
    (ups : List (Nat × Int)) (hups : ∀ up ∈ ups, up.1 ∈ t.nodes)
    (hv : ∀ up ∈ ups, IsInt up.2) (hfit : DiffsFit values ups) :
    ∃ s bit st, dfs adj fuel t.label 0 TourState.init = some s ∧
      initLoopM N fuel s.tin values (fun _ => 0) = .returned bit ∧
      updateNodesM N fuel s.tin ups ⟨bit, values⟩ = .returned st ∧
      st.values = finalValues values ups ∧
      s.tin t.label = 1 ∧ s.tout t.label = N ∧
      query_rangeM st.bit fuel (s.tin t.label : Int) (s.tout t.label : Int)
        = .returned (∑ i ∈ Finset.Icc 1 N, st.values i) := by
  obtain ⟨s, bit, st, hs, hb, hupd, hval, hst, hq⟩ := tour_machine_fit h hN values hvals fuel
    hf ups hups hv hfit
  obtain ⟨h1, h2, hsum⟩ := root_interval_and_sum h hst st.values
  exact ⟨s, bit, st, hs, hb, hupd, hval, h1, h2,
    by rw [hq t.label t.label_mem_nodes, hsum]⟩

/-- The root total at the reference tree after node 4 is set to 100. -/
theorem root_total_fit_witness :
    IsTreeOn 5 refAdj refTree ∧ 5 < MAXN ∧ (∀ i, IsInt (mainValues i)) ∧ 5 ≤ 5 ∧
      (∀ up ∈ [((4 : Nat), (100 : Int))], up.1 ∈ refTree.nodes) ∧
      (∀ up ∈ [((4 : Nat), (100 : Int))], IsInt up.2) ∧
      DiffsFit mainValues [((4 : Nat), (100 : Int))] ∧
      ∃ s bit st, dfs refAdj 5 refTree.label 0 TourState.init = some s ∧
        initLoopM 5 5 s.tin mainValues (fun _ => 0) = .returned bit ∧
        updateNodesM 5 5 s.tin [((4 : Nat), (100 : Int))] ⟨bit, mainValues⟩ = .returned st ∧
        st.values = finalValues mainValues [((4 : Nat), (100 : Int))] ∧
        s.tin refTree.label = 1 ∧ s.tout refTree.label = 5 ∧
        query_rangeM st.bit 5 (s.tin refTree.label : Int) (s.tout refTree.label : Int)
          = .returned (∑ i ∈ Finset.Icc 1 5, st.values i) :=
  ⟨refTree_isTreeOn, by decide, mainValues_isInt, le_refl 5, by decide, by decide,
    ⟨by decide, trivial⟩,
    root_total_fit 5 refAdj refTree refTree_isTreeOn (by decide) mainValues mainValues_isInt 5
      (le_refl 5) [(4, 100)] (by decide) (by decide) ⟨by decide, trivial⟩⟩

end EulerTour
